/-
Verification of the libtcspc Python processing-graph and on-demand
build pipeline.

This file gives a shallow embedding of the core data structures and
operations of `libtcspc._graph` (Graph, incremental Pearce-Kelly
topological ordering, event-type-flow propagation), the head of
`libtcspc._compile._graph_module_code` (the wiring-arity gate), the
`libtcspc._odext.Builder` state machine around external meson
subprocesses, and `libtcspc._odext.ExtensionImporter`.

Modelling conventions:
- Python `_Edge` objects are shared mutable objects: the same object is
  referenced from both the input-edge table and the output-edge table,
  and event-set writes through one table are visible through the other.
  We model this with an explicit edge heap (`List Edge`) and tables of
  heap references, so that aliasing (and its deliberate absence in the
  dry-run copies made by `Graph.map_event_sets`) is represented exactly.
- Python ints are `Int`; node ids are `Int` (pseudo-edges use -1), list
  positions are `Nat`. The edge-table dicts are keyed by the dense node
  ids 0..n-1 and are modelled as lists indexed by node id.
- Exceptions are modelled as `Option String` (the raised message) paired
  with the post-call state, so that partial mutation on a failing call
  is observable, exactly as in Python.
- External effects (meson subprocesses, the filesystem) are modelled as
  explicit parameters carrying their observable outcomes.
-/
import Mathlib

/-- An event type tag (`EventType` in `libtcspc._events`). -/
abbrev EvT := Nat

/-- `_Edge` from `libtcspc._graph`: producer node id, consumer node id and
the event set currently flowing along the edge. -/
structure Edge where
  producerId : Int
  consumerId : Int
  eventSet : List EvT
deriving Repr, DecidableEq, Inhabited

/-- A graph `Node`: ordered input/output port names and the type-flow
function `map_event_sets` (raising = `Except.error`). The code-emission
capability is not modelled (out of scope of the claims). -/
structure Node where
  inputs : List String
  outputs : List String
  mapEventSets : List (List EvT) → Except String (List (List EvT))

instance : Inhabited Node := ⟨⟨[], [], fun _ => .error "abstract node"⟩⟩

/-- The state of a `Graph`: node list (a node's id is its index), the
topologically sorted node ids, the edge heap, and the two edge tables
(`_input_edge_index` / `_output_edge_index`), per node id a list with one
slot per port holding a heap reference where connected. -/
structure GraphSt where
  nodes : List (String × Node)
  tsorted : List Int
  heap : List Edge
  inTbl : List (List (Option Nat))
  outTbl : List (List (Option Nat))

/-- Row access of an edge table by node id (`input_edges[node_id]`). -/
def tblGet (t : List (List (Option Nat))) (i : Int) : List (Option Nat) :=
  t.getD i.toNat []

/-- Dereference an edge-heap reference. -/
def heapGet (heap : List Edge) (r : Nat) : Edge :=
  heap.getD r default

/-- `list.index(x)` on the topological order (callers only use it on
members, where it returns the unique position). -/
def idxOfI (l : List Int) (x : Int) : Nat :=
  l.indexOf x

/-- `any(edge is not None and edge.producer_id in ids for edge in slots)`:
the membership test driving the forward scan and the cycle check of
`_update_topological_order`. -/
def producerHit (heap : List Edge) (slots : List (Option Nat)) (ids : List Int) : Bool :=
  slots.any fun s =>
    match s with
    | some r => decide ((heapGet heap r).producerId ∈ ids)
    | none => false

/-- The corresponding test on output edges (`edge.consumer_id in ids`). -/
def consumerHit (heap : List Edge) (slots : List (Option Nat)) (ids : List Int) : Bool :=
  slots.any fun s =>
    match s with
    | some r => decide ((heapGet heap r).consumerId ∈ ids)
    | none => false

/-- The forward scan of `_update_topological_order`: walk the given
positions (ascending interior of the affected region), collecting
`(node_id, position)` for nodes with an input edge whose producer was
already collected (seeded by the new edge's consumer `cId`). -/
def forwardScanAux (tsorted : List Int) (inTbl : List (List (Option Nat)))
    (heap : List Edge) (cId : Int) : List Nat → List (Int × Nat) → List (Int × Nat)
  | [], acc => acc
  | i :: rest, acc =>
    let nodeId := tsorted.getD i 0
    if producerHit heap (tblGet inTbl nodeId) (cId :: acc.map Prod.fst) then
      forwardScanAux tsorted inTbl heap cId rest (acc ++ [(nodeId, i)])
    else
      forwardScanAux tsorted inTbl heap cId rest acc

/-- The backward scan of `_update_topological_order`: walk the given
positions (descending interior of the affected region), collecting nodes
with an output edge whose consumer was already collected (seeded by the
new edge's producer `pId`). -/
def backwardScanAux (tsorted : List Int) (outTbl : List (List (Option Nat)))
    (heap : List Edge) (pId : Int) : List Nat → List (Int × Nat) → List (Int × Nat)
  | [], acc => acc
  | i :: rest, acc =>
    let nodeId := tsorted.getD i 0
    if consumerHit heap (tblGet outTbl nodeId) (pId :: acc.map Prod.fst) then
      backwardScanAux tsorted outTbl heap pId rest (acc ++ [(nodeId, i)])
    else
      backwardScanAux tsorted outTbl heap pId rest acc

/-- The ascending interior positions of the affected region
(`range(iconsumer + 1, iproducer)`). -/
def arInterior (iconsumer iproducer : Nat) : List Nat :=
  List.range' (iconsumer + 1) (iproducer - (iconsumer + 1))

/-- `forward_node_ids` of `_update_topological_order`: the new edge's
consumer followed by the forward-reachable nodes collected in the
affected-region interior, in ascending position order. -/
def pkForwardIds (tsorted : List Int) (inTbl : List (List (Option Nat)))
    (heap : List Edge) (cId : Int) (iconsumer iproducer : Nat) : List Int :=
  cId :: (forwardScanAux tsorted inTbl heap cId (arInterior iconsumer iproducer) []).map Prod.fst

/-- `backward_node_ids` (after the final `reverse()`): the nodes reaching
the new edge's producer collected in the affected-region interior, in
ascending position order, ending with the producer itself. -/
def pkBackwardIds (tsorted : List Int) (outTbl : List (List (Option Nat)))
    (heap : List Edge) (pId : Int) (iconsumer iproducer : Nat) : List Int :=
  (pId :: (backwardScanAux tsorted outTbl heap pId
    (arInterior iconsumer iproducer).reverse []).map Prod.fst).reverse

/-- `dest_indices = sorted(swappable_indices)`: the positions of the
collected nodes (including `iconsumer` and `iproducer`), sorted. -/
def pkDest (tsorted : List Int) (inTbl outTbl : List (List (Option Nat)))
    (heap : List Edge) (cId pId : Int) (iconsumer iproducer : Nat) : List Nat :=
  List.insertionSort (· ≤ ·)
    (iconsumer :: iproducer ::
      ((forwardScanAux tsorted inTbl heap cId (arInterior iconsumer iproducer) []).map Prod.snd
        ++ (backwardScanAux tsorted outTbl heap pId
              (arInterior iconsumer iproducer).reverse []).map Prod.snd))

/-- `_update_topological_order` (Pearce-Kelly 2007 incremental update).
Returns the updated order, or the cycle error; the input order is
unchanged when the error is raised (the writes happen after the check).
-/
def updateTopologicalOrder (tsorted : List Int) (inTbl outTbl : List (List (Option Nat)))
    (heap : List Edge) (newEdge : Edge) : Except String (List Int) :=
  let iproducer := idxOfI tsorted newEdge.producerId
  let iconsumer := idxOfI tsorted newEdge.consumerId
  if iproducer < iconsumer then
    .ok tsorted
  else
    if producerHit heap (tblGet inTbl newEdge.producerId)
        (pkForwardIds tsorted inTbl heap newEdge.consumerId iconsumer iproducer) then
      .error "cycle introduced in graph"
    else
      let destIndices := pkDest tsorted inTbl outTbl heap
        newEdge.consumerId newEdge.producerId iconsumer iproducer
      let reorderedIds :=
        pkBackwardIds tsorted outTbl heap newEdge.producerId iconsumer iproducer
          ++ pkForwardIds tsorted inTbl heap newEdge.consumerId iconsumer iproducer
      .ok ((destIndices.zip reorderedIds).foldl (fun l iv => l.set iv.1 iv.2) tsorted)

/-- The write half of one propagation step: assign the freshly computed
event sets to the connected output edges of a node
(`for edge, event_set in zip(...): if edge is not None: ...`); pairs past
the shorter list are not written (`zip` yields the common prefix before
`strict=True` raises). -/
def writeOutSets (heap : List Edge) : List (Option Nat) → List (List EvT) → List Edge
  | s :: slots, es :: rest =>
    (match s with
     | some r => writeOutSets (heap.set r { heapGet heap r with eventSet := es }) slots rest
     | none => writeOutSets heap slots rest)
  | _, _ => heap

/-- The node-by-node loop of `_update_edge_event_sets`: for each node id
in order, gather the event sets on its input edges (empty set where
unconnected), invoke the node's type-flow function, and write the results
to its connected output edges. A raising type-flow function (or a
`strict=True` zip mismatch) stops the loop; the partially updated heap is
kept, exactly as the partially mutated `_Edge` objects are in Python. -/
def updateEdgeEventSetsGo (nodes : List (String × Node))
    (inTbl outTbl : List (List (Option Nat))) :
    List Int → List Edge → List Edge × Option String
  | [], heap => (heap, none)
  | nodeId :: rest, heap =>
    let node := (nodes.getD nodeId.toNat default).2
    let inSets := (tblGet inTbl nodeId).map fun s =>
      match s with
      | some r => (heapGet heap r).eventSet
      | none => []
    match node.mapEventSets inSets with
    | .error e => (heap, some e)
    | .ok outSets =>
      let heap2 := writeOutSets heap (tblGet outTbl nodeId) outSets
      if outSets.length = (tblGet outTbl nodeId).length then
        updateEdgeEventSetsGo nodes inTbl outTbl rest heap2
      else
        (heap2, some "zip() arguments have different lengths")

/-- `_update_edge_event_sets`: run the propagation over the suffix of the
topological order starting at `startNodeId` (or the whole order). -/
def updateEdgeEventSets (nodes : List (String × Node)) (tsorted : List Int)
    (inTbl outTbl : List (List (Option Nat))) (heap : List Edge)
    (startNodeId : Option Int) : List Edge × Option String :=
  let istart :=
    match startNodeId with
    | none => 0
    | some s => idxOfI tsorted s
  updateEdgeEventSetsGo nodes inTbl outTbl (tsorted.drop istart) heap

/-- `Graph.__init__`: the empty graph. -/
def graphInit : GraphSt := ⟨[], [], [], [], []⟩

/-- `Graph.add_node` with an explicit name (the auto-naming branch for
`name=None`, and the convenience `upstream`/`downstream` arguments —
which are realised by follow-up `connect` calls — are not modelled).
Returns the post-call state and the raised message if the name exists. -/
def addNode (g : GraphSt) (name : String) (node : Node) : GraphSt × Option String :=
  if (g.nodes.map Prod.fst).contains name then
    (g, some ("node with name " ++ name ++ " already exists"))
  else
    ({ nodes := g.nodes ++ [(name, node)]
       tsorted := g.tsorted ++ [(g.nodes.length : Int)]
       heap := g.heap
       inTbl := g.inTbl ++ [List.replicate node.inputs.length none]
       outTbl := g.outTbl ++ [List.replicate node.outputs.length none] }, none)

/-- Event sets currently arriving at the input ports of a node
(`(e.event_set if e is not None else ()) for e in input_edges[...]`). -/
def inputEventSetsOf (heap : List Edge) (row : List (Option Nat)) : List (List EvT) :=
  row.map fun s =>
    match s with
    | some r => (heapGet heap r).eventSet
    | none => []

/-- `Graph.connect` with explicit `(node, port)` pairs (the bare-name
forms default to port "output"/"input" and are the same call). Returns
the post-call state and the raised message, if any. The rollback on
failure of the topological update or of the propagation restores the two
edge-table slots (only); the new edge object becomes unreachable and is
dropped from the heap, while the topological order and any event sets
already overwritten by the partial propagation keep their new values. -/
def connect (g : GraphSt) (producer consumer : String × String) : GraphSt × Option String :=
  match g.nodes.findIdx? (fun p => p.1 == producer.1),
      g.nodes.findIdx? (fun p => p.1 == consumer.1) with
  | none, _ => (g, some "KeyError: unknown node name")
  | _, none => (g, some "KeyError: unknown node name")
  | some ipnode, some icnode =>
    let pnode := (g.nodes.getD ipnode default).2
    let cnode := (g.nodes.getD icnode default).2
    match pnode.outputs.indexOf? producer.2, cnode.inputs.indexOf? consumer.2 with
    | none, _ => (g, some "ValueError: port is not in list")
    | _, none => (g, some "ValueError: port is not in list")
    | some ipport, some icport =>
      if ((g.inTbl.getD icnode []).getD icport none).isSome then
        (g, some "input port already connected")
      else if ((g.outTbl.getD ipnode []).getD ipport none).isSome then
        (g, some "output port already connected")
      else
        match pnode.mapEventSets (inputEventSetsOf g.heap (g.inTbl.getD ipnode [])) with
        | .error e => (g, some e)
        | .ok outSets =>
          match outSets.get? ipport with
          | none => (g, some "IndexError: list index out of range")
          | some eventSet =>
            let ref := g.heap.length
            let edge : Edge := ⟨(ipnode : Int), (icnode : Int), eventSet⟩
            let heap1 := g.heap ++ [edge]
            let inTbl1 := g.inTbl.set icnode ((g.inTbl.getD icnode []).set icport (some ref))
            let outTbl1 := g.outTbl.set ipnode ((g.outTbl.getD ipnode []).set ipport (some ref))
            match updateTopologicalOrder g.tsorted inTbl1 outTbl1 heap1 edge with
            | .error e =>
              -- rollback(): clear the two slots (the new edge object is
              -- unreachable afterwards and is garbage collected).
              ({ g with
                 inTbl := inTbl1.set icnode ((inTbl1.getD icnode []).set icport none)
                 outTbl := outTbl1.set ipnode ((outTbl1.getD ipnode []).set ipport none)
                 heap := heap1.take g.heap.length }, some e)
            | .ok tsorted1 =>
              match updateEdgeEventSets g.nodes tsorted1 inTbl1 outTbl1 heap1 (some icnode) with
              | (heap2, some e) =>
                -- rollback(): as above; the reordered topological order and
                -- the event-set writes already made are kept.
                ({ g with
                   tsorted := tsorted1
                   inTbl := inTbl1.set icnode ((inTbl1.getD icnode []).set icport none)
                   outTbl := outTbl1.set ipnode ((outTbl1.getD ipnode []).set ipport none)
                   heap := heap2.take g.heap.length }, some e)
              | (heap2, none) =>
                ({ g with
                   tsorted := tsorted1
                   inTbl := inTbl1
                   outTbl := outTbl1
                   heap := heap2 }, none)

/-- Positions `(i, row[i])` of a table row. -/
def enumRow (row : List (Option Nat)) : List (Nat × Option Nat) :=
  row.enum

/-- The open (unconnected) slots of a table row, in port order. -/
def openSlots (row : List (Option Nat)) : List Nat :=
  row.enum.filterMap fun p =>
    match p.2 with
    | none => some p.1
    | some _ => none

/-- `Graph._inputs()`: `(node_id, port_index)` of all open input ports. -/
def graphInputPorts (g : GraphSt) : List (Nat × Nat) :=
  (List.range g.nodes.length).flatMap fun nodeId =>
    (openSlots (g.inTbl.getD nodeId [])).map fun q => (nodeId, q)

/-- `Graph._outputs()`: `(node_id, port_index)` of all open output ports. -/
def graphOutputPorts (g : GraphSt) : List (Nat × Nat) :=
  (List.range g.nodes.length).flatMap fun nodeId =>
    (openSlots (g.outTbl.getD nodeId [])).map fun q => (nodeId, q)

/-- `Graph.inputs()`: `(node_name, port_name)` of all open input ports. -/
def graphInputs (g : GraphSt) : List (String × String) :=
  ((List.range g.nodes.length).flatMap fun nodeId =>
    (openSlots (g.inTbl.getD nodeId [])).map fun q => (nodeId, q)).map fun p =>
      ((g.nodes.getD p.1 default).1, ((g.nodes.getD p.1 default).2.inputs.getD p.2 ""))

/-- `Graph.outputs()`: `(node_name, port_name)` of all open output ports. -/
def graphOutputs (g : GraphSt) : List (String × String) :=
  ((List.range g.nodes.length).flatMap fun nodeId =>
    (openSlots (g.outTbl.getD nodeId [])).map fun q => (nodeId, q)).map fun p =>
      ((g.nodes.getD p.1 default).1, ((g.nodes.getD p.1 default).2.outputs.getD p.2 ""))

/-- `copy.deepcopy` of one edge-table row: each referenced `_Edge` object
is replaced by a fresh copy appended to the destination heap `dst`. -/
def copyRow (heap : List Edge) (row : List (Option Nat)) (dst : List Edge) :
    List (Option Nat) × List Edge :=
  row.foldl
    (fun acc s =>
      match s with
      | none => (acc.1 ++ [none], acc.2)
      | some r => (acc.1 ++ [some acc.2.length], acc.2 ++ [heapGet heap r]))
    ([], dst)

/-- `copy.deepcopy` of a whole edge table. Two separate `deepcopy` calls
(as made by `Graph.map_event_sets` for the input and the output table)
yield disjoint copies: references copied by one call do not alias cells
copied by the other. -/
def copyTable (heap : List Edge) (tbl : List (List (Option Nat))) (dst : List Edge) :
    List (List (Option Nat)) × List Edge :=
  tbl.foldl
    (fun acc row =>
      let rc := copyRow heap row acc.2
      (acc.1 ++ [rc.1], rc.2))
    ([], dst)

/-- Install the input pseudo-edges `_Edge(-1, node_id, tuple(event_set))`
for the candidate input event sets, one per open input port. -/
def addInputPseudoEdges (tbl : List (List (Option Nat))) (heap : List Edge) :
    List (Nat × Nat) → List (List EvT) → List (List (Option Nat)) × List Edge
  | (nodeId, q) :: ports, es :: rest =>
    let ref := heap.length
    addInputPseudoEdges
      (tbl.set nodeId ((tbl.getD nodeId []).set q (some ref)))
      (heap ++ [⟨-1, (nodeId : Int), es⟩]) ports rest
  | _, _ => (tbl, heap)

/-- Install the output pseudo-edges `_Edge(node_id, -1, ())`, one per open
output port, returning their heap references in port order. -/
def addOutputPseudoEdges (tbl : List (List (Option Nat))) (heap : List Edge) :
    List (Nat × Nat) → List (List (Option Nat)) × List Edge × List Nat
  | [] => (tbl, heap, [])
  | (nodeId, q) :: ports =>
    let ref := heap.length
    let rec1 := addOutputPseudoEdges
      (tbl.set nodeId ((tbl.getD nodeId []).set q (some ref)))
      (heap ++ [⟨(nodeId : Int), -1, []⟩]) ports
    (rec1.1, rec1.2.1, ref :: rec1.2.2)

/-- `Graph.map_event_sets`: the non-mutating dry run. The input table and
the output table are deep-copied by two separate `deepcopy` calls into
disjoint cells of a scratch heap (so a write through an output-table copy
is not seen through the input-table copy), pseudo-edges inject the
candidate input sets and capture the output sets, and the propagation
runs over the whole topological order. `self` is only read. -/
def mapEventSets (g : GraphSt) (inputEventSets : List (List EvT)) :
    GraphSt × Except String (List (List EvT)) :=
  if (graphInputPorts g).length ≠ inputEventSets.length then
    (g, .error "zip() arguments have different lengths")
  else
    let c1 := copyTable g.heap g.inTbl []
    let p1 := addInputPseudoEdges c1.1 c1.2 (graphInputPorts g) inputEventSets
    let c2 := copyTable g.heap g.outTbl p1.2
    let p2 := addOutputPseudoEdges c2.1 c2.2 (graphOutputPorts g)
    match updateEdgeEventSets g.nodes g.tsorted p1.1 p2.1 p2.2.1 none with
    | (_, some e) => (g, .error e)
    | (heap2, none) => (g, .ok (p2.2.2.map fun r => (heapGet heap2 r).eventSet))

instance {ε α : Type _} [DecidableEq ε] [DecidableEq α] : DecidableEq (Except ε α) :=
  fun x y =>
    match x, y with
    | .ok a, .ok b => decidable_of_iff (a = b) (by simp)
    | .ok _, .error _ => isFalse (by simp)
    | .error _, .ok _ => isFalse (by simp)
    | .error e, .error f => decidable_of_iff (e = f) (by simp)

/-! ### Sanity checks

Re-runs of the unit tests in `tests/test_graph_update_topological_order.py`
and `tests/test_graph_update_edge_event_sets.py` against the embedding. -/

/-- `test_two_node_already_sorted`. -/
theorem sanity_two_node_already_sorted :
    updateTopologicalOrder [0, 1] [[none], [none]] [[none], [none]] [] ⟨0, 1, []⟩ =
      .ok [0, 1] := by decide

/-- `test_two_node_not_sorted`. -/
theorem sanity_two_node_not_sorted :
    updateTopologicalOrder [0, 1] [[none], [none]] [[none], [none]] [] ⟨1, 0, []⟩ =
      .ok [1, 0] := by decide

/-- `test_two_node_not_sorted_edge_preadded`. -/
theorem sanity_two_node_not_sorted_edge_preadded :
    updateTopologicalOrder [0, 1] [[some 0], [none]] [[none], [some 0]]
      [⟨1, 0, []⟩] ⟨1, 0, []⟩ = .ok [1, 0] := by decide

/-- `test_unrelated_node_in_ar`. -/
theorem sanity_unrelated_node_in_ar :
    updateTopologicalOrder [0, 1, 2] [[none], [none], [none]] [[none], [none], [none]]
      [] ⟨2, 0, []⟩ = .ok [2, 1, 0] := by decide

/-- `test_downstream_node_in_ar`. -/
theorem sanity_downstream_node_in_ar :
    updateTopologicalOrder [0, 1, 2] [[none], [some 0], [none]] [[some 0], [none], [none]]
      [⟨0, 1, []⟩] ⟨2, 0, []⟩ = .ok [2, 0, 1] := by decide

/-- `test_upstream_node_in_ar`. -/
theorem sanity_upstream_node_in_ar :
    updateTopologicalOrder [0, 1, 2] [[none], [none], [some 0]] [[none], [some 0], [none]]
      [⟨1, 2, []⟩] ⟨2, 0, []⟩ = .ok [1, 2, 0] := by decide

/-- `test_create_cycle_raises`. -/
theorem sanity_create_cycle_raises :
    updateTopologicalOrder [0, 1, 2] [[none], [none], [some 0]] [[some 0], [none], [none]]
      [⟨0, 2, []⟩] ⟨2, 0, []⟩ = .error "cycle introduced in graph" := by decide

/-- `test_pearce_kelly_2007_example`: existing edges y→a→c and b→x, new
edge x→y, with y, a, b, c, x at positions 1, 4, 6, 9, 11 of 13 nodes. -/
theorem sanity_pearce_kelly_2007_example :
    updateTopologicalOrder
      [0, 1, 2, 3, 4, 5, 6, 7, 8, 9, 10, 11, 12]
      [[none], [none], [none], [none], [some 0], [none], [none], [none], [none],
        [some 1], [none], [some 2], [none]]
      [[none], [some 0], [none], [none], [some 1], [none], [some 2], [none], [none],
        [none], [none], [none], [none]]
      [⟨1, 4, []⟩, ⟨4, 9, []⟩, ⟨6, 11, []⟩] ⟨11, 1, []⟩ =
      .ok [0, 6, 2, 3, 11, 5, 1, 7, 8, 4, 10, 9, 12] := by decide

/-- `test_two_nodes` of `_update_edge_event_sets`: the shared `_Edge`
object between node0's output slot and node1's input slot receives
node0's computed set, and node1 then sees the updated set (aliasing). -/
theorem sanity_update_edge_event_sets_two_nodes :
    updateEdgeEventSets
      [("node0", ⟨["input"], ["output"], fun _ => .ok [[5]]⟩),
       ("node1", ⟨["input"], ["output"], fun sets =>
          if sets = [[5]] then .ok [[7]] else .error "unexpected input sets"⟩)]
      [0, 1] [[none], [some 0]] [[some 0], [none]] [⟨0, 1, []⟩] none =
      ([⟨0, 1, [5]⟩], none) := by
  rfl

/-! ### The on-demand build pipeline (`libtcspc._odext`) -/

/-- The `Builder` stage constants `_DISCARDED, ..., _BUILT = range(5)`. -/
inductive Stage
  | discarded
  | created
  | codeWritten
  | configured
  | built
deriving Repr, DecidableEq

/-- The numeric value of a stage constant. -/
def Stage.toNat : Stage → Nat
  | .discarded => 0
  | .created => 1
  | .codeWritten => 2
  | .configured => 3
  | .built => 4

/-- The outcome of one external subprocess run
(`returncode, stdout, stderr` from `_run_meson`). -/
structure ProcResult where
  returncode : Int
  stdout : String
  stderr : String
deriving Repr, DecidableEq

/-- The state of a `Builder`. `staged` models the stray attribute created
by the assignment `self._staged = self._BUILT` in `async_build` (a
distinct attribute from `self._stage`). `targetPath` is
`self._target_path`, recorded by a successful `configure()`. -/
structure BuilderSt where
  stage : Stage
  staged : Option Stage
  targetPath : Option String
deriving Repr, DecidableEq

/-- `Builder.__init__` with `code_text=None`: the project files are
written and the stage is `_CREATED`. -/
def builderInit : BuilderSt := ⟨.created, none, none⟩

/-- `Builder.set_code` / `async_set_code`: requires at least `_CREATED`,
writes the source file, and advances to `_CODE_WRITTEN` (idempotent). -/
def setCode (b : BuilderSt) : BuilderSt × Option String :=
  if b.stage.toNat < Stage.created.toNat then
    (b, some "AssertionError")
  else if b.stage.toNat < Stage.codeWritten.toNat then
    ({ b with stage := .codeWritten }, none)
  else
    (b, none)

/-- `Builder.async_configure`: asserts the stage is exactly
`_CODE_WRITTEN` (configure only once); runs `meson setup` (outcome
`setup`); on nonzero exit raises a message embedding the captured stdout,
stderr and the meson log (`logText`; `none` models the `OSError` branch,
reported as "(unavailable)"); on success records the artifact path
(`target`; `none` models the target missing from `meson-info`) and
advances to `_CONFIGURED`. -/
def asyncConfigure (b : BuilderSt) (setup : ProcResult) (logText : Option String)
    (target : Option String) : BuilderSt × Option String :=
  if b.stage ≠ .codeWritten then
    (b, some "AssertionError")
  else if setup.returncode ≠ 0 then
    (b, some ("Build configuration failed:\nStdout: " ++ setup.stdout
      ++ "\nStderr: " ++ setup.stderr
      ++ "\nContents of meson-log.txt:\n" ++ logText.getD "(unavailable)"))
  else
    match target with
    | none => (b, some "Cannot find the build target in meson-info")
    | some t => ({ b with stage := .configured, targetPath := some t }, none)

/-- `Builder.async_build`: asserts the stage is at least `_CODE_WRITTEN`;
auto-invokes `async_configure` when not yet `_CONFIGURED`; then runs
`meson compile` (outcome `compileRes`), raising
`"Build failed: " + stdout` on nonzero exit; on success executes
`self._staged = self._BUILT` (which writes the stray `staged` attribute,
leaving `stage` untouched) and returns `self._target_path`. -/
def asyncBuild (b : BuilderSt) (setup : ProcResult) (logText : Option String)
    (target : Option String) (compileRes : ProcResult) : BuilderSt × Except String String :=
  if b.stage.toNat < Stage.codeWritten.toNat then
    (b, .error "AssertionError")
  else
    let cfg :=
      if b.stage.toNat < Stage.configured.toNat then
        asyncConfigure b setup logText target
      else
        (b, none)
    match cfg with
    | (b1, some e) => (b1, .error e)
    | (b1, none) =>
      if compileRes.returncode ≠ 0 then
        (b1, .error ("Build failed: " ++ compileRes.stdout))
      else
        ({ b1 with staged := some .built }, .ok (b1.targetPath.getD ""))

/-- `Builder.cleanup`: releases the project directory and marks the
builder `_DISCARDED`. -/
def builderCleanup (b : BuilderSt) : BuilderSt :=
  { b with stage := .discarded }

/-- The state of an `ExtensionImporter`: the file names present in its
private module directory (`name + path.suffix` for every prior
`import_module` call that got past the duplicate check). -/
structure ImporterSt where
  moduleFiles : List String
deriving Repr, DecidableEq

/-- A fresh `ExtensionImporter`. -/
def importerInit : ImporterSt := ⟨[]⟩

/-- `ExtensionImporter.import_module`: the destination file name is
`name + path.suffix`; if a file of that name already exists in the module
directory the call raises before anything is copied or loaded. Otherwise
the artifact is copied (or moved) to the destination — so the file exists
from now on — and the native load is attempted (`loadOk` carries its
outcome, which this module does not control). -/
def importModule (imp : ImporterSt) (name : String) (suffix : String) (loadOk : Bool) :
    ImporterSt × Except String Unit :=
  let finalName := name ++ suffix
  if imp.moduleFiles.contains finalName then
    (imp, .error ("A module with name " ++ name ++ " has already been imported"))
  else
    let imp1 : ImporterSt := ⟨imp.moduleFiles ++ [finalName]⟩
    (imp1, if loadOk then .ok () else .error "ImportError")

/-! ### The code-generation gate (`libtcspc._compile._graph_module_code`) -/

/-- The failures `_graph_module_code` can raise in its modelled head. -/
inductive CompileErr
  | wiringArity (nIn : Nat)
  | typeFlow (msg : String)
deriving Repr, DecidableEq

/-- Whether a failure is the wiring-arity failure. -/
def CompileErr.isWiringArity : CompileErr → Bool
  | .wiringArity _ => true
  | .typeFlow _ => false

/-- The head of `_graph_module_code`: first the wiring-arity gate
(`len(graph.inputs()) != 1` raises before anything else), then
`graph.map_event_sets((input_event_types,))`. The rest of the function
renders C++ source text from the graph and these output event types and
raises no wiring-arity failure; it is not modelled further. -/
def graphModuleCode (g : GraphSt) (inputEventTypes : List EvT) :
    Except CompileErr (List (List EvT)) :=
  let nIn := (graphInputs g).length
  if nIn ≠ 1 then
    .error (.wiringArity nIn)
  else
    match (mapEventSets g [inputEventTypes]).2 with
    | .error e => .error (.typeFlow e)
    | .ok outs => .ok outs

/-! ### Concrete nodes and graphs used as test inputs -/

/-- `OneToOnePassThroughNode`: `map_event_sets` checks for a single
upstream (as `OneToOneNode.map_event_sets` does) and returns the input
event set unchanged (`OneToOnePassThroughNode.map_event_set`). -/
def passThroughNode : Node where
  inputs := ["input"]
  outputs := ["output"]
  mapEventSets := fun sets =>
    if sets.length ≠ 1 then .error "expected a single upstream"
    else .ok [sets.getD 0 []]

/-- A source-style test node with no inputs emitting event set `es`. -/
def sourceNode (es : List EvT) : Node where
  inputs := []
  outputs := ["output"]
  mapEventSets := fun _ => .ok [es]

/-- A two-input merge test node whose output set is the concatenation of
its input sets. -/
def mergeNode : Node where
  inputs := ["a", "b"]
  outputs := ["output"]
  mapEventSets := fun sets => .ok [sets.flatten]

/-- A sink-style test node accepting every event set not containing the
event type `2`. -/
def fussySinkNode : Node where
  inputs := ["input"]
  outputs := []
  mapEventSets := fun sets =>
    if 2 ∈ sets.getD 0 [] then .error "incompatible events" else .ok []

/-- A two-node pass-through chain n0 → n1 (n0's input and n1's output are
the open graph ports). -/
def gChain : GraphSt :=
  (connect (addNode (addNode graphInit "n0" passThroughNode).1 "n1" passThroughNode).1
    ("n0", "output") ("n1", "input")).1

/-- The pre-failure graph for the rollback scenario: sources s1 (emits
{1}) and s2 (emits {2}), a merge node m whose port "a" is fed by s1, and
a sink t (accepting only sets without 2) fed by m. -/
def gRollback : GraphSt :=
  (connect
    (connect
      (addNode
        (addNode
          (addNode
            (addNode graphInit "s1" (sourceNode [1])).1
            "m" mergeNode).1
          "t" fussySinkNode).1
        "s2" (sourceNode [2])).1
      ("s1", "output") ("m", "a")).1
    ("m", "output") ("t", "input")).1

/-- A two-node pass-through chain a → b used for the cycle scenario. -/
def gCycle : GraphSt :=
  (connect (addNode (addNode graphInit "a" passThroughNode).1 "b" passThroughNode).1
    ("a", "output") ("b", "input")).1

/-- Sanity: building the chain succeeds and commits one edge. -/
theorem sanity_gChain :
    gChain.tsorted = [0, 1] ∧ gChain.heap = [⟨0, 1, []⟩] ∧
      gChain.inTbl = [[none], [some 0]] ∧ gChain.outTbl = [[some 0], [none]] := by
  decide

/-- Sanity: building the rollback scenario succeeds; the m → t edge
carries event set {1}. -/
theorem sanity_gRollback :
    gRollback.tsorted = [0, 1, 2, 3] ∧
      gRollback.heap = [⟨0, 1, [1]⟩, ⟨1, 2, [1]⟩] ∧
      gRollback.inTbl = [[], [some 0, none], [some 1], []] ∧
      gRollback.outTbl = [[some 0], [some 1], [], [none]] := by
  decide

/-- Propagation as the spec words it (§4.2): visit every node in
topological order; for each node gather the event sets arriving on its
input edges — the candidate set for an open graph input, the producing
node's computed output set for an internal edge — invoke the node's
type-flow function, and collect the computed sets on the open output
ports, in order, as the result. This is the reference definition that
`Graph.map_event_sets` is claimed to implement. -/
def specMapEventSets (g : GraphSt) (cands : List (List EvT)) :
    Except String (List (List EvT)) := do
  let outs ← g.tsorted.foldlM
    (fun (outs : List (Int × List (List EvT))) nodeId => do
      let node := (g.nodes.getD nodeId.toNat default).2
      let row := tblGet g.inTbl nodeId
      let inSets := row.enum.map fun p =>
        match p.2 with
        | some r =>
          let e := heapGet g.heap r
          match outs.lookup e.producerId with
          | some sets =>
            sets.getD (((tblGet g.outTbl e.producerId).indexOf? (some r)).getD 0) []
          | none => []
        | none =>
          match (graphInputPorts g).indexOf? (nodeId.toNat, p.1) with
          | some k => cands.getD k []
          | none => []
      let outSets ← node.mapEventSets inSets
      pure ((nodeId, outSets) :: outs))
    []
  pure ((graphOutputPorts g).map fun vq =>
    match outs.lookup (vq.1 : Int) with
    | some sets => sets.getD vq.2 []
    | none => [])

/-- Sanity: on the committed (empty) input sets both the implementation
and the spec agree on the chain. -/
theorem sanity_mapEventSets_committed :
    (mapEventSets gChain [[]]).2 = .ok [[]] ∧ specMapEventSets gChain [[]] = .ok [[]] := by
  decide

/-! ### General list helpers -/

theorem list_set_self {α : Type _} (l : List α) (i : Nat) (h : i < l.length) :
    l.set i l[i] = l := by
  apply List.ext_getElem
  · simp
  · intro j h1 h2
    simp only [List.getElem_set]
    split
    · next hij => subst hij; rfl
    · rfl

/-- Setting a free slot of a table row and then clearing it restores the
table (the rollback identity used by `connect`). -/
theorem slot_round_trip (tbl : List (List (Option Nat))) (i q r : Nat)
    (hfree : ((tbl.getD i []).getD q none).isSome = false) :
    (tbl.set i ((tbl.getD i []).set q (some r))).set i
      (((tbl.set i ((tbl.getD i []).set q (some r))).getD i []).set q none) = tbl := by
  by_cases hi : i < tbl.length
  · have hrow : (tbl.set i ((tbl.getD i []).set q (some r))).getD i [] =
        (tbl.getD i []).set q (some r) := by
      rw [List.getD_eq_getElem _ _ (by simpa using hi)]
      exact List.getElem_set_self _
    rw [hrow, List.set_set, List.set_set]
    have hq : (tbl.getD i []).set q none = tbl.getD i [] := by
      by_cases hql : q < (tbl.getD i []).length
      · have : (tbl.getD i []).getD q none = (tbl.getD i [])[q] :=
          List.getD_eq_getElem _ _ hql
        have hnone : (tbl.getD i [])[q] = none := by
          cases hh : (tbl.getD i [])[q] with
          | none => rfl
          | some x => rw [this, hh] at hfree; simp at hfree
        rw [← hnone]
        exact list_set_self _ _ hql
      · exact List.set_eq_of_length_le (by omega)
    rw [hq, List.getD_eq_getElem tbl [] hi]
    exact list_set_self _ _ hi
  · rw [List.set_eq_of_length_le (l := tbl) (by omega)]
    rw [List.set_eq_of_length_le (l := tbl) (by omega)]

/-! ### Claim C5: dry-run purity of `map_event_sets` -/

/-- The graph state after a sequence of dry-run calls. -/
def dryRuns (g : GraphSt) (css : List (List (List EvT))) : GraphSt :=
  css.foldl (fun s cs => (mapEventSets s cs).1) g

theorem mapEventSets_state (g : GraphSt) (cs : List (List EvT)) :
    (mapEventSets g cs).1 = g := by
  unfold mapEventSets
  split
  · rfl
  · dsimp only
    split <;> rfl

theorem dryRuns_eq (g : GraphSt) (css : List (List (List EvT))) :
    dryRuns g css = g := by
  induction css with
  | nil => rfl
  | cons cs rest ih =>
    show dryRuns (mapEventSets g cs).1 rest = g
    rw [mapEventSets_state g cs]
    exact ih

/-- C5. For every Graph state and every number of intervening
`map_event_sets` dry-run calls with any candidate input sets, the Graph's
observable state is unaffected: the state after the dry runs is the
original state, so any subsequent `connect()` or `map_event_sets()` call
returns exactly the same result (or raises the same failure) as it would
have without the intervening calls. -/
theorem dry_run_purity (g : GraphSt) (css : List (List (List EvT)))
    (producer consumer : String × String) (cs2 : List (List EvT)) :
    dryRuns g css = g ∧
      connect (dryRuns g css) producer consumer = connect g producer consumer ∧
      mapEventSets (dryRuns g css) cs2 = mapEventSets g cs2 := by
  refine ⟨dryRuns_eq g css, ?_, ?_⟩ <;> rw [dryRuns_eq g css]

/-! ### Claim C9: the wiring-arity gate of code generation -/

/-- C9. Code generation (`_graph_module_code`) raises the wiring-arity
failure exactly when the number of open input ports of the Graph is not
one; with exactly one open input port no wiring-arity failure is raised
(the gate runs before anything else, and the remaining failures are
type-flow failures). -/
theorem wiring_arity_gate (g : GraphSt) (tys : List EvT) :
    (∃ e, graphModuleCode g tys = .error e ∧ e.isWiringArity = true) ↔
      (graphInputs g).length ≠ 1 := by
  constructor
  · rintro ⟨e, he, harity⟩
    intro hlen
    unfold graphModuleCode at he
    rw [if_neg (by omega)] at he
    cases hm : (mapEventSets g [tys]).2 with
    | error msg =>
      rw [hm] at he
      cases he
      simp [CompileErr.isWiringArity] at harity
    | ok outs =>
      rw [hm] at he
      cases he
  · intro hlen
    refine ⟨.wiringArity (graphInputs g).length, ?_, rfl⟩
    unfold graphModuleCode
    rw [if_pos hlen]

/-! ### Claim C7: the Builder state machine and `build()` -/

/-- C7 (refuting evaluation). A Builder at `CodeWritten` whose meson
setup and compile both succeed: `build()` auto-configures, returns the
artifact path — but the final `stage` is `Configured`, not `Built`,
because the success path assigns the stray attribute `_staged`
(`self._staged = self._BUILT`) instead of `self._stage`. -/
theorem build_stage_bug :
    asyncBuild ⟨.codeWritten, none, none⟩ ⟨0, "", ""⟩ (some "log")
        (some "/tmp/odext/target.so") ⟨0, "", ""⟩ =
      (⟨.configured, some .built, some "/tmp/odext/target.so"⟩, .ok "/tmp/odext/target.so") ∧
    Stage.configured ≠ Stage.built := by
  exact ⟨by decide, by decide⟩

/-! ### Claim C8: diagnostics embedded in build failures -/

/-- C8 (counterexample). A failing `meson compile` with stderr "mishap":
the raised message is `"Build failed: " + stdout` and does not embed the
captured stderr. -/
theorem build_error_counterexample :
    (asyncBuild ⟨.configured, none, some "/p/t.so"⟩ ⟨0, "", ""⟩ none (some "/p/t.so")
        ⟨1, "out", "mishap"⟩).2 = .error "Build failed: out" ∧
    ¬ List.IsInfix "mishap".data "Build failed: out".data := by
  exact ⟨by decide, by decide⟩

/-- C8 (as amended). A nonzero exit of the external subprocess is never
silently swallowed: configure failures raise a message embedding the
captured stdout, the captured stderr, and the meson log when available;
compile failures (whether configure was auto-invoked or already done)
raise a message embedding the captured stdout (only). -/
theorem build_error_reporting (b : BuilderSt) (setup : ProcResult) (log : Option String)
    (target : Option String) (compileRes : ProcResult) :
    (b.stage = .codeWritten → setup.returncode ≠ 0 →
      ∃ m, asyncConfigure b setup log target = (b, some m) ∧
        List.IsInfix setup.stdout.data m.data ∧
        List.IsInfix setup.stderr.data m.data ∧
        ∀ lg, log = some lg → List.IsInfix lg.data m.data) ∧
    (b.stage = .configured → compileRes.returncode ≠ 0 →
      (asyncBuild b setup log target compileRes).2 =
        .error ("Build failed: " ++ compileRes.stdout)) ∧
    (b.stage = .codeWritten → setup.returncode = 0 →
      ∀ t, target = some t → compileRes.returncode ≠ 0 →
        (asyncBuild b setup log target compileRes).2 =
          .error ("Build failed: " ++ compileRes.stdout)) := by
  refine ⟨?_, ?_, ?_⟩
  · intro hstage hrc
    refine ⟨"Build configuration failed:\nStdout: " ++ setup.stdout
        ++ "\nStderr: " ++ setup.stderr
        ++ "\nContents of meson-log.txt:\n" ++ log.getD "(unavailable)", ?_, ?_, ?_, ?_⟩
    · unfold asyncConfigure
      rw [if_neg (by simp [hstage]), if_pos hrc]
    · exact ⟨"Build configuration failed:\nStdout: ".data,
        ("\nStderr: " ++ setup.stderr ++ "\nContents of meson-log.txt:\n"
          ++ log.getD "(unavailable)").data, by simp⟩
    · exact ⟨("Build configuration failed:\nStdout: " ++ setup.stdout ++ "\nStderr: ").data,
        ("\nContents of meson-log.txt:\n" ++ log.getD "(unavailable)").data, by simp⟩
    · intro lg hlg
      exact ⟨("Build configuration failed:\nStdout: " ++ setup.stdout ++ "\nStderr: "
          ++ setup.stderr ++ "\nContents of meson-log.txt:\n").data, [],
        by simp [hlg]⟩
  · intro hstage hrc
    unfold asyncBuild
    rw [if_neg (by simp [hstage, Stage.toNat])]
    rw [if_neg (by simp [hstage, Stage.toNat])]
    dsimp only
    rw [if_pos hrc]
  · intro hstage hsetup t htarget hrc
    unfold asyncBuild
    rw [if_neg (by simp [hstage, Stage.toNat])]
    rw [if_pos (by simp [hstage, Stage.toNat])]
    unfold asyncConfigure
    rw [if_neg (by simp [hstage]), if_neg (by simp [hsetup]), htarget]
    dsimp only
    rw [if_pos hrc]

/-! ### Claim C10: import-name reuse in `ExtensionImporter` -/

/-- C10 (counterexample). The duplicate check is on the destination file
name `name + path.suffix`: reusing the import name "m" with a different
artifact suffix passes the check and performs a second load. -/
theorem import_name_reuse_counterexample :
    (importModule (importModule importerInit "m" ".so" true).1 "m" ".pyd" true).2 =
      .ok () := by
  decide

/-- C10 (as amended). Reusing an import name with the same artifact
suffix always fails, whether the earlier load succeeded or failed: the
second call raises the duplicate-name error, leaves the importer state
unchanged, and never attempts the load (its outcome `b2` is ignored). -/
theorem importModule_dup (imp : ImporterSt) (name suffix : String) (b : Bool)
    (h : imp.moduleFiles.contains (name ++ suffix) = true) :
    importModule imp name suffix b =
      (imp, .error ("A module with name " ++ name ++ " has already been imported")) := by
  unfold importModule
  rw [if_pos h]

theorem import_name_reuse_fails (imp : ImporterSt) (name suffix : String) (b1 b2 : Bool) :
    importModule (importModule imp name suffix b1).1 name suffix b2 =
      ((importModule imp name suffix b1).1,
        .error ("A module with name " ++ name ++ " has already been imported")) := by
  have key : (name ++ suffix) ∈ (importModule imp name suffix b1).1.moduleFiles := by
    unfold importModule
    by_cases h : imp.moduleFiles.contains (name ++ suffix)
    · rw [if_pos h]
      simpa using h
    · rw [if_neg h]
      simp
  exact importModule_dup _ name suffix b2 (by simpa using key)

/-! ### Claim C4: what `map_event_sets` actually computes -/

/-- C4 (refuting evaluation). On the two-node pass-through chain with
candidate input set {1}: propagating the candidate through the graph (the
spec's traversal, `specMapEventSets`) yields {1} on the open output, but
`Graph.map_event_sets` returns the empty set — the two separate
`deepcopy` calls break the aliasing between the input-table and
output-table copies of each internal `_Edge`, so the downstream node
reads the stale committed event set instead of the upstream node's
freshly computed one. -/
theorem mapEventSets_stale_propagation :
    (mapEventSets gChain [[1]]).2 = .ok [[]] ∧
      specMapEventSets gChain [[1]] = .ok [[1]] := by
  exact ⟨by decide, by decide⟩

/-! ### Claim C3: rollback on type-flow rejection during `connect` -/

/-- C3 (counterexample). Connecting s2 → (m, "b") on `gRollback` triggers
a type-flow rejection at the sink t after the merge node's output edge
has already been overwritten: the call raises, the new edge is removed
from both tables, but the topological order keeps its reordered value
([0, 3, 1, 2] instead of [0, 1, 2, 3]) and the m → t edge keeps the
overwritten event set {1, 2} instead of its pre-call value {1} — the
rollback is not atomic as claimed. -/
theorem connect_rollback_counterexample :
    (connect gRollback ("s2", "output") ("m", "b")).2 = some "incompatible events" ∧
    (connect gRollback ("s2", "output") ("m", "b")).1.inTbl = gRollback.inTbl ∧
    (connect gRollback ("s2", "output") ("m", "b")).1.outTbl = gRollback.outTbl ∧
    (connect gRollback ("s2", "output") ("m", "b")).1.tsorted = [0, 3, 1, 2] ∧
    gRollback.tsorted = [0, 1, 2, 3] ∧
    (connect gRollback ("s2", "output") ("m", "b")).1.heap = [⟨0, 1, [1]⟩, ⟨1, 2, [1, 2]⟩] ∧
    gRollback.heap = [⟨0, 1, [1]⟩, ⟨1, 2, [1]⟩] := by
  refine ⟨by decide, by decide, by decide, by decide, by decide, by decide, by decide⟩

/-- C3 (as amended). Whenever `connect` raises — a port failure, a cycle
failure, or a type-flow rejection during the re-propagation — the new
edge is absent from both edge tables when the exception reaches the
caller: both tables equal their pre-call values. (The topological order
and the event sets already overwritten by the partial propagation are not
restored; see the counterexample.) -/
theorem connect_failure_edge_removed (g : GraphSt) (producer consumer : String × String) :
    ((connect g producer consumer).2).isSome = true →
    (connect g producer consumer).1.inTbl = g.inTbl ∧
      (connect g producer consumer).1.outTbl = g.outTbl := by
  unfold connect
  split
  · exact fun _ => ⟨rfl, rfl⟩
  · exact fun _ => ⟨rfl, rfl⟩
  · rename_i ipnode icnode heqp heqc
    dsimp only
    split
    · exact fun _ => ⟨rfl, rfl⟩
    · exact fun _ => ⟨rfl, rfl⟩
    · rename_i ipport icport heqpp heqcp
      split
      · exact fun _ => ⟨rfl, rfl⟩
      · rename_i hInFree
        split
        · exact fun _ => ⟨rfl, rfl⟩
        · rename_i hOutFree
          split
          · exact fun _ => ⟨rfl, rfl⟩
          · rename_i outSets heqo
            split
            · exact fun _ => ⟨rfl, rfl⟩
            · rename_i eventSet heqe
              split
              · intro _
                exact ⟨slot_round_trip g.inTbl icnode icport g.heap.length
                    (by simpa using hInFree),
                  slot_round_trip g.outTbl ipnode ipport g.heap.length
                    (by simpa using hOutFree)⟩
              · split
                · intro _
                  exact ⟨slot_round_trip g.inTbl icnode icport g.heap.length
                      (by simpa using hInFree),
                    slot_round_trip g.outTbl ipnode ipport g.heap.length
                      (by simpa using hOutFree)⟩
                · intro hcontra
                  simp at hcontra

/-- Witness for `connect_failure_edge_removed`: the failing connect on
`gRollback` satisfies the hypothesis and the conclusion. -/
theorem connect_failure_edge_removed_witness :
    ((connect gRollback ("s2", "output") ("m", "b")).2).isSome = true ∧
      ((connect gRollback ("s2", "output") ("m", "b")).1.inTbl = gRollback.inTbl ∧
        (connect gRollback ("s2", "output") ("m", "b")).1.outTbl = gRollback.outTbl) :=
  ⟨by decide, connect_failure_edge_removed gRollback ("s2", "output") ("m", "b") (by decide)⟩

/-- Witness for `build_error_reporting`: a concrete failing configure
whose message embeds the captured stdout, stderr and log. -/
theorem build_error_reporting_witness :
    ∃ m, asyncConfigure ⟨.codeWritten, none, none⟩ ⟨1, "oops-out", "oops-err"⟩
        (some "the-log") none = (⟨.codeWritten, none, none⟩, some m) ∧
      List.IsInfix "oops-out".data m.data ∧
      List.IsInfix "oops-err".data m.data ∧
      ∀ lg, (some "the-log" : Option String) = some lg → List.IsInfix lg.data m.data :=
  (build_error_reporting ⟨.codeWritten, none, none⟩ ⟨1, "oops-out", "oops-err"⟩
    (some "the-log") none ⟨0, "", ""⟩).1 rfl (by decide)

/-! ### Position helpers for the topological order -/

theorem idx_lt_length {l : List Int} {x : Int} (h : x ∈ l) : idxOfI l x < l.length :=
  List.indexOf_lt_length.mpr h

theorem getD_idx {l : List Int} {x : Int} (h : x ∈ l) : l.getD (idxOfI l x) 0 = x := by
  rw [List.getD_eq_getElem _ _ (idx_lt_length h)]
  have h2 := List.indexOf_get (List.indexOf_lt_length.mpr h)
  rw [List.get_eq_getElem] at h2
  exact h2

theorem idx_getD {l : List Int} (hnd : l.Nodup) {i : Nat} (h : i < l.length) :
    idxOfI l (l.getD i 0) = i := by
  rw [List.getD_eq_getElem _ _ h]
  have h2 := List.get_indexOf hnd ⟨i, h⟩
  rw [List.get_eq_getElem] at h2
  exact h2

theorem idx_inj {l : List Int} {x y : Int} (hx : x ∈ l) (hy : y ∈ l)
    (h : idxOfI l x = idxOfI l y) : x = y := by
  have hx2 := getD_idx hx
  rw [h, getD_idx hy] at hx2
  exact hx2.symm

theorem getD_mem {l : List Int} {i : Nat} (h : i < l.length) : l.getD i 0 ∈ l := by
  rw [List.getD_eq_getElem _ _ h]
  exact List.getElem_mem h

/-! ### Characterizations of the scan membership tests -/

theorem producerHit_iff (heap : List Edge) (slots : List (Option Nat)) (ids : List Int) :
    producerHit heap slots ids = true ↔
      ∃ r, some r ∈ slots ∧ (heapGet heap r).producerId ∈ ids := by
  unfold producerHit
  rw [List.any_eq_true]
  constructor
  · rintro ⟨s, hs, hb⟩
    match s with
    | some r => exact ⟨r, hs, by simpa using hb⟩
    | none => simp at hb
  · rintro ⟨r, hr, hmem⟩
    exact ⟨some r, hr, by simpa⟩

theorem consumerHit_iff (heap : List Edge) (slots : List (Option Nat)) (ids : List Int) :
    consumerHit heap slots ids = true ↔
      ∃ r, some r ∈ slots ∧ (heapGet heap r).consumerId ∈ ids := by
  unfold consumerHit
  rw [List.any_eq_true]
  constructor
  · rintro ⟨s, hs, hb⟩
    match s with
    | some r => exact ⟨r, hs, by simpa using hb⟩
    | none => simp at hb
  · rintro ⟨r, hr, hmem⟩
    exact ⟨some r, hr, by simpa⟩

theorem findIdx?_lt_length_aux {α : Type _} {p : α → Bool} {l : List α} :
    ∀ {s i : Nat}, List.findIdx? p l s = some i → i < s + l.length := by
  induction l with
  | nil => intro s i h; simp [List.findIdx?] at h
  | cons a rest ih =>
    intro s i h
    rw [List.findIdx?_cons] at h
    by_cases hpa : p a
    · rw [if_pos hpa] at h
      cases h
      simp
    · rw [if_neg hpa] at h
      have := ih h
      simp only [List.length_cons]
      omega

theorem findIdx?_lt_length {α : Type _} {p : α → Bool} {l : List α} {i : Nat}
    (h : l.findIdx? p = some i) : i < l.length := by
  have := findIdx?_lt_length_aux h
  omega

/-! ### Forward scan: soundness and completeness -/

theorem transGen_idx_lt {L : List Int} {E : Int → Int → Prop}
    (htopo : ∀ u v, E u v → idxOfI L u < idxOfI L v) :
    ∀ {x y : Int}, Relation.TransGen E x y → idxOfI L x < idxOfI L y := by
  intro x y h
  induction h with
  | single h1 => exact htopo _ _ h1
  | tail h1 h2 ih => exact lt_trans ih (htopo _ _ h2)

theorem forwardScanAux_append (L : List Int) (inTbl : List (List (Option Nat)))
    (heap : List Edge) (cId : Int) (ps1 ps2 : List Nat) (acc : List (Int × Nat)) :
    forwardScanAux L inTbl heap cId (ps1 ++ ps2) acc =
      forwardScanAux L inTbl heap cId ps2 (forwardScanAux L inTbl heap cId ps1 acc) := by
  induction ps1 generalizing acc with
  | nil => rfl
  | cons i rest ih =>
    simp only [List.cons_append, forwardScanAux]
    split
    · exact ih _
    · exact ih _

theorem backwardScanAux_append (L : List Int) (outTbl : List (List (Option Nat)))
    (heap : List Edge) (pId : Int) (ps1 ps2 : List Nat) (acc : List (Int × Nat)) :
    backwardScanAux L outTbl heap pId (ps1 ++ ps2) acc =
      backwardScanAux L outTbl heap pId ps2 (backwardScanAux L outTbl heap pId ps1 acc) := by
  induction ps1 generalizing acc with
  | nil => rfl
  | cons i rest ih =>
    simp only [List.cons_append, backwardScanAux]
    split
    · exact ih _
    · exact ih _

/-- One forward-scan membership test, against an accumulator that exactly
characterizes the interior positions processed so far: the test succeeds
for a node `v` exactly when `v` is reachable from the new edge's consumer
`c` through committed edges. -/
theorem producerHit_scan_iff
    {L : List Int} {inTbl : List (List (Option Nat))} {heap : List Edge}
    {E : Int → Int → Prop} {c : Int} {k : Nat}
    (hL : L.Nodup)
    (hE : ∀ u v, E u v → u ∈ L ∧ v ∈ L)
    (htopo : ∀ u v, E u v → idxOfI L u < idxOfI L v)
    (hin : ∀ v, v ∈ L → v ≠ c → ∀ u,
      ((∃ r, some r ∈ tblGet inTbl v ∧ (heapGet heap r).producerId = u) ↔ E u v))
    {S : List (Int × Nat)}
    (hS : ∀ x i, ((x, i) ∈ S ↔
      (i ∈ List.range' (idxOfI L c + 1) k ∧ x = L.getD i 0 ∧ Relation.TransGen E c x)))
    {v : Int} (hv : v ∈ L) (hvc : v ≠ c)
    (hidxv : idxOfI L v ≤ idxOfI L c + 1 + k) :
    (producerHit heap (tblGet inTbl v) (c :: S.map Prod.fst) = true ↔
      Relation.TransGen E c v) := by
  rw [producerHit_iff]
  constructor
  · rintro ⟨r, hr, hmem⟩
    rcases List.mem_cons.mp hmem with huc | huS
    · exact Relation.TransGen.single ((hin v hv hvc c).mp ⟨r, hr, huc⟩)
    · obtain ⟨⟨x, i⟩, hxS, hxfst⟩ := List.mem_map.mp huS
      obtain ⟨hirange, hxval, hxreach⟩ := (hS x i).mp hxS
      have hEx : E x v := (hin v hv hvc x).mp ⟨r, hr, hxfst.symm⟩
      exact hxreach.tail hEx
  · intro hreach
    obtain ⟨u, hcu, huv⟩ := Relation.TransGen.tail'_iff.mp hreach
    rcases (Relation.reflTransGen_iff_eq_or_transGen).mp hcu with huc | htg
    · obtain ⟨r, hr, hprod⟩ := (hin v hv hvc u).mpr huv
      exact ⟨r, hr, by rw [hprod, huc]; exact List.mem_cons_self _ _⟩
    · have huL : u ∈ L := (hE u v huv).1
      have hlo : idxOfI L c < idxOfI L u := transGen_idx_lt htopo htg
      have hhi : idxOfI L u < idxOfI L v := htopo _ _ huv
      have hmem : (u, idxOfI L u) ∈ S := by
        refine (hS u (idxOfI L u)).mpr ⟨?_, (getD_idx huL).symm, htg⟩
        rw [List.mem_range'_1]
        omega
      obtain ⟨r, hr, hprod⟩ := (hin v hv hvc u).mpr huv
      refine ⟨r, hr, ?_⟩
      rw [hprod]
      exact List.mem_cons_of_mem _ (List.mem_map.mpr ⟨(u, idxOfI L u), hmem, rfl⟩)

/-- Exact characterization of the forward scan over the first `k` interior
positions of the affected region: the collected pairs are exactly the
positions holding nodes reachable from `c`, together with those nodes, in
ascending position order. -/
theorem forwardScan_spec
    {L : List Int} {inTbl : List (List (Option Nat))} {heap : List Edge}
    {E : Int → Int → Prop} {c : Int}
    (hL : L.Nodup)
    (hE : ∀ u v, E u v → u ∈ L ∧ v ∈ L)
    (htopo : ∀ u v, E u v → idxOfI L u < idxOfI L v)
    (hin : ∀ v, v ∈ L → v ≠ c → ∀ u,
      ((∃ r, some r ∈ tblGet inTbl v ∧ (heapGet heap r).producerId = u) ↔ E u v))
    (k : Nat) (hk : idxOfI L c + 1 + k ≤ L.length) :
    (∀ x i, ((x, i) ∈ forwardScanAux L inTbl heap c (List.range' (idxOfI L c + 1) k) [] ↔
      (i ∈ List.range' (idxOfI L c + 1) k ∧ x = L.getD i 0 ∧ Relation.TransGen E c x))) ∧
    ((forwardScanAux L inTbl heap c (List.range' (idxOfI L c + 1) k) []).map
      Prod.snd).Sorted (· < ·) := by
  induction k with
  | zero =>
    constructor
    · intro x i
      simp [forwardScanAux]
    · simp [forwardScanAux]
  | succ k ih =>
    obtain ⟨ihmem, ihsort⟩ := ih (by omega)
    have hjlen : idxOfI L c + 1 + k < L.length := by omega
    have hnthmem : L.getD (idxOfI L c + 1 + k) 0 ∈ L := getD_mem hjlen
    have hidxj : idxOfI L (L.getD (idxOfI L c + 1 + k) 0) = idxOfI L c + 1 + k :=
      idx_getD hL hjlen
    have hne : L.getD (idxOfI L c + 1 + k) 0 ≠ c := by
      intro hcontra
      rw [hcontra] at hidxj
      omega
    have hrange : List.range' (idxOfI L c + 1) (k + 1) =
        List.range' (idxOfI L c + 1) k ++ [idxOfI L c + 1 + k] := by
      rw [List.range'_concat]
      simp
    rw [hrange, forwardScanAux_append]
    have hstep := producerHit_scan_iff hL hE htopo hin ihmem hnthmem hne (le_of_eq hidxj)
    simp only [forwardScanAux]
    split
    · next htest =>
      have hreach := hstep.mp htest
      constructor
      · intro x i
        rw [List.mem_append, List.mem_append, ihmem x i]
        constructor
        · rintro (⟨hir, hxv, hxr⟩ | hpair)
          · exact ⟨Or.inl hir, hxv, hxr⟩
          · simp only [List.mem_singleton, Prod.mk.injEq] at hpair
            obtain ⟨rfl, rfl⟩ := hpair
            exact ⟨Or.inr (by simp), rfl, hreach⟩
        · rintro ⟨hir | hij, hxv, hxr⟩
          · exact Or.inl ⟨hir, hxv, hxr⟩
          · simp only [List.mem_singleton] at hij
            subst hij
            subst hxv
            exact Or.inr (by simp)
      · rw [List.map_append]
        refine List.pairwise_append.mpr ⟨ihsort, by simp, ?_⟩
        intro a ha b hb
        simp only [List.map_cons, List.map_nil, List.mem_singleton] at hb
        subst hb
        obtain ⟨⟨x, i⟩, hxS, hsnd⟩ := List.mem_map.mp ha
        obtain ⟨hir, _, _⟩ := (ihmem x i).mp hxS
        rw [List.mem_range'_1] at hir
        simp only at hsnd
        omega
    · next htest =>
      have hnreach : ¬ Relation.TransGen E c (L.getD (idxOfI L c + 1 + k) 0) := by
        intro hcontra
        exact htest (hstep.mpr hcontra)
      constructor
      · intro x i
        rw [List.mem_append, ihmem x i]
        constructor
        · rintro ⟨hir, hxv, hxr⟩
          exact ⟨Or.inl hir, hxv, hxr⟩
        · rintro ⟨hir | hij, hxv, hxr⟩
          · exact ⟨hir, hxv, hxr⟩
          · simp only [List.mem_singleton] at hij
            subst hij
            subst hxv
            exact absurd hxr hnreach
      · exact ihsort

/-! ### Backward scan: soundness and completeness -/

/-- One backward-scan membership test, against an accumulator that exactly
characterizes the interior positions processed so far (descending from
just below the producer): the test succeeds for a node `u` exactly when
the new edge's producer `p` is reachable from `u` through committed
edges. -/
theorem consumerHit_scan_iff
    {L : List Int} {outTbl : List (List (Option Nat))} {heap : List Edge}
    {E : Int → Int → Prop} {p : Int} {k : Nat}
    (hL : L.Nodup)
    (hE : ∀ u v, E u v → u ∈ L ∧ v ∈ L)
    (htopo : ∀ u v, E u v → idxOfI L u < idxOfI L v)
    (hout : ∀ u, u ∈ L → u ≠ p → ∀ v,
      ((∃ r, some r ∈ tblGet outTbl u ∧ (heapGet heap r).consumerId = v) ↔ E u v))
    (hk : k ≤ idxOfI L p)
    {S : List (Int × Nat)}
    (hS : ∀ x i, ((x, i) ∈ S ↔
      (i ∈ List.range' (idxOfI L p - k) k ∧ x = L.getD i 0 ∧ Relation.TransGen E x p)))
    {u : Int} (hu : u ∈ L) (hup : u ≠ p)
    (hidxu : idxOfI L p ≤ idxOfI L u + 1 + k) :
    (consumerHit heap (tblGet outTbl u) (p :: S.map Prod.fst) = true ↔
      Relation.TransGen E u p) := by
  rw [consumerHit_iff]
  constructor
  · rintro ⟨r, hr, hmem⟩
    have hEuv : E u (heapGet heap r).consumerId :=
      (hout u hu hup (heapGet heap r).consumerId).mp ⟨r, hr, rfl⟩
    rcases List.mem_cons.mp hmem with hvp | hvS
    · rw [hvp] at hEuv
      exact Relation.TransGen.single hEuv
    · obtain ⟨⟨x, i⟩, hxS, hxfst⟩ := List.mem_map.mp hvS
      obtain ⟨hirange, hxval, hxreach⟩ := (hS x i).mp hxS
      have hxc : x = (heapGet heap r).consumerId := hxfst
      rw [hxc] at hxreach
      exact Relation.TransGen.head hEuv hxreach
  · intro hreach
    obtain ⟨v, huv, hvp⟩ := Relation.TransGen.head'_iff.mp hreach
    rcases (Relation.reflTransGen_iff_eq_or_transGen).mp hvp with hvp2 | htg
    · obtain ⟨r, hr, hcons⟩ := (hout u hu hup v).mpr huv
      exact ⟨r, hr, by rw [hcons, ← hvp2]; exact List.mem_cons_self _ _⟩
    · have hvL : v ∈ L := (hE u v huv).2
      have hhi : idxOfI L v < idxOfI L p := transGen_idx_lt htopo htg
      have hlo : idxOfI L u < idxOfI L v := htopo _ _ huv
      have hmem2 : (v, idxOfI L v) ∈ S := by
        refine (hS v (idxOfI L v)).mpr ⟨?_, (getD_idx hvL).symm, htg⟩
        rw [List.mem_range'_1]
        omega
      obtain ⟨r, hr, hcons⟩ := (hout u hu hup v).mpr huv
      refine ⟨r, hr, ?_⟩
      rw [hcons]
      exact List.mem_cons_of_mem _ (List.mem_map.mpr ⟨(v, idxOfI L v), hmem2, rfl⟩)

/-- Exact characterization of the backward scan over the `k` interior
positions just below the producer: the collected pairs are exactly the
positions holding nodes that reach `p`, together with those nodes, in
descending position order. -/
theorem backwardScan_spec
    {L : List Int} {outTbl : List (List (Option Nat))} {heap : List Edge}
    {E : Int → Int → Prop} {p : Int}
    (hL : L.Nodup) (hp : p ∈ L)
    (hE : ∀ u v, E u v → u ∈ L ∧ v ∈ L)
    (htopo : ∀ u v, E u v → idxOfI L u < idxOfI L v)
    (hout : ∀ u, u ∈ L → u ≠ p → ∀ v,
      ((∃ r, some r ∈ tblGet outTbl u ∧ (heapGet heap r).consumerId = v) ↔ E u v))
    (k : Nat) (hk : k ≤ idxOfI L p) :
    (∀ x i, ((x, i) ∈ backwardScanAux L outTbl heap p
        (List.range' (idxOfI L p - k) k).reverse [] ↔
      (i ∈ List.range' (idxOfI L p - k) k ∧ x = L.getD i 0 ∧ Relation.TransGen E x p))) ∧
    ((backwardScanAux L outTbl heap p
      (List.range' (idxOfI L p - k) k).reverse []).map Prod.snd).Sorted (· > ·) := by
  induction k with
  | zero =>
    constructor
    · intro x i
      simp [backwardScanAux]
    · simp [backwardScanAux]
  | succ k ih =>
    obtain ⟨ihmem, ihsort⟩ := ih (by omega)
    have hplen : idxOfI L p < L.length := idx_lt_length hp
    have hjlen : idxOfI L p - (k + 1) < L.length := by omega
    have hnthmem : L.getD (idxOfI L p - (k + 1)) 0 ∈ L := getD_mem hjlen
    have hidxj : idxOfI L (L.getD (idxOfI L p - (k + 1)) 0) = idxOfI L p - (k + 1) :=
      idx_getD hL hjlen
    have hne : L.getD (idxOfI L p - (k + 1)) 0 ≠ p := by
      intro hcontra
      rw [hcontra] at hidxj
      omega
    have hrange : List.range' (idxOfI L p - (k + 1)) (k + 1) =
        (idxOfI L p - (k + 1)) :: List.range' (idxOfI L p - k) k := by
      have harg : idxOfI L p - (k + 1) + 1 = idxOfI L p - k := by omega
      rw [List.range'_succ, harg]
    rw [hrange, List.reverse_cons, backwardScanAux_append]
    have hstep := consumerHit_scan_iff hL hE htopo hout (by omega) ihmem hnthmem hne
      (by rw [hidxj]; omega)
    simp only [backwardScanAux]
    split
    · next htest =>
      have hreach := hstep.mp htest
      constructor
      · intro x i
        simp only [List.mem_append, List.mem_cons, List.not_mem_nil, or_false,
          Prod.mk.injEq, ihmem x i]
        constructor
        · rintro (⟨hir, hxv, hxr⟩ | ⟨rfl, rfl⟩)
          · exact ⟨Or.inr hir, hxv, hxr⟩
          · exact ⟨Or.inl rfl, rfl, hreach⟩
        · rintro ⟨hij | hir, hxv, hxr⟩
          · subst hij
            exact Or.inr ⟨hxv, rfl⟩
          · exact Or.inl ⟨hir, hxv, hxr⟩
      · rw [List.map_append]
        refine List.pairwise_append.mpr ⟨ihsort, by simp, ?_⟩
        intro a ha b hb
        simp only [List.map_cons, List.map_nil, List.mem_singleton] at hb
        subst hb
        obtain ⟨⟨x, i⟩, hxS, hsnd⟩ := List.mem_map.mp ha
        obtain ⟨hir, _, _⟩ := (ihmem x i).mp hxS
        rw [List.mem_range'_1] at hir
        have hia : i = a := hsnd
        omega
    · next htest =>
      have hnreach : ¬ Relation.TransGen E (L.getD (idxOfI L p - (k + 1)) 0) p := by
        intro hcontra
        exact htest (hstep.mpr hcontra)
      constructor
      · intro x i
        simp only [ihmem x i, List.mem_cons]
        constructor
        · rintro ⟨hir, hxv, hxr⟩
          exact ⟨Or.inr hir, hxv, hxr⟩
        · rintro ⟨hij | hir, hxv, hxr⟩
          · subst hij
            subst hxv
            exact absurd hxr hnreach
          · exact ⟨hir, hxv, hxr⟩
      · exact ihsort


/-! ### List helpers for the write phase -/

theorem mem_of_getElemQ {α : Type _} {l : List α} {i : Nat} {x : α} (h : l[i]? = some x) :
    x ∈ l := by
  have hi : i < l.length := by
    by_contra hc
    rw [List.getElem?_eq_none (by omega)] at h
    cases h
  rw [List.getElem?_eq_getElem hi] at h
  cases h
  exact List.getElem_mem hi

theorem sorted_lt_of_le_nodup {l : List Nat} (hs : l.Sorted (· ≤ ·)) (hnd : l.Nodup) :
    l.Sorted (· < ·) :=
  (hs.and hnd).imp fun h => lt_of_le_of_ne h.1 h.2

theorem sorted_getD_mono {s : List Nat} (hs : s.Sorted (· < ·)) {i j : Nat}
    (hij : i ≤ j) (hj : j < s.length) : s.getD i 0 ≤ s.getD j 0 := by
  rcases eq_or_lt_of_le hij with rfl | hlt
  · exact le_refl _
  · have hi : i < s.length := lt_trans hlt hj
    rw [List.getD_eq_getElem _ _ hi, List.getD_eq_getElem _ _ hj]
    have h2 := List.Sorted.get_strictMono hs
      (a := ⟨i, hi⟩) (b := ⟨j, hj⟩) (by simpa using hlt)
    rw [List.get_eq_getElem, List.get_eq_getElem] at h2
    exact le_of_lt h2

/-- A `<`-sorted list dominates its sublists pointwise: the `k`-th entry
of the big list is at most the `k`-th entry of the sublist. -/
theorem sorted_sublist_le {s t : List Nat} (hsub : t.Sublist s) (hs : s.Sorted (· < ·)) :
    ∀ k, k < t.length → s.getD k 0 ≤ t.getD k 0 := by
  induction hsub with
  | slnil =>
    intro k hk
    simp at hk
  | @cons t2 s2 a hsub2 ih =>
    intro k hk
    have hs2 : s2.Sorted (· < ·) := hs.of_cons
    have hklt : k < s2.length := lt_of_lt_of_le hk hsub2.length_le
    refine le_trans ?_ (ih hs2 k hk)
    rcases k with _ | j
    · rcases s2 with _ | ⟨b, s3⟩
      · simp at hklt
      · have hab : a < b := (List.pairwise_cons.mp hs).1 b (by simp)
        simpa using le_of_lt hab
    · show (a :: s2).getD (j + 1) 0 ≤ s2.getD (j + 1) 0
      have : (a :: s2).getD (j + 1) 0 = s2.getD j 0 := by simp
      rw [this]
      exact sorted_getD_mono hs2 (by omega) hklt
  | @cons₂ t2 s2 a hsub2 ih =>
    intro k hk
    rcases k with _ | j
    · simp
    · have hj : j < t2.length := by simpa using hk
      have h1 := ih (hs.of_cons) j hj
      simpa using h1

/-- Complementary direction with the index shifted by the length excess:
the `j`-th entry of the sublist is at most the `(j + excess)`-th entry of
the big list. -/
theorem sorted_sublist_ge {s t : List Nat} (hsub : t.Sublist s) (hs : s.Sorted (· < ·)) :
    ∀ j, j < t.length → t.getD j 0 ≤ s.getD (j + (s.length - t.length)) 0 := by
  induction hsub with
  | slnil =>
    intro j hj
    simp at hj
  | @cons t2 s2 a hsub2 ih =>
    intro j hj
    have hs2 : s2.Sorted (· < ·) := hs.of_cons
    have hlen : t2.length ≤ s2.length := hsub2.length_le
    have harith : j + ((a :: s2).length - t2.length) = (j + (s2.length - t2.length)) + 1 := by
      simp only [List.length_cons]
      omega
    rw [harith]
    have : (a :: s2).getD ((j + (s2.length - t2.length)) + 1) 0 =
        s2.getD (j + (s2.length - t2.length)) 0 := by simp
    rw [this]
    exact ih hs2 j hj
  | @cons₂ t2 s2 a hsub2 ih =>
    intro j hj
    have hs2 : s2.Sorted (· < ·) := hs.of_cons
    have hlen : t2.length ≤ s2.length := hsub2.length_le
    have hexc : (a :: s2).length - (a :: t2).length = s2.length - t2.length := by
      simp only [List.length_cons]
      omega
    rw [hexc]
    rcases j with _ | j2
    · rcases Nat.eq_zero_or_pos (s2.length - t2.length) with hz | hpos
      · rw [hz]
        simp
      · have hidx : s2.length - t2.length - 1 < s2.length := by omega
        have : (a :: s2).getD (0 + (s2.length - t2.length)) 0 =
            s2.getD (s2.length - t2.length - 1) 0 := by
          have h0 : 0 + (s2.length - t2.length) = (s2.length - t2.length - 1) + 1 := by omega
          rw [h0]
          simp
        rw [this]
        have hmem : s2.getD (s2.length - t2.length - 1) 0 ∈ s2 := by
          rw [List.getD_eq_getElem _ _ hidx]
          exact List.getElem_mem hidx
        have := (List.pairwise_cons.mp hs).1 _ hmem
        simpa using le_of_lt this
    · have h1 := ih hs2 j2 (by simpa using hj)
      have harith : j2 + 1 + (s2.length - t2.length) = (j2 + (s2.length - t2.length)) + 1 := by
        omega
      rw [harith]
      simpa using h1

/-- A strictly sorted list that is (setwise) contained in another strictly
sorted list is a sublist of it. -/
theorem sublist_of_subset_sorted {t s : List Nat} (hsubset : ∀ x, x ∈ t → x ∈ s)
    (ht : t.Sorted (· < ·)) (hs : s.Sorted (· < ·)) : t.Sublist s := by
  induction s generalizing t with
  | nil =>
    rcases t with _ | ⟨b, t2⟩
    · exact List.Sublist.refl []
    · exact absurd (hsubset b (by simp)) (by simp)
  | cons a s2 ih =>
    rcases t with _ | ⟨b, t2⟩
    · exact List.nil_sublist _
    · by_cases hba : b = a
      · subst hba
        refine List.Sublist.cons₂ b (ih ?_ ht.of_cons hs.of_cons)
        intro x hx
        have hxs := hsubset x (List.mem_cons_of_mem _ hx)
        rcases List.mem_cons.mp hxs with rfl | hxs2
        · exact absurd ((List.pairwise_cons.mp ht).1 x hx) (lt_irrefl x)
        · exact hxs2
      · refine List.Sublist.cons a (ih ?_ ht hs.of_cons)
        intro x hx
        have hxs := hsubset x hx
        rcases List.mem_cons.mp hxs with rfl | hxs2
        · exfalso
          rcases List.mem_cons.mp hx with rfl | hx2
          · exact hba rfl
          · have hbx : b < x := (List.pairwise_cons.mp ht).1 x hx2
            have hxb : x < b := by
              have hbs : b ∈ s2 := by
                rcases List.mem_cons.mp (hsubset b (by simp)) with rfl | h2
                · exact absurd rfl hba
                · exact h2
              exact (List.pairwise_cons.mp hs).1 b hbs
            omega
        · exact hxs2

/-- Characterization of the in-place multi-write loop
(`for i, id in zip(dest_indices, reordered_ids): tsorted_nodes[i] = id`)
when the written indices are distinct. -/
theorem foldl_set_spec {α : Type _} (l : List α) (pairs : List (Nat × α))
    (hnd : (pairs.map Prod.fst).Nodup) :
    ((pairs.foldl (fun acc iv => acc.set iv.1 iv.2) l).length = l.length) ∧
    (∀ i, i ∉ pairs.map Prod.fst →
      (pairs.foldl (fun acc iv => acc.set iv.1 iv.2) l)[i]? = l[i]?) ∧
    (∀ i v, (i, v) ∈ pairs → i < l.length →
      (pairs.foldl (fun acc iv => acc.set iv.1 iv.2) l)[i]? = some v) := by
  induction pairs generalizing l with
  | nil =>
    refine ⟨rfl, fun i _ => rfl, fun i v hm => absurd hm (by simp)⟩
  | cons iv rest ih =>
    obtain ⟨i0, v0⟩ := iv
    have hnd2 : (rest.map Prod.fst).Nodup := (List.nodup_cons.mp hnd).2
    have hni : i0 ∉ rest.map Prod.fst := (List.nodup_cons.mp hnd).1
    obtain ⟨ihlen, ihmiss, ihhit⟩ := ih (l.set i0 v0) hnd2
    refine ⟨by rw [List.foldl_cons]; rw [ihlen]; simp, ?_, ?_⟩
    · intro i hi
      rw [List.foldl_cons]
      have hi0 : i ≠ i0 := by
        intro hc
        exact hi (by rw [hc]; simp)
      have hirest : i ∉ rest.map Prod.fst := fun hc => hi (List.mem_cons_of_mem _ hc)
      rw [ihmiss i hirest]
      exact List.getElem?_set_ne (fun hc => hi0 hc.symm)
    · intro i v hm hil
      rw [List.foldl_cons]
      rcases List.mem_cons.mp hm with heq | hrest
      · rw [Prod.mk.injEq] at heq
        obtain ⟨rfl, rfl⟩ := heq
        rw [ihmiss _ hni]
        exact List.getElem?_set_eq_of_lt _ hil
      · exact ihhit i v hrest (by simpa using hil)

/-! ### The Pearce-Kelly update: affected-region analysis -/

/-- Hypothesis bundle for analysing `_update_topological_order` against an
abstract committed-edge relation `E`: `L` is the current order (distinct
ids), `c`/`p` the new edge's consumer/producer (present, distinct, with
the consumer currently placed before the producer), `E` is topologically
respected by `L`, and away from the new edge's own rows the two edge
tables present exactly `E`. -/
structure PKCtx (L : List Int) (inTbl outTbl : List (List (Option Nat)))
    (heap : List Edge) (E : Int → Int → Prop) (c p : Int) : Prop where
  hL : L.Nodup
  hc : c ∈ L
  hp : p ∈ L
  hpc : p ≠ c
  hE : ∀ u v, E u v → u ∈ L ∧ v ∈ L
  htopo : ∀ u v, E u v → idxOfI L u < idxOfI L v
  hin : ∀ v, v ∈ L → v ≠ c → ∀ u,
    ((∃ r, some r ∈ tblGet inTbl v ∧ (heapGet heap r).producerId = u) ↔ E u v)
  hout : ∀ u, u ∈ L → u ≠ p → ∀ v,
    ((∃ r, some r ∈ tblGet outTbl u ∧ (heapGet heap r).consumerId = v) ↔ E u v)
  hlt : idxOfI L c < idxOfI L p

theorem arInterior_mem {ic ip : Nat} (h : ic < ip) (i : Nat) :
    i ∈ arInterior ic ip ↔ ic + 1 ≤ i ∧ i < ip := by
  unfold arInterior
  rw [List.mem_range'_1]
  omega

theorem pk_fwd_mem {L : List Int} {inTbl outTbl : List (List (Option Nat))}
    {heap : List Edge} {E : Int → Int → Prop} {c p : Int}
    (ctx : PKCtx L inTbl outTbl heap E c p) :
    ∀ x i, ((x, i) ∈ forwardScanAux L inTbl heap c
        (arInterior (idxOfI L c) (idxOfI L p)) [] ↔
      (i ∈ arInterior (idxOfI L c) (idxOfI L p) ∧ x = L.getD i 0 ∧
        Relation.TransGen E c x)) := by
  have hiplen : idxOfI L p < L.length := idx_lt_length ctx.hp
  have hspec := forwardScan_spec ctx.hL ctx.hE ctx.htopo ctx.hin
    (idxOfI L p - (idxOfI L c + 1)) (by have := ctx.hlt; omega)
  exact hspec.1

theorem pk_fwd_sorted {L : List Int} {inTbl outTbl : List (List (Option Nat))}
    {heap : List Edge} {E : Int → Int → Prop} {c p : Int}
    (ctx : PKCtx L inTbl outTbl heap E c p) :
    ((forwardScanAux L inTbl heap c
      (arInterior (idxOfI L c) (idxOfI L p)) []).map Prod.snd).Sorted (· < ·) := by
  have hiplen : idxOfI L p < L.length := idx_lt_length ctx.hp
  have hspec := forwardScan_spec ctx.hL ctx.hE ctx.htopo ctx.hin
    (idxOfI L p - (idxOfI L c + 1)) (by have := ctx.hlt; omega)
  exact hspec.2

theorem pk_bwd_mem {L : List Int} {inTbl outTbl : List (List (Option Nat))}
    {heap : List Edge} {E : Int → Int → Prop} {c p : Int}
    (ctx : PKCtx L inTbl outTbl heap E c p) :
    ∀ x i, ((x, i) ∈ backwardScanAux L outTbl heap p
        (arInterior (idxOfI L c) (idxOfI L p)).reverse [] ↔
      (i ∈ arInterior (idxOfI L c) (idxOfI L p) ∧ x = L.getD i 0 ∧
        Relation.TransGen E x p)) := by
  have hspec := backwardScan_spec ctx.hL ctx.hp ctx.hE ctx.htopo ctx.hout
    (idxOfI L p - (idxOfI L c + 1)) (by omega)
  have harg : idxOfI L p - (idxOfI L p - (idxOfI L c + 1)) = idxOfI L c + 1 := by
    have := ctx.hlt
    omega
  rw [harg] at hspec
  exact hspec.1

theorem pk_bwd_sorted {L : List Int} {inTbl outTbl : List (List (Option Nat))}
    {heap : List Edge} {E : Int → Int → Prop} {c p : Int}
    (ctx : PKCtx L inTbl outTbl heap E c p) :
    ((backwardScanAux L outTbl heap p
      (arInterior (idxOfI L c) (idxOfI L p)).reverse []).map Prod.snd).Sorted (· > ·) := by
  have hspec := backwardScan_spec ctx.hL ctx.hp ctx.hE ctx.htopo ctx.hout
    (idxOfI L p - (idxOfI L c + 1)) (by omega)
  have harg : idxOfI L p - (idxOfI L p - (idxOfI L c + 1)) = idxOfI L c + 1 := by
    have := ctx.hlt
    omega
  rw [harg] at hspec
  exact hspec.2

/-- The forward id list collects exactly the nodes of the affected region
reachable from the consumer (the consumer itself included). -/
theorem pk_fwdIds_mem {L : List Int} {inTbl outTbl : List (List (Option Nat))}
    {heap : List Edge} {E : Int → Int → Prop} {c p : Int}
    (ctx : PKCtx L inTbl outTbl heap E c p)
    (hnc : ¬ Relation.TransGen E c p) :
    ∀ x, (x ∈ pkForwardIds L inTbl heap c (idxOfI L c) (idxOfI L p) ↔
      (x ∈ L ∧ idxOfI L c ≤ idxOfI L x ∧ idxOfI L x ≤ idxOfI L p ∧
        Relation.ReflTransGen E c x)) := by
  intro x
  unfold pkForwardIds
  rw [List.mem_cons]
  constructor
  · rintro (rfl | hx)
    · exact ⟨ctx.hc, le_refl _, le_of_lt ctx.hlt, Relation.ReflTransGen.refl⟩
    · obtain ⟨⟨x2, i⟩, hpair, hfst⟩ := List.mem_map.mp hx
      have hx2 : x2 = x := hfst
      subst hx2
      obtain ⟨hi, hxv, hxr⟩ := (pk_fwd_mem ctx x2 i).mp hpair
      rw [arInterior_mem ctx.hlt] at hi
      have hilen : i < L.length := lt_trans hi.2 (idx_lt_length ctx.hp)
      have hxmem : x2 ∈ L := by rw [hxv]; exact getD_mem hilen
      have hidx : idxOfI L x2 = i := by rw [hxv]; exact idx_getD ctx.hL hilen
      exact ⟨hxmem, by omega, by omega, hxr.to_reflTransGen⟩
  · rintro ⟨hxL, hge, hle, hreach⟩
    rcases (Relation.reflTransGen_iff_eq_or_transGen).mp hreach with rfl | htg
    · exact Or.inl rfl
    · right
      have hgt : idxOfI L c < idxOfI L x := transGen_idx_lt ctx.htopo htg
      have hlt2 : idxOfI L x < idxOfI L p := by
        rcases lt_or_eq_of_le hle with h2 | h2
        · exact h2
        · exfalso
          have hxp : x = p := idx_inj hxL ctx.hp h2
          rw [hxp] at htg
          exact hnc htg
      refine List.mem_map.mpr ⟨(x, idxOfI L x), ?_, rfl⟩
      refine (pk_fwd_mem ctx x (idxOfI L x)).mpr ⟨?_, (getD_idx hxL).symm, htg⟩
      rw [arInterior_mem ctx.hlt]
      omega

/-- The backward id list collects exactly the nodes of the affected region
that reach the producer (the producer itself included). -/
theorem pk_bwdIds_mem {L : List Int} {inTbl outTbl : List (List (Option Nat))}
    {heap : List Edge} {E : Int → Int → Prop} {c p : Int}
    (ctx : PKCtx L inTbl outTbl heap E c p)
    (hnc : ¬ Relation.TransGen E c p) :
    ∀ x, (x ∈ pkBackwardIds L outTbl heap p (idxOfI L c) (idxOfI L p) ↔
      (x ∈ L ∧ idxOfI L c ≤ idxOfI L x ∧ idxOfI L x ≤ idxOfI L p ∧
        Relation.ReflTransGen E x p)) := by
  intro x
  unfold pkBackwardIds
  rw [List.mem_reverse, List.mem_cons]
  constructor
  · rintro (rfl | hx)
    · exact ⟨ctx.hp, le_of_lt ctx.hlt, le_refl _, Relation.ReflTransGen.refl⟩
    · obtain ⟨⟨x2, i⟩, hpair, hfst⟩ := List.mem_map.mp hx
      have hx2 : x2 = x := hfst
      subst hx2
      obtain ⟨hi, hxv, hxr⟩ := (pk_bwd_mem ctx x2 i).mp hpair
      rw [arInterior_mem ctx.hlt] at hi
      have hilen : i < L.length := lt_trans hi.2 (idx_lt_length ctx.hp)
      have hxmem : x2 ∈ L := by rw [hxv]; exact getD_mem hilen
      have hidx : idxOfI L x2 = i := by rw [hxv]; exact idx_getD ctx.hL hilen
      exact ⟨hxmem, by omega, by omega, hxr.to_reflTransGen⟩
  · rintro ⟨hxL, hge, hle, hreach⟩
    rcases (Relation.reflTransGen_iff_eq_or_transGen).mp hreach with heq | htg
    · exact Or.inl heq.symm
    · right
      have hgt : idxOfI L x < idxOfI L p := transGen_idx_lt ctx.htopo htg
      have hlt2 : idxOfI L c < idxOfI L x := by
        rcases lt_or_eq_of_le hge with h2 | h2
        · exact h2
        · exfalso
          have hxc : c = x := idx_inj ctx.hc hxL h2
          rw [← hxc] at htg
          exact hnc htg
      refine List.mem_map.mpr ⟨(x, idxOfI L x), ?_, rfl⟩
      refine (pk_bwd_mem ctx x (idxOfI L x)).mpr ⟨?_, (getD_idx hxL).symm, htg⟩
      rw [arInterior_mem ctx.hlt]
      omega

/-- Bounds on the positions collected by the forward scan. -/
theorem pk_fwd_snd_bounds {L : List Int} {inTbl outTbl : List (List (Option Nat))}
    {heap : List Edge} {E : Int → Int → Prop} {c p : Int}
    (ctx : PKCtx L inTbl outTbl heap E c p) :
    ∀ i ∈ (forwardScanAux L inTbl heap c
        (arInterior (idxOfI L c) (idxOfI L p)) []).map Prod.snd,
      idxOfI L c + 1 ≤ i ∧ i < idxOfI L p := by
  intro i hi
  obtain ⟨⟨x, i2⟩, hpr, hsnd⟩ := List.mem_map.mp hi
  have hi2 : i2 = i := hsnd
  subst hi2
  obtain ⟨hir, -, -⟩ := (pk_fwd_mem ctx x i2).mp hpr
  exact (arInterior_mem ctx.hlt i2).mp hir

/-- Bounds on the positions collected by the backward scan. -/
theorem pk_bwd_snd_bounds {L : List Int} {inTbl outTbl : List (List (Option Nat))}
    {heap : List Edge} {E : Int → Int → Prop} {c p : Int}
    (ctx : PKCtx L inTbl outTbl heap E c p) :
    ∀ i ∈ (backwardScanAux L outTbl heap p
        (arInterior (idxOfI L c) (idxOfI L p)).reverse []).map Prod.snd,
      idxOfI L c + 1 ≤ i ∧ i < idxOfI L p := by
  intro i hi
  obtain ⟨⟨x, i2⟩, hpr, hsnd⟩ := List.mem_map.mp hi
  have hi2 : i2 = i := hsnd
  subst hi2
  obtain ⟨hir, -, -⟩ := (pk_bwd_mem ctx x i2).mp hpr
  exact (arInterior_mem ctx.hlt i2).mp hir

/-- Soundness half of the forward id list (no acyclicity needed): every
collected node is reachable from the consumer. -/
theorem pk_fwdIds_sound {L : List Int} {inTbl outTbl : List (List (Option Nat))}
    {heap : List Edge} {E : Int → Int → Prop} {c p : Int}
    (ctx : PKCtx L inTbl outTbl heap E c p) :
    ∀ x, x ∈ pkForwardIds L inTbl heap c (idxOfI L c) (idxOfI L p) →
      Relation.ReflTransGen E c x := by
  intro x hx
  unfold pkForwardIds at hx
  rw [List.mem_cons] at hx
  rcases hx with rfl | hx
  · exact Relation.ReflTransGen.refl
  · obtain ⟨⟨x2, i⟩, hpair, hfst⟩ := List.mem_map.mp hx
    have hx2 : x2 = x := hfst
    subst hx2
    exact ((pk_fwd_mem ctx x2 i).mp hpair).2.2.to_reflTransGen

/-- Completeness half of the forward id list (no acyclicity needed):
every node strictly before the producer and reachable from the consumer
is collected. -/
theorem pk_fwdIds_complete_lt {L : List Int} {inTbl outTbl : List (List (Option Nat))}
    {heap : List Edge} {E : Int → Int → Prop} {c p : Int}
    (ctx : PKCtx L inTbl outTbl heap E c p) :
    ∀ x, x ∈ L → idxOfI L x < idxOfI L p → Relation.ReflTransGen E c x →
      x ∈ pkForwardIds L inTbl heap c (idxOfI L c) (idxOfI L p) := by
  intro x hxL hxlt hreach
  unfold pkForwardIds
  rw [List.mem_cons]
  rcases (Relation.reflTransGen_iff_eq_or_transGen).mp hreach with rfl | htg
  · exact Or.inl rfl
  · right
    have hgt : idxOfI L c < idxOfI L x := transGen_idx_lt ctx.htopo htg
    refine List.mem_map.mpr ⟨(x, idxOfI L x), ?_, rfl⟩
    refine (pk_fwd_mem ctx x (idxOfI L x)).mpr ⟨?_, (getD_idx hxL).symm, htg⟩
    rw [arInterior_mem ctx.hlt]
    omega

/-- The cycle check of `_update_topological_order` fires exactly when the
new edge's producer is transitively reachable from its consumer. -/
theorem pk_cycleCheck_iff {L : List Int} {inTbl outTbl : List (List (Option Nat))}
    {heap : List Edge} {E : Int → Int → Prop} {c p : Int}
    (ctx : PKCtx L inTbl outTbl heap E c p) :
    (producerHit heap (tblGet inTbl p)
      (pkForwardIds L inTbl heap c (idxOfI L c) (idxOfI L p)) = true) ↔
      Relation.TransGen E c p := by
  rw [producerHit_iff]
  constructor
  · rintro ⟨r, hr, hmem⟩
    have hE : E (heapGet heap r).producerId p :=
      (ctx.hin p ctx.hp ctx.hpc (heapGet heap r).producerId).mp ⟨r, hr, rfl⟩
    exact Relation.TransGen.tail' (pk_fwdIds_sound ctx _ hmem) hE
  · intro htg
    obtain ⟨u, hcu, hup⟩ := (Relation.TransGen.tail'_iff).mp htg
    have huL : u ∈ L := (ctx.hE _ _ hup).1
    have hult : idxOfI L u < idxOfI L p := ctx.htopo _ _ hup
    have humem := pk_fwdIds_complete_lt ctx u huL hult hcu
    obtain ⟨r, hr, hprod⟩ := (ctx.hin p ctx.hp ctx.hpc u).mpr hup
    exact ⟨r, hr, hprod ▸ humem⟩

/-- Mapping the forward id list through current positions yields the
consumer's position followed by the scan's collected positions. -/
theorem pk_fwdIds_mapidx {L : List Int} {inTbl outTbl : List (List (Option Nat))}
    {heap : List Edge} {E : Int → Int → Prop} {c p : Int}
    (ctx : PKCtx L inTbl outTbl heap E c p) :
    (pkForwardIds L inTbl heap c (idxOfI L c) (idxOfI L p)).map (idxOfI L) =
      idxOfI L c :: (forwardScanAux L inTbl heap c
        (arInterior (idxOfI L c) (idxOfI L p)) []).map Prod.snd := by
  unfold pkForwardIds
  rw [List.map_cons, List.map_map]
  refine congrArg _ (List.map_congr_left ?_)
  rintro ⟨x, i⟩ hpr
  obtain ⟨hir, hxv, -⟩ := (pk_fwd_mem ctx x i).mp hpr
  rw [arInterior_mem ctx.hlt] at hir
  have hilen : i < L.length := lt_trans hir.2 (idx_lt_length ctx.hp)
  show idxOfI L x = i
  rw [hxv]
  exact idx_getD ctx.hL hilen

/-- Mapping the backward id list through current positions yields the
scan's collected positions (ascending) followed by the producer's
position. -/
theorem pk_bwdIds_mapidx {L : List Int} {inTbl outTbl : List (List (Option Nat))}
    {heap : List Edge} {E : Int → Int → Prop} {c p : Int}
    (ctx : PKCtx L inTbl outTbl heap E c p) :
    (pkBackwardIds L outTbl heap p (idxOfI L c) (idxOfI L p)).map (idxOfI L) =
      ((backwardScanAux L outTbl heap p
        (arInterior (idxOfI L c) (idxOfI L p)).reverse []).map Prod.snd).reverse
        ++ [idxOfI L p] := by
  unfold pkBackwardIds
  rw [List.map_reverse, List.map_cons, List.map_map, List.reverse_cons]
  refine congrArg (fun l => List.reverse l ++ [idxOfI L p]) ?_
  refine List.map_congr_left ?_
  rintro ⟨x, i⟩ hpr
  obtain ⟨hir, hxv, -⟩ := (pk_bwd_mem ctx x i).mp hpr
  rw [arInterior_mem ctx.hlt] at hir
  have hilen : i < L.length := lt_trans hir.2 (idx_lt_length ctx.hp)
  show idxOfI L x = i
  rw [hxv]
  exact idx_getD ctx.hL hilen

/-- The forward ids, mapped to current positions, are strictly
increasing: relative order within the forward set is the original order. -/
theorem pk_fwdIds_mapidx_sorted {L : List Int} {inTbl outTbl : List (List (Option Nat))}
    {heap : List Edge} {E : Int → Int → Prop} {c p : Int}
    (ctx : PKCtx L inTbl outTbl heap E c p) :
    ((pkForwardIds L inTbl heap c (idxOfI L c) (idxOfI L p)).map (idxOfI L)).Sorted
      (· < ·) := by
  rw [pk_fwdIds_mapidx ctx, List.sorted_cons]
  refine ⟨fun b hb => ?_, pk_fwd_sorted ctx⟩
  have := pk_fwd_snd_bounds ctx b hb
  omega

/-- The backward ids, mapped to current positions, are strictly
increasing: relative order within the backward set is the original order. -/
theorem pk_bwdIds_mapidx_sorted {L : List Int} {inTbl outTbl : List (List (Option Nat))}
    {heap : List Edge} {E : Int → Int → Prop} {c p : Int}
    (ctx : PKCtx L inTbl outTbl heap E c p) :
    ((pkBackwardIds L outTbl heap p (idxOfI L c) (idxOfI L p)).map (idxOfI L)).Sorted
      (· < ·) := by
  rw [pk_bwdIds_mapidx ctx]
  refine List.pairwise_append.mpr ⟨?_, List.pairwise_singleton _ _, ?_⟩
  · exact List.pairwise_reverse.mpr (pk_bwd_sorted ctx)
  · intro x hx y hy
    rw [List.mem_reverse] at hx
    rw [List.mem_singleton] at hy
    subst hy
    exact (pk_bwd_snd_bounds ctx x hx).2

/-- Under acyclicity, the unsorted position list fed to
`sorted(swappable_indices)` has no duplicates: the forward and backward
sets are disjoint and avoid the two endpoints. -/
theorem pk_base_nodup {L : List Int} {inTbl outTbl : List (List (Option Nat))}
    {heap : List Edge} {E : Int → Int → Prop} {c p : Int}
    (ctx : PKCtx L inTbl outTbl heap E c p)
    (hnc : ¬ Relation.TransGen E c p) :
    (idxOfI L c :: idxOfI L p ::
      ((forwardScanAux L inTbl heap c
          (arInterior (idxOfI L c) (idxOfI L p)) []).map Prod.snd
        ++ (backwardScanAux L outTbl heap p
          (arInterior (idxOfI L c) (idxOfI L p)).reverse []).map Prod.snd)).Nodup := by
  rw [List.nodup_cons, List.nodup_cons]
  refine ⟨?_, ?_, ?_⟩
  · rw [List.mem_cons, List.mem_append]
    rintro (heq | hF | hB)
    · have := ctx.hlt
      omega
    · have := pk_fwd_snd_bounds ctx _ hF
      omega
    · have := pk_bwd_snd_bounds ctx _ hB
      omega
  · rw [List.mem_append]
    rintro (hF | hB)
    · have := pk_fwd_snd_bounds ctx _ hF
      omega
    · have := pk_bwd_snd_bounds ctx _ hB
      omega
  · rw [List.nodup_append]
    refine ⟨?_, ?_, ?_⟩
    · exact (pk_fwd_sorted ctx).imp (fun h => Nat.ne_of_lt h)
    · exact (pk_bwd_sorted ctx).imp (fun h => Nat.ne_of_gt h)
    · intro i hiF hiB
      obtain ⟨⟨x, i2⟩, hprF, hsndF⟩ := List.mem_map.mp hiF
      have hi2 : i2 = i := hsndF
      subst hi2
      obtain ⟨⟨y, i3⟩, hprB, hsndB⟩ := List.mem_map.mp hiB
      have hi3 : i3 = i2 := hsndB
      subst hi3
      obtain ⟨-, hxv, hcx⟩ := (pk_fwd_mem ctx x i3).mp hprF
      obtain ⟨-, hyv, hyp⟩ := (pk_bwd_mem ctx y i3).mp hprB
      have hxy : x = y := by rw [hxv, hyv]
      exact hnc (Relation.TransGen.trans hcx (hxy ▸ hyp))

/-- Membership in `dest_indices`. -/
theorem pk_dest_mem {L : List Int} {inTbl outTbl : List (List (Option Nat))}
    {heap : List Edge} {c p : Int} {ic ip : Nat} (i : Nat) :
    i ∈ pkDest L inTbl outTbl heap c p ic ip ↔
      (i = ic ∨ i = ip ∨
        i ∈ (forwardScanAux L inTbl heap c (arInterior ic ip) []).map Prod.snd ∨
        i ∈ (backwardScanAux L outTbl heap p
          (arInterior ic ip).reverse []).map Prod.snd) := by
  unfold pkDest
  rw [(List.perm_insertionSort _ _).mem_iff]
  simp [List.mem_cons, List.mem_append, or_assoc]

/-- Every entry of `dest_indices` lies in the affected region. -/
theorem pk_dest_bounds {L : List Int} {inTbl outTbl : List (List (Option Nat))}
    {heap : List Edge} {E : Int → Int → Prop} {c p : Int}
    (ctx : PKCtx L inTbl outTbl heap E c p) :
    ∀ i ∈ pkDest L inTbl outTbl heap c p (idxOfI L c) (idxOfI L p),
      idxOfI L c ≤ i ∧ i ≤ idxOfI L p := by
  intro i hi
  rw [pk_dest_mem] at hi
  have hlt := ctx.hlt
  rcases hi with rfl | rfl | hF | hB
  · omega
  · omega
  · have := pk_fwd_snd_bounds ctx _ hF
    omega
  · have := pk_bwd_snd_bounds ctx _ hB
    omega

/-- Under acyclicity, `dest_indices` is strictly sorted. -/
theorem pk_dest_sorted {L : List Int} {inTbl outTbl : List (List (Option Nat))}
    {heap : List Edge} {E : Int → Int → Prop} {c p : Int}
    (ctx : PKCtx L inTbl outTbl heap E c p)
    (hnc : ¬ Relation.TransGen E c p) :
    (pkDest L inTbl outTbl heap c p (idxOfI L c) (idxOfI L p)).Sorted (· < ·) := by
  refine sorted_lt_of_le_nodup (List.sorted_insertionSort _ _) ?_
  exact ((List.perm_insertionSort _ _).nodup_iff).mpr (pk_base_nodup ctx hnc)

/-- `dest_indices` has exactly one slot per reordered id. -/
theorem pk_dest_length {L : List Int} {inTbl outTbl : List (List (Option Nat))}
    {heap : List Edge} {c p : Int} {ic ip : Nat} :
    (pkDest L inTbl outTbl heap c p ic ip).length =
      (pkBackwardIds L outTbl heap p ic ip).length +
        (pkForwardIds L inTbl heap c ic ip).length := by
  unfold pkDest pkBackwardIds pkForwardIds
  rw [(List.perm_insertionSort _ _).length_eq]
  simp [List.length_append]
  omega

/-- Recover a position from an indexed lookup in a duplicate-free list. -/
theorem idx_of_getElemQ {l : List Int} (hnd : l.Nodup) {i : Nat} {x : Int}
    (h : l[i]? = some x) : idxOfI l x = i := by
  have hi : i < l.length := by
    by_contra hc
    rw [List.getElem?_eq_none (by omega)] at h
    cases h
  rw [List.getElem?_eq_getElem hi] at h
  have hx : l.getD i 0 = x := by
    rw [List.getD_eq_getElem _ _ hi]
    exact Option.some_injective _ h
  rw [← hx]
  exact idx_getD hnd hi

/-- A strictly sorted list of naturals is strictly monotone position-wise. -/
theorem sorted_getD_strict {s : List Nat} (hs : s.Sorted (· < ·)) {i j : Nat}
    (hij : i < j) (hj : j < s.length) : s.getD i 0 < s.getD j 0 := by
  have hi : i < s.length := lt_trans hij hj
  rw [List.getD_eq_getElem _ _ hi, List.getD_eq_getElem _ _ hj]
  have h2 := List.Sorted.get_strictMono hs
    (a := ⟨i, hi⟩) (b := ⟨j, hj⟩) (by simpa using hij)
  rw [List.get_eq_getElem, List.get_eq_getElem] at h2
  exact h2

/-- Under acyclicity the forward and backward scans collect disjoint
positions. -/
theorem pk_fwd_bwd_snd_disjoint {L : List Int} {inTbl outTbl : List (List (Option Nat))}
    {heap : List Edge} {E : Int → Int → Prop} {c p : Int}
    (ctx : PKCtx L inTbl outTbl heap E c p)
    (hnc : ¬ Relation.TransGen E c p) :
    ∀ i, i ∈ (forwardScanAux L inTbl heap c
        (arInterior (idxOfI L c) (idxOfI L p)) []).map Prod.snd →
      i ∈ (backwardScanAux L outTbl heap p
        (arInterior (idxOfI L c) (idxOfI L p)).reverse []).map Prod.snd → False := by
  intro i hiF hiB
  obtain ⟨⟨x, i2⟩, hprF, hsndF⟩ := List.mem_map.mp hiF
  have hi2 : i2 = i := hsndF
  subst hi2
  obtain ⟨⟨y, i3⟩, hprB, hsndB⟩ := List.mem_map.mp hiB
  have hi3 : i3 = i2 := hsndB
  subst hi3
  obtain ⟨-, hxv, hcx⟩ := (pk_fwd_mem ctx x i3).mp hprF
  obtain ⟨-, hyv, hyp⟩ := (pk_bwd_mem ctx y i3).mp hprB
  have hxy : x = y := by rw [hxv, hyv]
  exact hnc (Relation.TransGen.trans hcx (hxy ▸ hyp))

/-- The backward ids' positions form a sublist of `dest_indices`. -/
theorem pk_bwd_sublist_dest {L : List Int} {inTbl outTbl : List (List (Option Nat))}
    {heap : List Edge} {E : Int → Int → Prop} {c p : Int}
    (ctx : PKCtx L inTbl outTbl heap E c p)
    (hnc : ¬ Relation.TransGen E c p) :
    ((pkBackwardIds L outTbl heap p (idxOfI L c) (idxOfI L p)).map (idxOfI L)).Sublist
      (pkDest L inTbl outTbl heap c p (idxOfI L c) (idxOfI L p)) := by
  refine sublist_of_subset_sorted ?_ (pk_bwdIds_mapidx_sorted ctx) (pk_dest_sorted ctx hnc)
  intro i hi
  rw [pk_bwdIds_mapidx ctx, List.mem_append, List.mem_reverse, List.mem_singleton] at hi
  rw [pk_dest_mem]
  rcases hi with hi | rfl
  · exact Or.inr (Or.inr (Or.inr hi))
  · exact Or.inr (Or.inl rfl)

/-- The forward ids' positions form a sublist of `dest_indices`. -/
theorem pk_fwd_sublist_dest {L : List Int} {inTbl outTbl : List (List (Option Nat))}
    {heap : List Edge} {E : Int → Int → Prop} {c p : Int}
    (ctx : PKCtx L inTbl outTbl heap E c p)
    (hnc : ¬ Relation.TransGen E c p) :
    ((pkForwardIds L inTbl heap c (idxOfI L c) (idxOfI L p)).map (idxOfI L)).Sublist
      (pkDest L inTbl outTbl heap c p (idxOfI L c) (idxOfI L p)) := by
  refine sublist_of_subset_sorted ?_ (pk_fwdIds_mapidx_sorted ctx) (pk_dest_sorted ctx hnc)
  intro i hi
  rw [pk_fwdIds_mapidx ctx, List.mem_cons] at hi
  rw [pk_dest_mem]
  rcases hi with rfl | hi
  · exact Or.inl rfl
  · exact Or.inr (Or.inr (Or.inl hi))

/-- The reordered id list (backward ids followed by forward ids), mapped
to current positions, has no duplicates. -/
theorem pk_reordered_mapidx_nodup {L : List Int} {inTbl outTbl : List (List (Option Nat))}
    {heap : List Edge} {E : Int → Int → Prop} {c p : Int}
    (ctx : PKCtx L inTbl outTbl heap E c p)
    (hnc : ¬ Relation.TransGen E c p) :
    (((pkBackwardIds L outTbl heap p (idxOfI L c) (idxOfI L p)
        ++ pkForwardIds L inTbl heap c (idxOfI L c) (idxOfI L p))).map (idxOfI L)).Nodup := by
  rw [List.map_append, List.nodup_append]
  refine ⟨(pk_bwdIds_mapidx_sorted ctx).imp (fun h => Nat.ne_of_lt h),
    (pk_fwdIds_mapidx_sorted ctx).imp (fun h => Nat.ne_of_lt h), ?_⟩
  intro a haB haF
  rw [pk_bwdIds_mapidx ctx, List.mem_append, List.mem_reverse, List.mem_singleton] at haB
  rw [pk_fwdIds_mapidx ctx, List.mem_cons] at haF
  have hlt := ctx.hlt
  rcases haB with haB | rfl
  · have hb := pk_bwd_snd_bounds ctx a haB
    rcases haF with rfl | haF
    · omega
    · exact pk_fwd_bwd_snd_disjoint ctx hnc a haF haB
  · rcases haF with heq | haF
    · omega
    · have hb := pk_fwd_snd_bounds ctx _ haF
      omega

/-- The reordered id list itself has no duplicates. -/
theorem pk_reordered_nodup {L : List Int} {inTbl outTbl : List (List (Option Nat))}
    {heap : List Edge} {E : Int → Int → Prop} {c p : Int}
    (ctx : PKCtx L inTbl outTbl heap E c p)
    (hnc : ¬ Relation.TransGen E c p) :
    (pkBackwardIds L outTbl heap p (idxOfI L c) (idxOfI L p)
      ++ pkForwardIds L inTbl heap c (idxOfI L c) (idxOfI L p)).Nodup :=
  (pk_reordered_mapidx_nodup ctx hnc).of_map _

/-- Every reordered id is a current node whose current position is one of
the `dest_indices` slots. -/
theorem pk_reordered_memL {L : List Int} {inTbl outTbl : List (List (Option Nat))}
    {heap : List Edge} {E : Int → Int → Prop} {c p : Int}
    (ctx : PKCtx L inTbl outTbl heap E c p)
    (hnc : ¬ Relation.TransGen E c p) :
    ∀ x ∈ pkBackwardIds L outTbl heap p (idxOfI L c) (idxOfI L p)
        ++ pkForwardIds L inTbl heap c (idxOfI L c) (idxOfI L p),
      x ∈ L ∧ idxOfI L x ∈ pkDest L inTbl outTbl heap c p (idxOfI L c) (idxOfI L p) := by
  intro x hx
  rw [List.mem_append] at hx
  rcases hx with hx | hx
  · refine ⟨((pk_bwdIds_mem ctx hnc x).mp hx).1, ?_⟩
    exact (pk_bwd_sublist_dest ctx hnc).subset (List.mem_map_of_mem _ hx)
  · refine ⟨((pk_fwdIds_mem ctx hnc x).mp hx).1, ?_⟩
    exact (pk_fwd_sublist_dest ctx hnc).subset (List.mem_map_of_mem _ hx)

/-- Conversely, the node currently sitting at any `dest_indices` slot is
one of the reordered ids. -/
theorem pk_dest_val_mem_reordered {L : List Int} {inTbl outTbl : List (List (Option Nat))}
    {heap : List Edge} {E : Int → Int → Prop} {c p : Int}
    (ctx : PKCtx L inTbl outTbl heap E c p) :
    ∀ i ∈ pkDest L inTbl outTbl heap c p (idxOfI L c) (idxOfI L p),
      L.getD i 0 ∈ pkBackwardIds L outTbl heap p (idxOfI L c) (idxOfI L p)
        ++ pkForwardIds L inTbl heap c (idxOfI L c) (idxOfI L p) := by
  intro i hi
  rw [pk_dest_mem] at hi
  rw [List.mem_append]
  rcases hi with rfl | rfl | hF | hB
  · right
    rw [getD_idx ctx.hc]
    unfold pkForwardIds
    exact List.mem_cons_self _ _
  · left
    rw [getD_idx ctx.hp]
    unfold pkBackwardIds
    rw [List.mem_reverse]
    exact List.mem_cons_self _ _
  · right
    obtain ⟨⟨x, i2⟩, hpr, hsnd⟩ := List.mem_map.mp hF
    have hi2 : i2 = i := hsnd
    subst hi2
    obtain ⟨-, hxv, -⟩ := (pk_fwd_mem ctx x i2).mp hpr
    rw [← hxv]
    unfold pkForwardIds
    exact List.mem_cons_of_mem _ (List.mem_map_of_mem _ hpr)
  · left
    obtain ⟨⟨x, i2⟩, hpr, hsnd⟩ := List.mem_map.mp hB
    have hi2 : i2 = i := hsnd
    subst hi2
    obtain ⟨-, hxv, -⟩ := (pk_bwd_mem ctx x i2).mp hpr
    rw [← hxv]
    unfold pkBackwardIds
    rw [List.mem_reverse]
    exact List.mem_cons_of_mem _ (List.mem_map_of_mem _ hpr)

/-- `dest_indices` and the reordered id list pair up exactly
(`zip(dest_indices, reordered)` loses nothing). -/
theorem pk_zip_fst {L : List Int} {inTbl outTbl : List (List (Option Nat))}
    {heap : List Edge} {E : Int → Int → Prop} {c p : Int}
    (ctx : PKCtx L inTbl outTbl heap E c p) :
    (((pkDest L inTbl outTbl heap c p (idxOfI L c) (idxOfI L p)).zip
        (pkBackwardIds L outTbl heap p (idxOfI L c) (idxOfI L p)
          ++ pkForwardIds L inTbl heap c (idxOfI L c) (idxOfI L p))).map Prod.fst) =
      pkDest L inTbl outTbl heap c p (idxOfI L c) (idxOfI L p) := by
  refine List.map_fst_zip _ _ ?_
  rw [List.length_append, pk_dest_length]

/-- Length is preserved by the affected-region rewrite. -/
theorem pk_newL_len {L nL : List Int} {inTbl outTbl : List (List (Option Nat))}
    {heap : List Edge} {E : Int → Int → Prop} {c p : Int}
    (ctx : PKCtx L inTbl outTbl heap E c p)
    (hnc : ¬ Relation.TransGen E c p)
    (hnL : nL = ((pkDest L inTbl outTbl heap c p (idxOfI L c) (idxOfI L p)).zip
        (pkBackwardIds L outTbl heap p (idxOfI L c) (idxOfI L p)
          ++ pkForwardIds L inTbl heap c (idxOfI L c) (idxOfI L p))).foldl
      (fun l iv => l.set iv.1 iv.2) L) :
    nL.length = L.length := by
  subst hnL
  exact (foldl_set_spec L _ (by
    rw [pk_zip_fst ctx]
    exact (pk_dest_sorted ctx hnc).imp (fun h => Nat.ne_of_lt h))).1

/-- Positions outside `dest_indices` are untouched by the rewrite. -/
theorem pk_newL_off {L nL : List Int} {inTbl outTbl : List (List (Option Nat))}
    {heap : List Edge} {E : Int → Int → Prop} {c p : Int}
    (ctx : PKCtx L inTbl outTbl heap E c p)
    (hnc : ¬ Relation.TransGen E c p)
    (hnL : nL = ((pkDest L inTbl outTbl heap c p (idxOfI L c) (idxOfI L p)).zip
        (pkBackwardIds L outTbl heap p (idxOfI L c) (idxOfI L p)
          ++ pkForwardIds L inTbl heap c (idxOfI L c) (idxOfI L p))).foldl
      (fun l iv => l.set iv.1 iv.2) L) :
    ∀ i, i ∉ pkDest L inTbl outTbl heap c p (idxOfI L c) (idxOfI L p) →
      nL[i]? = L[i]? := by
  subst hnL
  intro i hi
  refine (foldl_set_spec L _ (by
    rw [pk_zip_fst ctx]
    exact (pk_dest_sorted ctx hnc).imp (fun h => Nat.ne_of_lt h))).2.1 i ?_
  rw [pk_zip_fst ctx]
  exact hi

/-- The `k`-th `dest_indices` slot receives the `k`-th reordered id. -/
theorem pk_newL_dest {L nL : List Int} {inTbl outTbl : List (List (Option Nat))}
    {heap : List Edge} {E : Int → Int → Prop} {c p : Int}
    (ctx : PKCtx L inTbl outTbl heap E c p)
    (hnc : ¬ Relation.TransGen E c p)
    (hnL : nL = ((pkDest L inTbl outTbl heap c p (idxOfI L c) (idxOfI L p)).zip
        (pkBackwardIds L outTbl heap p (idxOfI L c) (idxOfI L p)
          ++ pkForwardIds L inTbl heap c (idxOfI L c) (idxOfI L p))).foldl
      (fun l iv => l.set iv.1 iv.2) L) :
    ∀ k, k < (pkDest L inTbl outTbl heap c p (idxOfI L c) (idxOfI L p)).length →
      nL[(pkDest L inTbl outTbl heap c p (idxOfI L c) (idxOfI L p)).getD k 0]? =
        some ((pkBackwardIds L outTbl heap p (idxOfI L c) (idxOfI L p)
          ++ pkForwardIds L inTbl heap c (idxOfI L c) (idxOfI L p)).getD k 0) := by
  subst hnL
  intro k hk
  have hkR : k < (pkBackwardIds L outTbl heap p (idxOfI L c) (idxOfI L p)
      ++ pkForwardIds L inTbl heap c (idxOfI L c) (idxOfI L p)).length := by
    rw [List.length_append]
    rw [pk_dest_length] at hk
    omega
  have hkz : k < ((pkDest L inTbl outTbl heap c p (idxOfI L c) (idxOfI L p)).zip
      (pkBackwardIds L outTbl heap p (idxOfI L c) (idxOfI L p)
        ++ pkForwardIds L inTbl heap c (idxOfI L c) (idxOfI L p))).length := by
    rw [List.length_zip]
    omega
  have hmem : ((pkDest L inTbl outTbl heap c p (idxOfI L c) (idxOfI L p)).getD k 0,
      (pkBackwardIds L outTbl heap p (idxOfI L c) (idxOfI L p)
        ++ pkForwardIds L inTbl heap c (idxOfI L c) (idxOfI L p)).getD k 0) ∈
      ((pkDest L inTbl outTbl heap c p (idxOfI L c) (idxOfI L p)).zip
        (pkBackwardIds L outTbl heap p (idxOfI L c) (idxOfI L p)
          ++ pkForwardIds L inTbl heap c (idxOfI L c) (idxOfI L p))) := by
    rw [List.getD_eq_getElem _ _ hk, List.getD_eq_getElem _ _ hkR]
    rw [← List.getElem_zip (i := k)]
    exact List.getElem_mem hkz
  have hdk : (pkDest L inTbl outTbl heap c p (idxOfI L c) (idxOfI L p)).getD k 0 <
      L.length := by
    have hmemD : (pkDest L inTbl outTbl heap c p (idxOfI L c) (idxOfI L p)).getD k 0 ∈
        pkDest L inTbl outTbl heap c p (idxOfI L c) (idxOfI L p) := by
      rw [List.getD_eq_getElem _ _ hk]
      exact List.getElem_mem hk
    have := pk_dest_bounds ctx _ hmemD
    have := idx_lt_length ctx.hp
    omega
  exact (foldl_set_spec L _ (by
    rw [pk_zip_fst ctx]
    exact (pk_dest_sorted ctx hnc).imp (fun h => Nat.ne_of_lt h))).2.2 _ _ hmem hdk

/-- The affected-region rewrite permutes the order: membership is
unchanged. -/
theorem pk_newL_mem {L nL : List Int} {inTbl outTbl : List (List (Option Nat))}
    {heap : List Edge} {E : Int → Int → Prop} {c p : Int}
    (ctx : PKCtx L inTbl outTbl heap E c p)
    (hnc : ¬ Relation.TransGen E c p)
    (hnL : nL = ((pkDest L inTbl outTbl heap c p (idxOfI L c) (idxOfI L p)).zip
        (pkBackwardIds L outTbl heap p (idxOfI L c) (idxOfI L p)
          ++ pkForwardIds L inTbl heap c (idxOfI L c) (idxOfI L p))).foldl
      (fun l iv => l.set iv.1 iv.2) L) :
    ∀ x, x ∈ nL ↔ x ∈ L := by
  intro x
  constructor
  · intro hx
    obtain ⟨k, hk, hval⟩ := List.getElem_of_mem hx
    have hkq : nL[k]? = some x := by
      rw [List.getElem?_eq_getElem hk, hval]
    by_cases hkD : k ∈ pkDest L inTbl outTbl heap c p (idxOfI L c) (idxOfI L p)
    · obtain ⟨j, hj, hDj⟩ := List.getElem_of_mem hkD
      have hDgetD : (pkDest L inTbl outTbl heap c p (idxOfI L c) (idxOfI L p)).getD j 0
          = k := by
        rw [List.getD_eq_getElem _ _ hj, hDj]
      have h2 := pk_newL_dest ctx hnc hnL j hj
      rw [hDgetD, hkq] at h2
      have hxR := Option.some_injective _ h2
      have hjR : j < (pkBackwardIds L outTbl heap p (idxOfI L c) (idxOfI L p)
          ++ pkForwardIds L inTbl heap c (idxOfI L c) (idxOfI L p)).length := by
        rw [List.length_append]
        rw [pk_dest_length] at hj
        omega
      have hmemR : (pkBackwardIds L outTbl heap p (idxOfI L c) (idxOfI L p)
          ++ pkForwardIds L inTbl heap c (idxOfI L c) (idxOfI L p)).getD j 0 ∈
          pkBackwardIds L outTbl heap p (idxOfI L c) (idxOfI L p)
            ++ pkForwardIds L inTbl heap c (idxOfI L c) (idxOfI L p) := by
        rw [List.getD_eq_getElem _ _ hjR]
        exact List.getElem_mem hjR
      rw [← hxR] at hmemR
      exact (pk_reordered_memL ctx hnc x hmemR).1
    · have h2 := pk_newL_off ctx hnc hnL k hkD
      rw [hkq] at h2
      exact mem_of_getElemQ h2.symm
  · intro hxL
    by_cases hD : idxOfI L x ∈ pkDest L inTbl outTbl heap c p (idxOfI L c) (idxOfI L p)
    · have hmemR := pk_dest_val_mem_reordered ctx _ hD
      rw [getD_idx hxL] at hmemR
      obtain ⟨j, hj, hval⟩ := List.getElem_of_mem hmemR
      have hjD : j < (pkDest L inTbl outTbl heap c p (idxOfI L c) (idxOfI L p)).length := by
        rw [pk_dest_length]
        rw [List.length_append] at hj
        omega
      have h2 := pk_newL_dest ctx hnc hnL j hjD
      have h3 : (pkBackwardIds L outTbl heap p (idxOfI L c) (idxOfI L p)
          ++ pkForwardIds L inTbl heap c (idxOfI L c) (idxOfI L p)).getD j 0 = x := by
        rw [List.getD_eq_getElem _ _ hj, hval]
      rw [h3] at h2
      exact mem_of_getElemQ h2
    · have h2 := pk_newL_off ctx hnc hnL (idxOfI L x) hD
      have h3 : L[idxOfI L x]? = some x := by
        rw [List.getElem?_eq_getElem (idx_lt_length hxL)]
        have h4 := getD_idx hxL
        rw [List.getD_eq_getElem _ _ (idx_lt_length hxL)] at h4
        rw [h4]
      rw [h3] at h2
      exact mem_of_getElemQ h2

/-- The affected-region rewrite keeps the order duplicate-free. -/
theorem pk_newL_nodup {L nL : List Int} {inTbl outTbl : List (List (Option Nat))}
    {heap : List Edge} {E : Int → Int → Prop} {c p : Int}
    (ctx : PKCtx L inTbl outTbl heap E c p)
    (hnc : ¬ Relation.TransGen E c p)
    (hnL : nL = ((pkDest L inTbl outTbl heap c p (idxOfI L c) (idxOfI L p)).zip
        (pkBackwardIds L outTbl heap p (idxOfI L c) (idxOfI L p)
          ++ pkForwardIds L inTbl heap c (idxOfI L c) (idxOfI L p))).foldl
      (fun l iv => l.set iv.1 iv.2) L) :
    nL.Nodup := by
  have hprov : ∀ m, m ∈ pkDest L inTbl outTbl heap c p (idxOfI L c) (idxOfI L p) →
      ∃ k, k < (pkDest L inTbl outTbl heap c p (idxOfI L c) (idxOfI L p)).length ∧
        (pkDest L inTbl outTbl heap c p (idxOfI L c) (idxOfI L p)).getD k 0 = m ∧
        nL[m]? = some ((pkBackwardIds L outTbl heap p (idxOfI L c) (idxOfI L p)
          ++ pkForwardIds L inTbl heap c (idxOfI L c) (idxOfI L p)).getD k 0) ∧
        idxOfI L ((pkBackwardIds L outTbl heap p (idxOfI L c) (idxOfI L p)
          ++ pkForwardIds L inTbl heap c (idxOfI L c) (idxOfI L p)).getD k 0) ∈
          pkDest L inTbl outTbl heap c p (idxOfI L c) (idxOfI L p) := by
    intro m hm
    obtain ⟨k, hk, hDk⟩ := List.getElem_of_mem hm
    have hDgetD : (pkDest L inTbl outTbl heap c p (idxOfI L c) (idxOfI L p)).getD k 0
        = m := by
      rw [List.getD_eq_getElem _ _ hk, hDk]
    have h2 := pk_newL_dest ctx hnc hnL k hk
    rw [hDgetD] at h2
    have hkR : k < (pkBackwardIds L outTbl heap p (idxOfI L c) (idxOfI L p)
        ++ pkForwardIds L inTbl heap c (idxOfI L c) (idxOfI L p)).length := by
      rw [List.length_append]
      rw [pk_dest_length] at hk
      omega
    have hmemR : (pkBackwardIds L outTbl heap p (idxOfI L c) (idxOfI L p)
        ++ pkForwardIds L inTbl heap c (idxOfI L c) (idxOfI L p)).getD k 0 ∈
        pkBackwardIds L outTbl heap p (idxOfI L c) (idxOfI L p)
          ++ pkForwardIds L inTbl heap c (idxOfI L c) (idxOfI L p) := by
      rw [List.getD_eq_getElem _ _ hkR]
      exact List.getElem_mem hkR
    exact ⟨k, hk, hDgetD, h2, (pk_reordered_memL ctx hnc _ hmemR).2⟩
  rw [List.nodup_iff_get?_ne_get?]
  intro i j hij hjlen
  rw [List.get?_eq_getElem? nL i, List.get?_eq_getElem? nL j]
  intro heq
  have hjL : j < L.length := by
    rw [← pk_newL_len ctx hnc hnL]
    exact hjlen
  have hiL : i < L.length := by omega
  by_cases hiD : i ∈ pkDest L inTbl outTbl heap c p (idxOfI L c) (idxOfI L p)
  · obtain ⟨ki, hki, hDki, hvi, hxi⟩ := hprov i hiD
    by_cases hjD : j ∈ pkDest L inTbl outTbl heap c p (idxOfI L c) (idxOfI L p)
    · obtain ⟨kj, hkj, hDkj, hvj, hxj⟩ := hprov j hjD
      rw [hvi, hvj] at heq
      have hveq := Option.some_injective _ heq
      have hkiR : ki < (pkBackwardIds L outTbl heap p (idxOfI L c) (idxOfI L p)
          ++ pkForwardIds L inTbl heap c (idxOfI L c) (idxOfI L p)).length := by
        rw [List.length_append]
        rw [pk_dest_length] at hki
        omega
      have hkjR : kj < (pkBackwardIds L outTbl heap p (idxOfI L c) (idxOfI L p)
          ++ pkForwardIds L inTbl heap c (idxOfI L c) (idxOfI L p)).length := by
        rw [List.length_append]
        rw [pk_dest_length] at hkj
        omega
      rw [List.getD_eq_getElem _ _ hkiR, List.getD_eq_getElem _ _ hkjR] at hveq
      have hget : (pkBackwardIds L outTbl heap p (idxOfI L c) (idxOfI L p)
          ++ pkForwardIds L inTbl heap c (idxOfI L c) (idxOfI L p)).get ⟨ki, hkiR⟩ =
          (pkBackwardIds L outTbl heap p (idxOfI L c) (idxOfI L p)
            ++ pkForwardIds L inTbl heap c (idxOfI L c) (idxOfI L p)).get ⟨kj, hkjR⟩ := by
        rw [List.get_eq_getElem, List.get_eq_getElem]
        exact hveq
      have hkk := congrArg Fin.val
        ((List.Nodup.get_inj_iff (pk_reordered_nodup ctx hnc)).mp hget)
      simp only at hkk
      rw [hkk] at hDki
      rw [hDki] at hDkj
      omega
    · rw [hvi, pk_newL_off ctx hnc hnL j hjD, List.getElem?_eq_getElem hjL] at heq
      have hveq := Option.some_injective _ heq
      have hidx : idxOfI L ((pkBackwardIds L outTbl heap p (idxOfI L c) (idxOfI L p)
          ++ pkForwardIds L inTbl heap c (idxOfI L c) (idxOfI L p)).getD ki 0) = j := by
        refine idx_of_getElemQ ctx.hL ?_
        rw [List.getElem?_eq_getElem hjL, hveq]
      rw [hidx] at hxi
      exact hjD hxi
  · by_cases hjD : j ∈ pkDest L inTbl outTbl heap c p (idxOfI L c) (idxOfI L p)
    · obtain ⟨kj, hkj, hDkj, hvj, hxj⟩ := hprov j hjD
      rw [hvj, pk_newL_off ctx hnc hnL i hiD, List.getElem?_eq_getElem hiL] at heq
      have hveq := Option.some_injective _ heq.symm
      have hidx : idxOfI L ((pkBackwardIds L outTbl heap p (idxOfI L c) (idxOfI L p)
          ++ pkForwardIds L inTbl heap c (idxOfI L c) (idxOfI L p)).getD kj 0) = i := by
        refine idx_of_getElemQ ctx.hL ?_
        rw [List.getElem?_eq_getElem hiL, hveq]
      rw [hidx] at hxj
      exact hiD hxj
    · rw [pk_newL_off ctx hnc hnL i hiD, pk_newL_off ctx hnc hnL j hjD] at heq
      have := (List.nodup_iff_get?_ne_get?.mp ctx.hL) i j hij hjL
      rw [List.get?_eq_getElem? L i, List.get?_eq_getElem? L j] at this
      exact this heq

/-- Nodes whose position is outside `dest_indices` keep their position. -/
theorem pk_newL_idx_off {L nL : List Int} {inTbl outTbl : List (List (Option Nat))}
    {heap : List Edge} {E : Int → Int → Prop} {c p : Int}
    (ctx : PKCtx L inTbl outTbl heap E c p)
    (hnc : ¬ Relation.TransGen E c p)
    (hnL : nL = ((pkDest L inTbl outTbl heap c p (idxOfI L c) (idxOfI L p)).zip
        (pkBackwardIds L outTbl heap p (idxOfI L c) (idxOfI L p)
          ++ pkForwardIds L inTbl heap c (idxOfI L c) (idxOfI L p))).foldl
      (fun l iv => l.set iv.1 iv.2) L) :
    ∀ x, x ∈ L →
      idxOfI L x ∉ pkDest L inTbl outTbl heap c p (idxOfI L c) (idxOfI L p) →
      idxOfI nL x = idxOfI L x := by
  intro x hxL hD
  have h2 := pk_newL_off ctx hnc hnL (idxOfI L x) hD
  have h3 : L[idxOfI L x]? = some x := by
    rw [List.getElem?_eq_getElem (idx_lt_length hxL)]
    have h4 := getD_idx hxL
    rw [List.getD_eq_getElem _ _ (idx_lt_length hxL)] at h4
    rw [h4]
  rw [h3] at h2
  exact idx_of_getElemQ (pk_newL_nodup ctx hnc hnL) h2

/-- A node in neither the backward nor the forward set sits outside
`dest_indices`. -/
theorem pk_notin_dest {L : List Int} {inTbl outTbl : List (List (Option Nat))}
    {heap : List Edge} {E : Int → Int → Prop} {c p : Int}
    (ctx : PKCtx L inTbl outTbl heap E c p) :
    ∀ x, x ∈ L →
      x ∉ pkBackwardIds L outTbl heap p (idxOfI L c) (idxOfI L p) →
      x ∉ pkForwardIds L inTbl heap c (idxOfI L c) (idxOfI L p) →
      idxOfI L x ∉ pkDest L inTbl outTbl heap c p (idxOfI L c) (idxOfI L p) := by
  intro x hxL hxB hxF hmem
  have h2 := pk_dest_val_mem_reordered ctx _ hmem
  rw [getD_idx hxL] at h2
  rcases List.mem_append.mp h2 with h3 | h3
  · exact hxB h3
  · exact hxF h3

/-- A backward-set node of rank `k` had old position `k`-th among the
backward positions and lands on the `k`-th `dest_indices` slot. -/
theorem pk_bwd_rank {L nL : List Int} {inTbl outTbl : List (List (Option Nat))}
    {heap : List Edge} {E : Int → Int → Prop} {c p : Int}
    (ctx : PKCtx L inTbl outTbl heap E c p)
    (hnc : ¬ Relation.TransGen E c p)
    (hnL : nL = ((pkDest L inTbl outTbl heap c p (idxOfI L c) (idxOfI L p)).zip
        (pkBackwardIds L outTbl heap p (idxOfI L c) (idxOfI L p)
          ++ pkForwardIds L inTbl heap c (idxOfI L c) (idxOfI L p))).foldl
      (fun l iv => l.set iv.1 iv.2) L) :
    ∀ x, x ∈ pkBackwardIds L outTbl heap p (idxOfI L c) (idxOfI L p) →
      ∃ k, k < (pkBackwardIds L outTbl heap p (idxOfI L c) (idxOfI L p)).length ∧
        idxOfI L x = ((pkBackwardIds L outTbl heap p (idxOfI L c)
          (idxOfI L p)).map (idxOfI L)).getD k 0 ∧
        idxOfI nL x =
          (pkDest L inTbl outTbl heap c p (idxOfI L c) (idxOfI L p)).getD k 0 := by
  intro x hx
  obtain ⟨k, hk, hval⟩ := List.getElem_of_mem hx
  have hkm : k < ((pkBackwardIds L outTbl heap p (idxOfI L c)
      (idxOfI L p)).map (idxOfI L)).length := by
    rw [List.length_map]
    exact hk
  have hmap : ((pkBackwardIds L outTbl heap p (idxOfI L c)
      (idxOfI L p)).map (idxOfI L)).getD k 0 = idxOfI L x := by
    rw [List.getD_eq_getElem _ _ hkm, List.getElem_map, hval]
  have hkR : k < (pkBackwardIds L outTbl heap p (idxOfI L c) (idxOfI L p)
      ++ pkForwardIds L inTbl heap c (idxOfI L c) (idxOfI L p)).length := by
    rw [List.length_append]
    omega
  have hRq : (pkBackwardIds L outTbl heap p (idxOfI L c) (idxOfI L p)
      ++ pkForwardIds L inTbl heap c (idxOfI L c) (idxOfI L p))[k]? = some x := by
    rw [List.getElem?_append, if_pos hk, List.getElem?_eq_getElem hk, hval]
  have hRgetD : (pkBackwardIds L outTbl heap p (idxOfI L c) (idxOfI L p)
      ++ pkForwardIds L inTbl heap c (idxOfI L c) (idxOfI L p)).getD k 0 = x := by
    rw [List.getElem?_eq_getElem hkR] at hRq
    rw [List.getD_eq_getElem _ _ hkR]
    exact Option.some_injective _ hRq
  have hkD : k < (pkDest L inTbl outTbl heap c p (idxOfI L c) (idxOfI L p)).length := by
    rw [pk_dest_length]
    omega
  have h2 := pk_newL_dest ctx hnc hnL k hkD
  rw [hRgetD] at h2
  exact ⟨k, hk, hmap.symm, idx_of_getElemQ (pk_newL_nodup ctx hnc hnL) h2⟩

/-- A forward-set node of rank `j` had old position `j`-th among the
forward positions and lands on slot `|backward| + j` of `dest_indices`. -/
theorem pk_fwd_rank {L nL : List Int} {inTbl outTbl : List (List (Option Nat))}
    {heap : List Edge} {E : Int → Int → Prop} {c p : Int}
    (ctx : PKCtx L inTbl outTbl heap E c p)
    (hnc : ¬ Relation.TransGen E c p)
    (hnL : nL = ((pkDest L inTbl outTbl heap c p (idxOfI L c) (idxOfI L p)).zip
        (pkBackwardIds L outTbl heap p (idxOfI L c) (idxOfI L p)
          ++ pkForwardIds L inTbl heap c (idxOfI L c) (idxOfI L p))).foldl
      (fun l iv => l.set iv.1 iv.2) L) :
    ∀ x, x ∈ pkForwardIds L inTbl heap c (idxOfI L c) (idxOfI L p) →
      ∃ j, j < (pkForwardIds L inTbl heap c (idxOfI L c) (idxOfI L p)).length ∧
        idxOfI L x = ((pkForwardIds L inTbl heap c (idxOfI L c)
          (idxOfI L p)).map (idxOfI L)).getD j 0 ∧
        idxOfI nL x = (pkDest L inTbl outTbl heap c p (idxOfI L c) (idxOfI L p)).getD
          ((pkBackwardIds L outTbl heap p (idxOfI L c) (idxOfI L p)).length + j) 0 := by
  intro x hx
  obtain ⟨j, hj, hval⟩ := List.getElem_of_mem hx
  have hjm : j < ((pkForwardIds L inTbl heap c (idxOfI L c)
      (idxOfI L p)).map (idxOfI L)).length := by
    rw [List.length_map]
    exact hj
  have hmap : ((pkForwardIds L inTbl heap c (idxOfI L c)
      (idxOfI L p)).map (idxOfI L)).getD j 0 = idxOfI L x := by
    rw [List.getD_eq_getElem _ _ hjm, List.getElem_map, hval]
  have hkR : (pkBackwardIds L outTbl heap p (idxOfI L c) (idxOfI L p)).length + j <
      (pkBackwardIds L outTbl heap p (idxOfI L c) (idxOfI L p)
        ++ pkForwardIds L inTbl heap c (idxOfI L c) (idxOfI L p)).length := by
    rw [List.length_append]
    omega
  have hRq : (pkBackwardIds L outTbl heap p (idxOfI L c) (idxOfI L p)
      ++ pkForwardIds L inTbl heap c (idxOfI L c) (idxOfI L p))[
        (pkBackwardIds L outTbl heap p (idxOfI L c) (idxOfI L p)).length + j]? =
      some x := by
    rw [List.getElem?_append, if_neg (by omega)]
    have harg : (pkBackwardIds L outTbl heap p (idxOfI L c) (idxOfI L p)).length + j -
        (pkBackwardIds L outTbl heap p (idxOfI L c) (idxOfI L p)).length = j := by
      omega
    rw [harg, List.getElem?_eq_getElem hj, hval]
  have hRgetD : (pkBackwardIds L outTbl heap p (idxOfI L c) (idxOfI L p)
      ++ pkForwardIds L inTbl heap c (idxOfI L c) (idxOfI L p)).getD
        ((pkBackwardIds L outTbl heap p (idxOfI L c) (idxOfI L p)).length + j) 0 = x := by
    rw [List.getElem?_eq_getElem hkR] at hRq
    rw [List.getD_eq_getElem _ _ hkR]
    exact Option.some_injective _ hRq
  have hkD : (pkBackwardIds L outTbl heap p (idxOfI L c) (idxOfI L p)).length + j <
      (pkDest L inTbl outTbl heap c p (idxOfI L c) (idxOfI L p)).length := by
    rw [pk_dest_length]
    omega
  have h2 := pk_newL_dest ctx hnc hnL _ hkD
  rw [hRgetD] at h2
  exact ⟨j, hj, hmap.symm, idx_of_getElemQ (pk_newL_nodup ctx hnc hnL) h2⟩

/-- Slot values of `dest_indices` stay within the affected region. -/
theorem pk_dest_getD_bounds {L : List Int} {inTbl outTbl : List (List (Option Nat))}
    {heap : List Edge} {E : Int → Int → Prop} {c p : Int}
    (ctx : PKCtx L inTbl outTbl heap E c p) :
    ∀ k, k < (pkDest L inTbl outTbl heap c p (idxOfI L c) (idxOfI L p)).length →
      idxOfI L c ≤ (pkDest L inTbl outTbl heap c p (idxOfI L c) (idxOfI L p)).getD k 0 ∧
      (pkDest L inTbl outTbl heap c p (idxOfI L c) (idxOfI L p)).getD k 0 ≤
        idxOfI L p := by
  intro k hk
  have hmem : (pkDest L inTbl outTbl heap c p (idxOfI L c) (idxOfI L p)).getD k 0 ∈
      pkDest L inTbl outTbl heap c p (idxOfI L c) (idxOfI L p) := by
    rw [List.getD_eq_getElem _ _ hk]
    exact List.getElem_mem hk
  exact pk_dest_bounds ctx _ hmem

/-- A backward-set node never moves later: `dest_indices[k]` is at most
the `k`-th backward position. -/
theorem pk_dest_le_bwdmap {L : List Int} {inTbl outTbl : List (List (Option Nat))}
    {heap : List Edge} {E : Int → Int → Prop} {c p : Int}
    (ctx : PKCtx L inTbl outTbl heap E c p)
    (hnc : ¬ Relation.TransGen E c p) :
    ∀ k, k < (pkBackwardIds L outTbl heap p (idxOfI L c) (idxOfI L p)).length →
      (pkDest L inTbl outTbl heap c p (idxOfI L c) (idxOfI L p)).getD k 0 ≤
        ((pkBackwardIds L outTbl heap p (idxOfI L c) (idxOfI L p)).map
          (idxOfI L)).getD k 0 := by
  intro k hk
  exact sorted_sublist_le (pk_bwd_sublist_dest ctx hnc) (pk_dest_sorted ctx hnc) k
    (by rw [List.length_map]; exact hk)

/-- A forward-set node never moves earlier: the `j`-th forward position is
at most `dest_indices[|backward| + j]`. -/
theorem pk_fwdmap_le_dest {L : List Int} {inTbl outTbl : List (List (Option Nat))}
    {heap : List Edge} {E : Int → Int → Prop} {c p : Int}
    (ctx : PKCtx L inTbl outTbl heap E c p)
    (hnc : ¬ Relation.TransGen E c p) :
    ∀ j, j < (pkForwardIds L inTbl heap c (idxOfI L c) (idxOfI L p)).length →
      ((pkForwardIds L inTbl heap c (idxOfI L c) (idxOfI L p)).map
        (idxOfI L)).getD j 0 ≤
      (pkDest L inTbl outTbl heap c p (idxOfI L c) (idxOfI L p)).getD
        ((pkBackwardIds L outTbl heap p (idxOfI L c) (idxOfI L p)).length + j) 0 := by
  intro j hj
  have h2 := sorted_sublist_ge (pk_fwd_sublist_dest ctx hnc) (pk_dest_sorted ctx hnc) j
    (by rw [List.length_map]; exact hj)
  have harg : j + ((pkDest L inTbl outTbl heap c p (idxOfI L c) (idxOfI L p)).length -
      ((pkForwardIds L inTbl heap c (idxOfI L c) (idxOfI L p)).map
        (idxOfI L)).length) =
      (pkBackwardIds L outTbl heap p (idxOfI L c) (idxOfI L p)).length + j := by
    rw [List.length_map, pk_dest_length]
    omega
  rw [harg] at h2
  exact h2

/-- Backward-set nodes move earlier (or stay), never before the
consumer's old position. -/
theorem pk_newL_bwd_le {L nL : List Int} {inTbl outTbl : List (List (Option Nat))}
    {heap : List Edge} {E : Int → Int → Prop} {c p : Int}
    (ctx : PKCtx L inTbl outTbl heap E c p)
    (hnc : ¬ Relation.TransGen E c p)
    (hnL : nL = ((pkDest L inTbl outTbl heap c p (idxOfI L c) (idxOfI L p)).zip
        (pkBackwardIds L outTbl heap p (idxOfI L c) (idxOfI L p)
          ++ pkForwardIds L inTbl heap c (idxOfI L c) (idxOfI L p))).foldl
      (fun l iv => l.set iv.1 iv.2) L) :
    ∀ x, x ∈ pkBackwardIds L outTbl heap p (idxOfI L c) (idxOfI L p) →
      idxOfI nL x ≤ idxOfI L x ∧ idxOfI L c ≤ idxOfI nL x := by
  intro x hx
  obtain ⟨k, hk, hmap, hnew⟩ := pk_bwd_rank ctx hnc hnL x hx
  have hkD : k < (pkDest L inTbl outTbl heap c p (idxOfI L c) (idxOfI L p)).length := by
    rw [pk_dest_length]
    omega
  have h1 := pk_dest_le_bwdmap ctx hnc k hk
  have h2 := (pk_dest_getD_bounds ctx k hkD).1
  omega

/-- Forward-set nodes move later (or stay), never past the producer's old
position. -/
theorem pk_newL_fwd_ge {L nL : List Int} {inTbl outTbl : List (List (Option Nat))}
    {heap : List Edge} {E : Int → Int → Prop} {c p : Int}
    (ctx : PKCtx L inTbl outTbl heap E c p)
    (hnc : ¬ Relation.TransGen E c p)
    (hnL : nL = ((pkDest L inTbl outTbl heap c p (idxOfI L c) (idxOfI L p)).zip
        (pkBackwardIds L outTbl heap p (idxOfI L c) (idxOfI L p)
          ++ pkForwardIds L inTbl heap c (idxOfI L c) (idxOfI L p))).foldl
      (fun l iv => l.set iv.1 iv.2) L) :
    ∀ x, x ∈ pkForwardIds L inTbl heap c (idxOfI L c) (idxOfI L p) →
      idxOfI L x ≤ idxOfI nL x ∧ idxOfI nL x ≤ idxOfI L p := by
  intro x hx
  obtain ⟨j, hj, hmap, hnew⟩ := pk_fwd_rank ctx hnc hnL x hx
  have hkD : (pkBackwardIds L outTbl heap p (idxOfI L c) (idxOfI L p)).length + j <
      (pkDest L inTbl outTbl heap c p (idxOfI L c) (idxOfI L p)).length := by
    rw [pk_dest_length]
    omega
  have h1 := pk_fwdmap_le_dest ctx hnc j hj
  have h2 := (pk_dest_getD_bounds ctx _ hkD).2
  omega

/-- Every backward-set node ends up before every forward-set node. -/
theorem pk_newL_bwd_lt_fwd {L nL : List Int} {inTbl outTbl : List (List (Option Nat))}
    {heap : List Edge} {E : Int → Int → Prop} {c p : Int}
    (ctx : PKCtx L inTbl outTbl heap E c p)
    (hnc : ¬ Relation.TransGen E c p)
    (hnL : nL = ((pkDest L inTbl outTbl heap c p (idxOfI L c) (idxOfI L p)).zip
        (pkBackwardIds L outTbl heap p (idxOfI L c) (idxOfI L p)
          ++ pkForwardIds L inTbl heap c (idxOfI L c) (idxOfI L p))).foldl
      (fun l iv => l.set iv.1 iv.2) L) :
    ∀ x, x ∈ pkBackwardIds L outTbl heap p (idxOfI L c) (idxOfI L p) →
      ∀ y, y ∈ pkForwardIds L inTbl heap c (idxOfI L c) (idxOfI L p) →
        idxOfI nL x < idxOfI nL y := by
  intro x hx y hy
  obtain ⟨k, hk, -, hnewx⟩ := pk_bwd_rank ctx hnc hnL x hx
  obtain ⟨j, hj, -, hnewy⟩ := pk_fwd_rank ctx hnc hnL y hy
  have hkD : (pkBackwardIds L outTbl heap p (idxOfI L c) (idxOfI L p)).length + j <
      (pkDest L inTbl outTbl heap c p (idxOfI L c) (idxOfI L p)).length := by
    rw [pk_dest_length]
    omega
  have h2 := sorted_getD_strict (pk_dest_sorted ctx hnc) (show k <
    (pkBackwardIds L outTbl heap p (idxOfI L c) (idxOfI L p)).length + j by omega) hkD
  omega

/-- Relative order within the backward set is preserved. -/
theorem pk_newL_bwd_mono {L nL : List Int} {inTbl outTbl : List (List (Option Nat))}
    {heap : List Edge} {E : Int → Int → Prop} {c p : Int}
    (ctx : PKCtx L inTbl outTbl heap E c p)
    (hnc : ¬ Relation.TransGen E c p)
    (hnL : nL = ((pkDest L inTbl outTbl heap c p (idxOfI L c) (idxOfI L p)).zip
        (pkBackwardIds L outTbl heap p (idxOfI L c) (idxOfI L p)
          ++ pkForwardIds L inTbl heap c (idxOfI L c) (idxOfI L p))).foldl
      (fun l iv => l.set iv.1 iv.2) L) :
    ∀ x, x ∈ pkBackwardIds L outTbl heap p (idxOfI L c) (idxOfI L p) →
      ∀ y, y ∈ pkBackwardIds L outTbl heap p (idxOfI L c) (idxOfI L p) →
        idxOfI L x < idxOfI L y → idxOfI nL x < idxOfI nL y := by
  intro x hx y hy hlt
  obtain ⟨kx, hkx, hmapx, hnewx⟩ := pk_bwd_rank ctx hnc hnL x hx
  obtain ⟨ky, hky, hmapy, hnewy⟩ := pk_bwd_rank ctx hnc hnL y hy
  have hkk : kx < ky := by
    by_contra hge
    have h2 := sorted_getD_mono (pk_bwdIds_mapidx_sorted ctx)
      (show ky ≤ kx by omega) (by rw [List.length_map]; exact hkx)
    omega
  have hkyD : ky < (pkDest L inTbl outTbl heap c p (idxOfI L c) (idxOfI L p)).length := by
    rw [pk_dest_length]
    omega
  have h2 := sorted_getD_strict (pk_dest_sorted ctx hnc) hkk hkyD
  omega

/-- Relative order within the forward set is preserved. -/
theorem pk_newL_fwd_mono {L nL : List Int} {inTbl outTbl : List (List (Option Nat))}
    {heap : List Edge} {E : Int → Int → Prop} {c p : Int}
    (ctx : PKCtx L inTbl outTbl heap E c p)
    (hnc : ¬ Relation.TransGen E c p)
    (hnL : nL = ((pkDest L inTbl outTbl heap c p (idxOfI L c) (idxOfI L p)).zip
        (pkBackwardIds L outTbl heap p (idxOfI L c) (idxOfI L p)
          ++ pkForwardIds L inTbl heap c (idxOfI L c) (idxOfI L p))).foldl
      (fun l iv => l.set iv.1 iv.2) L) :
    ∀ x, x ∈ pkForwardIds L inTbl heap c (idxOfI L c) (idxOfI L p) →
      ∀ y, y ∈ pkForwardIds L inTbl heap c (idxOfI L c) (idxOfI L p) →
        idxOfI L x < idxOfI L y → idxOfI nL x < idxOfI nL y := by
  intro x hx y hy hlt
  obtain ⟨jx, hjx, hmapx, hnewx⟩ := pk_fwd_rank ctx hnc hnL x hx
  obtain ⟨jy, hjy, hmapy, hnewy⟩ := pk_fwd_rank ctx hnc hnL y hy
  have hjj : jx < jy := by
    by_contra hge
    have h2 := sorted_getD_mono (pk_fwdIds_mapidx_sorted ctx)
      (show jy ≤ jx by omega) (by rw [List.length_map]; exact hjx)
    omega
  have hjyD : (pkBackwardIds L outTbl heap p (idxOfI L c) (idxOfI L p)).length + jy <
      (pkDest L inTbl outTbl heap c p (idxOfI L c) (idxOfI L p)).length := by
    rw [pk_dest_length]
    omega
  have h2 := sorted_getD_strict (pk_dest_sorted ctx hnc)
    (show (pkBackwardIds L outTbl heap p (idxOfI L c) (idxOfI L p)).length + jx <
      (pkBackwardIds L outTbl heap p (idxOfI L c) (idxOfI L p)).length + jy by omega)
    hjyD
  omega

/-- Main correctness of the affected-region rewrite: the rewritten order
is a valid topological order of the old edges plus the new edge. -/
theorem pk_newL_topo {L nL : List Int} {inTbl outTbl : List (List (Option Nat))}
    {heap : List Edge} {E : Int → Int → Prop} {c p : Int}
    (ctx : PKCtx L inTbl outTbl heap E c p)
    (hnc : ¬ Relation.TransGen E c p)
    (hnL : nL = ((pkDest L inTbl outTbl heap c p (idxOfI L c) (idxOfI L p)).zip
        (pkBackwardIds L outTbl heap p (idxOfI L c) (idxOfI L p)
          ++ pkForwardIds L inTbl heap c (idxOfI L c) (idxOfI L p))).foldl
      (fun l iv => l.set iv.1 iv.2) L) :
    ∀ u v, (E u v ∨ (u = p ∧ v = c)) → idxOfI nL u < idxOfI nL v := by
  intro u v huv
  rcases huv with hEuv | ⟨rfl, rfl⟩
  · have hidx := ctx.htopo _ _ hEuv
    have huL := (ctx.hE _ _ hEuv).1
    have hvL := (ctx.hE _ _ hEuv).2
    by_cases hvB : v ∈ pkBackwardIds L outTbl heap p (idxOfI L c) (idxOfI L p)
    · have hvp := (pk_bwdIds_mem ctx hnc v).mp hvB
      by_cases huB : u ∈ pkBackwardIds L outTbl heap p (idxOfI L c) (idxOfI L p)
      · exact pk_newL_bwd_mono ctx hnc hnL u huB v hvB hidx
      · have hup : Relation.ReflTransGen E u p :=
          Relation.ReflTransGen.head hEuv hvp.2.2.2
        have hult : idxOfI L u < idxOfI L c := by
          by_contra hge
          refine huB ((pk_bwdIds_mem ctx hnc u).mpr ⟨huL, by omega, ?_, hup⟩)
          have := hvp.2.2.1
          omega
        have huF : u ∉ pkForwardIds L inTbl heap c (idxOfI L c) (idxOfI L p) := by
          intro h
          have := ((pk_fwdIds_mem ctx hnc u).mp h).2.1
          omega
        have hnotD := pk_notin_dest ctx u huL huB huF
        have hoffu := pk_newL_idx_off ctx hnc hnL u huL hnotD
        have hge := (pk_newL_bwd_le ctx hnc hnL v hvB).2
        omega
    · by_cases huF : u ∈ pkForwardIds L inTbl heap c (idxOfI L c) (idxOfI L p)
      · have hcu := (pk_fwdIds_mem ctx hnc u).mp huF
        have hcv : Relation.ReflTransGen E c v := hcu.2.2.2.tail hEuv
        by_cases hvle : idxOfI L v ≤ idxOfI L p
        · have hvF : v ∈ pkForwardIds L inTbl heap c (idxOfI L c) (idxOfI L p) := by
            refine (pk_fwdIds_mem ctx hnc v).mpr ⟨hvL, ?_, hvle, hcv⟩
            have := hcu.2.1
            omega
          exact pk_newL_fwd_mono ctx hnc hnL u huF v hvF hidx
        · have hvF : v ∉ pkForwardIds L inTbl heap c (idxOfI L c) (idxOfI L p) := by
            intro h
            have := ((pk_fwdIds_mem ctx hnc v).mp h).2.2.1
            omega
          have hnotD := pk_notin_dest ctx v hvL hvB hvF
          have hoffv := pk_newL_idx_off ctx hnc hnL v hvL hnotD
          have hle := (pk_newL_fwd_ge ctx hnc hnL u huF).2
          omega
      · by_cases huB : u ∈ pkBackwardIds L outTbl heap p (idxOfI L c) (idxOfI L p)
        · by_cases hvF : v ∈ pkForwardIds L inTbl heap c (idxOfI L c) (idxOfI L p)
          · exact pk_newL_bwd_lt_fwd ctx hnc hnL u huB v hvF
          · have hnotD := pk_notin_dest ctx v hvL hvB hvF
            have hoffv := pk_newL_idx_off ctx hnc hnL v hvL hnotD
            have hle := (pk_newL_bwd_le ctx hnc hnL u huB).1
            omega
        · have hnotDu := pk_notin_dest ctx u huL huB huF
          have hoffu := pk_newL_idx_off ctx hnc hnL u huL hnotDu
          by_cases hvF : v ∈ pkForwardIds L inTbl heap c (idxOfI L c) (idxOfI L p)
          · have hge := (pk_newL_fwd_ge ctx hnc hnL v hvF).1
            omega
          · have hnotDv := pk_notin_dest ctx v hvL hvB hvF
            have hoffv := pk_newL_idx_off ctx hnc hnL v hvL hnotDv
            omega
  · have hpB : u ∈ pkBackwardIds L outTbl heap u (idxOfI L v) (idxOfI L u) :=
      (pk_bwdIds_mem ctx hnc u).mpr
        ⟨ctx.hp, le_of_lt ctx.hlt, le_refl _, Relation.ReflTransGen.refl⟩
    have hcF : v ∈ pkForwardIds L inTbl heap v (idxOfI L v) (idxOfI L u) :=
      (pk_fwdIds_mem ctx hnc v).mpr
        ⟨ctx.hc, le_refl _, le_of_lt ctx.hlt, Relation.ReflTransGen.refl⟩
    exact pk_newL_bwd_lt_fwd ctx hnc hnL u hpB v hcF

/-- Branch 1 of `_update_topological_order`: producer already precedes
consumer, nothing to do. -/
theorem updateTopo_already (L : List Int) (inTbl outTbl : List (List (Option Nat)))
    (heap : List Edge) (e : Edge)
    (h : idxOfI L e.producerId < idxOfI L e.consumerId) :
    updateTopologicalOrder L inTbl outTbl heap e = .ok L := by
  unfold updateTopologicalOrder
  rw [if_pos h]

/-- Branch 2: the cycle check fires. -/
theorem updateTopo_cycle_raw (L : List Int) (inTbl outTbl : List (List (Option Nat)))
    (heap : List Edge) (e : Edge)
    (h : ¬ idxOfI L e.producerId < idxOfI L e.consumerId)
    (hcheck : producerHit heap (tblGet inTbl e.producerId)
      (pkForwardIds L inTbl heap e.consumerId (idxOfI L e.consumerId)
        (idxOfI L e.producerId)) = true) :
    updateTopologicalOrder L inTbl outTbl heap e = .error "cycle introduced in graph" := by
  unfold updateTopologicalOrder
  rw [if_neg h]
  simp only [hcheck, if_true]

/-- Branch 3: the affected-region rewrite. -/
theorem updateTopo_reorder (L : List Int) (inTbl outTbl : List (List (Option Nat)))
    (heap : List Edge) (e : Edge)
    (h : ¬ idxOfI L e.producerId < idxOfI L e.consumerId)
    (hcheck : producerHit heap (tblGet inTbl e.producerId)
      (pkForwardIds L inTbl heap e.consumerId (idxOfI L e.consumerId)
        (idxOfI L e.producerId)) = false) :
    updateTopologicalOrder L inTbl outTbl heap e =
      .ok (((pkDest L inTbl outTbl heap e.consumerId e.producerId
          (idxOfI L e.consumerId) (idxOfI L e.producerId)).zip
        (pkBackwardIds L outTbl heap e.producerId (idxOfI L e.consumerId)
            (idxOfI L e.producerId)
          ++ pkForwardIds L inTbl heap e.consumerId (idxOfI L e.consumerId)
            (idxOfI L e.producerId))).foldl
        (fun l iv => l.set iv.1 iv.2) L) := by
  unfold updateTopologicalOrder
  rw [if_neg h]
  simp only [hcheck]
  rfl

/-- The committed edge set of a graph state: the `_Edge` objects in the
heap, as a relation between producer and consumer node ids. -/
def committedE (g : GraphSt) (u v : Int) : Prop :=
  ∃ r, r < g.heap.length ∧ (heapGet g.heap r).producerId = u ∧
    (heapGet g.heap r).consumerId = v

/-- The topological invariant: the maintained order places the producer
of every committed edge strictly before its consumer. -/
def topoValid (g : GraphSt) : Prop :=
  ∀ u v, committedE g u v → idxOfI g.tsorted u < idxOfI g.tsorted v

/-- Structural well-formedness of a graph state, maintained by
`Graph.__init__`, `add_node` and successful `connect` calls: the order
lists exactly the node ids; the edge tables have one row per node with
one slot per port; edge references point into the heap and agree with
the edge objects' endpoint fields both ways. -/
structure WF (g : GraphSt) : Prop where
  htlen : g.tsorted.length = g.nodes.length
  htnd : g.tsorted.Nodup
  htmem : ∀ x : Int, x ∈ g.tsorted ↔ ∃ k : Nat, k < g.nodes.length ∧ x = (k : Int)
  hinlen : g.inTbl.length = g.nodes.length
  houtlen : g.outTbl.length = g.nodes.length
  hinrow : ∀ k : Nat, k < g.nodes.length →
    (g.inTbl.getD k []).length = ((g.nodes.getD k default).2.inputs).length
  houtrow : ∀ k : Nat, k < g.nodes.length →
    (g.outTbl.getD k []).length = ((g.nodes.getD k default).2.outputs).length
  hinref : ∀ k r : Nat, some r ∈ g.inTbl.getD k [] → r < g.heap.length
  houtref : ∀ k r : Nat, some r ∈ g.outTbl.getD k [] → r < g.heap.length
  hincons : ∀ k r : Nat, some r ∈ g.inTbl.getD k [] →
    (heapGet g.heap r).consumerId = (k : Int)
  houtcons : ∀ k r : Nat, some r ∈ g.outTbl.getD k [] →
    (heapGet g.heap r).producerId = (k : Int)
  hprange : ∀ r : Nat, r < g.heap.length → ∃ k : Nat, k < g.nodes.length ∧
    (heapGet g.heap r).producerId = (k : Int)
  hcrange : ∀ r : Nat, r < g.heap.length → ∃ k : Nat, k < g.nodes.length ∧
    (heapGet g.heap r).consumerId = (k : Int)
  hheapin : ∀ r : Nat, r < g.heap.length →
    some r ∈ tblGet g.inTbl (heapGet g.heap r).consumerId
  hheapout : ∀ r : Nat, r < g.heap.length →
    some r ∈ tblGet g.outTbl (heapGet g.heap r).producerId

/-- Graph states reachable from `Graph()` by successful `add_node` and
`connect` calls (the calls whose raised message is `none`). -/
inductive Reachable : GraphSt → Prop where
  | init : Reachable graphInit
  | add : ∀ {g : GraphSt} (name : String) (node : Node), Reachable g →
      (addNode g name node).2 = none → Reachable (addNode g name node).1
  | conn : ∀ {g : GraphSt} (pr co : String × String), Reachable g →
      (connect g pr co).2 = none → Reachable (connect g pr co).1

/-! ### Small list utilities for the graph-level proofs -/

theorem list_getD_set_ne {α : Type _} (l : List α) (i j : Nat) (a d : α) (h : i ≠ j) :
    (l.set i a).getD j d = l.getD j d := by
  rw [List.getD_eq_getElem?_getD, List.getD_eq_getElem?_getD, List.getElem?_set_ne h]

theorem list_getD_set_eq {α : Type _} (l : List α) (i : Nat) (a d : α)
    (h : i < l.length) : (l.set i a).getD i d = a := by
  rw [List.getD_eq_getElem?_getD, List.getElem?_set_eq_of_lt a h]
  rfl

theorem list_getD_append_lt {α : Type _} (l1 l2 : List α) (k : Nat) (d : α)
    (h : k < l1.length) : (l1 ++ l2).getD k d = l1.getD k d := by
  rw [List.getD_eq_getElem?_getD, List.getD_eq_getElem?_getD, List.getElem?_append,
    if_pos h]

theorem list_getD_append_self {α : Type _} (l1 : List α) (a d : α) :
    (l1 ++ [a]).getD l1.length d = a := by
  rw [List.getD_eq_getElem?_getD, List.getElem?_append, if_neg (by omega)]
  simp

theorem list_getD_of_ge {α : Type _} (l : List α) (k : Nat) (d : α)
    (h : l.length ≤ k) : l.getD k d = d := by
  rw [List.getD_eq_getElem?_getD, List.getElem?_eq_none h]
  rfl

theorem mem_set_of_getD_ne {α : Type _} (l : List α) (i : Nat) (a b d : α)
    (hb : b ∈ l) (hne : l.getD i d ≠ b) : b ∈ l.set i a := by
  obtain ⟨q, hq, hval⟩ := List.getElem_of_mem hb
  have hqi : i ≠ q := by
    intro heq
    subst heq
    apply hne
    rw [List.getD_eq_getElem _ _ hq]
    exact hval
  have h2 : (l.set i a)[q]? = some b := by
    rw [List.getElem?_set_ne hqi, List.getElem?_eq_getElem hq, hval]
  exact mem_of_getElemQ h2

theorem mem_set_self_of_lt {α : Type _} (l : List α) (i : Nat) (a : α)
    (h : i < l.length) : a ∈ l.set i a :=
  mem_of_getElemQ (List.getElem?_set_eq_of_lt a h)

theorem heapGet_append_lt (h1 h2 : List Edge) (r : Nat) (h : r < h1.length) :
    heapGet (h1 ++ h2) r = heapGet h1 r := by
  unfold heapGet
  exact list_getD_append_lt h1 h2 r default h

theorem heapGet_append_self (h1 : List Edge) (e : Edge) :
    heapGet (h1 ++ [e]) h1.length = e := by
  unfold heapGet
  exact list_getD_append_self h1 e default

theorem idx_append_of_mem {l l2 : List Int} {x : Int} (h : x ∈ l) :
    idxOfI (l ++ l2) x = idxOfI l x := by
  unfold idxOfI
  exact List.indexOf_append_of_mem h

/-- Writing event sets to edges changes neither the heap size nor any
edge's endpoints. -/
theorem writeOutSets_endpoints :
    ∀ (slots : List (Option Nat)) (ess : List (List EvT)) (heap : List Edge),
      (writeOutSets heap slots ess).length = heap.length ∧
      ∀ r : Nat, (heapGet (writeOutSets heap slots ess) r).producerId =
          (heapGet heap r).producerId ∧
        (heapGet (writeOutSets heap slots ess) r).consumerId =
          (heapGet heap r).consumerId := by
  intro slots
  induction slots with
  | nil =>
    intro ess heap
    exact ⟨rfl, fun r => ⟨rfl, rfl⟩⟩
  | cons s rest ih =>
    intro ess heap
    match ess with
    | [] => exact ⟨rfl, fun r => ⟨rfl, rfl⟩⟩
    | es :: ess2 =>
      match s with
      | none => exact ih ess2 heap
      | some r0 =>
        have hstep : ∀ r : Nat,
            (heapGet (heap.set r0 { heapGet heap r0 with eventSet := es }) r).producerId =
              (heapGet heap r).producerId ∧
            (heapGet (heap.set r0 { heapGet heap r0 with eventSet := es }) r).consumerId =
              (heapGet heap r).consumerId := by
          intro r
          unfold heapGet
          by_cases hr : r0 = r
          · subst hr
            by_cases hlen : r0 < heap.length
            · rw [list_getD_set_eq _ _ _ _ hlen]
              exact ⟨rfl, rfl⟩
            · rw [List.set_eq_of_length_le (by omega)]
              exact ⟨rfl, rfl⟩
          · rw [list_getD_set_ne _ _ _ _ _ hr]
            exact ⟨rfl, rfl⟩
        have h2 := ih ess2 (heap.set r0 { heapGet heap r0 with eventSet := es })
        refine ⟨?_, fun r => ?_⟩
        · show (writeOutSets (heap.set r0 { heapGet heap r0 with eventSet := es })
            rest ess2).length = heap.length
          rw [h2.1, List.length_set]
        · show (heapGet (writeOutSets (heap.set r0
              { heapGet heap r0 with eventSet := es }) rest ess2) r).producerId =
            (heapGet heap r).producerId ∧
            (heapGet (writeOutSets (heap.set r0
              { heapGet heap r0 with eventSet := es }) rest ess2) r).consumerId =
            (heapGet heap r).consumerId
          have h3 := h2.2 r
          have h4 := hstep r
          exact ⟨h3.1.trans h4.1, h3.2.trans h4.2⟩

/-- The propagation loop changes neither the heap size nor any edge's
endpoints (it only rewrites `event_set` fields). -/
theorem updateESGo_endpoints (nodes : List (String × Node))
    (inTbl outTbl : List (List (Option Nat))) :
    ∀ (ids : List Int) (heap : List Edge),
      (updateEdgeEventSetsGo nodes inTbl outTbl ids heap).1.length = heap.length ∧
      ∀ r : Nat,
        (heapGet (updateEdgeEventSetsGo nodes inTbl outTbl ids heap).1 r).producerId =
          (heapGet heap r).producerId ∧
        (heapGet (updateEdgeEventSetsGo nodes inTbl outTbl ids heap).1 r).consumerId =
          (heapGet heap r).consumerId := by
  intro ids
  induction ids with
  | nil =>
    intro heap
    exact ⟨rfl, fun r => ⟨rfl, rfl⟩⟩
  | cons nodeId rest ih =>
    intro heap
    unfold updateEdgeEventSetsGo
    dsimp only
    split
    · exact ⟨rfl, fun r => ⟨rfl, rfl⟩⟩
    · split
      · rename_i outSets heq hlen
        have hw := writeOutSets_endpoints (tblGet outTbl nodeId) outSets heap
        have h2 := ih (writeOutSets heap (tblGet outTbl nodeId) outSets)
        refine ⟨h2.1.trans hw.1, fun r => ?_⟩
        have h3 := h2.2 r
        have h4 := hw.2 r
        exact ⟨h3.1.trans h4.1, h3.2.trans h4.2⟩
      · rename_i outSets heq hlen
        have hw := writeOutSets_endpoints (tblGet outTbl nodeId) outSets heap
        exact ⟨hw.1, hw.2⟩

theorem wf_graphInit : WF graphInit := by
  constructor <;> intros <;> simp_all [graphInit, tblGet, heapGet]

theorem topoValid_graphInit : topoValid graphInit := by
  intro u v h
  obtain ⟨r, hr, -⟩ := h
  simp [graphInit] at hr

/-- `add_node` (with a fresh name) preserves well-formedness and the
topological invariant. -/
theorem wf_addNode {g : GraphSt} (hwf : WF g) (htv : topoValid g)
    (name : String) (node : Node)
    (hok : (addNode g name node).2 = none) :
    WF (addNode g name node).1 ∧ topoValid (addNode g name node).1 := by
  unfold addNode at hok ⊢
  by_cases hc : (g.nodes.map Prod.fst).contains name
  · rw [if_pos hc] at hok
    cases hok
  · rw [if_neg hc] at hok ⊢
    dsimp only
    have hnnew : ((g.nodes.length : Int)) ∉ g.tsorted := by
      intro hmem
      obtain ⟨k, hk, hkeq⟩ := (hwf.htmem _).mp hmem
      have : k = g.nodes.length := by exact_mod_cast hkeq.symm
      omega
    refine ⟨⟨?_, ?_, ?_, ?_, ?_, ?_, ?_, ?_, ?_, ?_, ?_, ?_, ?_, ?_, ?_⟩, ?_⟩
    · simp [hwf.htlen]
    · refine List.nodup_append.mpr ⟨hwf.htnd, List.nodup_singleton _, ?_⟩
      intro x hx hx2
      rw [List.mem_singleton] at hx2
      subst hx2
      exact hnnew hx
    · intro x
      rw [List.mem_append, List.mem_singleton, hwf.htmem x]
      simp only [List.length_append, List.length_singleton]
      constructor
      · rintro (⟨k, hk, rfl⟩ | rfl)
        · exact ⟨k, by omega, rfl⟩
        · exact ⟨g.nodes.length, by omega, rfl⟩
      · rintro ⟨k, hk, rfl⟩
        by_cases hkn : k < g.nodes.length
        · exact Or.inl ⟨k, hkn, rfl⟩
        · have : k = g.nodes.length := by omega
          subst this
          exact Or.inr rfl
    · simp [hwf.hinlen]
    · simp [hwf.houtlen]
    · intro k hk
      simp only [List.length_append, List.length_singleton] at hk
      by_cases hkn : k < g.nodes.length
      · rw [list_getD_append_lt _ _ _ _ (by rw [hwf.hinlen]; exact hkn),
          list_getD_append_lt _ _ _ _ hkn]
        exact hwf.hinrow k hkn
      · have hke : k = g.nodes.length := by omega
        have h1 : (g.inTbl ++ [List.replicate node.inputs.length none]).getD k [] =
            List.replicate node.inputs.length none := by
          rw [show k = g.inTbl.length from by rw [hwf.hinlen]; exact hke]
          exact list_getD_append_self _ _ _
        have h2 : (g.nodes ++ [(name, node)]).getD k default = (name, node) := by
          rw [hke]
          exact list_getD_append_self _ _ _
        rw [h1, h2]
        simp
    · intro k hk
      simp only [List.length_append, List.length_singleton] at hk
      by_cases hkn : k < g.nodes.length
      · rw [list_getD_append_lt _ _ _ _ (by rw [hwf.houtlen]; exact hkn),
          list_getD_append_lt _ _ _ _ hkn]
        exact hwf.houtrow k hkn
      · have hke : k = g.nodes.length := by omega
        have h1 : (g.outTbl ++ [List.replicate node.outputs.length none]).getD k [] =
            List.replicate node.outputs.length none := by
          rw [show k = g.outTbl.length from by rw [hwf.houtlen]; exact hke]
          exact list_getD_append_self _ _ _
        have h2 : (g.nodes ++ [(name, node)]).getD k default = (name, node) := by
          rw [hke]
          exact list_getD_append_self _ _ _
        rw [h1, h2]
        simp
    · intro k r hr
      by_cases hkn : k < g.inTbl.length
      · rw [list_getD_append_lt _ _ _ _ hkn] at hr
        exact hwf.hinref k r hr
      · by_cases hke : k = g.inTbl.length
        · subst hke
          rw [list_getD_append_self] at hr
          rw [List.mem_replicate] at hr
          cases hr.2
        · rw [list_getD_of_ge _ _ _ (by simp; omega)] at hr
          cases hr
    · intro k r hr
      by_cases hkn : k < g.outTbl.length
      · rw [list_getD_append_lt _ _ _ _ hkn] at hr
        exact hwf.houtref k r hr
      · by_cases hke : k = g.outTbl.length
        · subst hke
          rw [list_getD_append_self] at hr
          rw [List.mem_replicate] at hr
          cases hr.2
        · rw [list_getD_of_ge _ _ _ (by simp; omega)] at hr
          cases hr
    · intro k r hr
      by_cases hkn : k < g.inTbl.length
      · rw [list_getD_append_lt _ _ _ _ hkn] at hr
        exact hwf.hincons k r hr
      · by_cases hke : k = g.inTbl.length
        · subst hke
          rw [list_getD_append_self] at hr
          rw [List.mem_replicate] at hr
          cases hr.2
        · rw [list_getD_of_ge _ _ _ (by simp; omega)] at hr
          cases hr
    · intro k r hr
      by_cases hkn : k < g.outTbl.length
      · rw [list_getD_append_lt _ _ _ _ hkn] at hr
        exact hwf.houtcons k r hr
      · by_cases hke : k = g.outTbl.length
        · subst hke
          rw [list_getD_append_self] at hr
          rw [List.mem_replicate] at hr
          cases hr.2
        · rw [list_getD_of_ge _ _ _ (by simp; omega)] at hr
          cases hr
    · intro r hr
      obtain ⟨k, hk, hkeq⟩ := hwf.hprange r hr
      exact ⟨k, by simp; omega, hkeq⟩
    · intro r hr
      obtain ⟨k, hk, hkeq⟩ := hwf.hcrange r hr
      exact ⟨k, by simp; omega, hkeq⟩
    · intro r hr
      have h2 := hwf.hheapin r hr
      obtain ⟨k, hk, hkeq⟩ := hwf.hcrange r hr
      unfold tblGet at h2 ⊢
      rw [hkeq] at h2 ⊢
      rw [Int.toNat_ofNat] at h2 ⊢
      rw [list_getD_append_lt _ _ _ _ (by rw [hwf.hinlen]; exact hk)]
      exact h2
    · intro r hr
      have h2 := hwf.hheapout r hr
      obtain ⟨k, hk, hkeq⟩ := hwf.hprange r hr
      unfold tblGet at h2 ⊢
      rw [hkeq] at h2 ⊢
      rw [Int.toNat_ofNat] at h2 ⊢
      rw [list_getD_append_lt _ _ _ _ (by rw [hwf.houtlen]; exact hk)]
      exact h2
    · intro u v hcomm
      obtain ⟨r, hr, hpu, hcv⟩ := hcomm
      have hold : committedE g u v := ⟨r, hr, hpu, hcv⟩
      have h2 := htv u v hold
      obtain ⟨ku, hku, hkequ⟩ := hwf.hprange r hr
      obtain ⟨kv, hkv, hkeqv⟩ := hwf.hcrange r hr
      have huL : u ∈ g.tsorted := (hwf.htmem u).mpr ⟨ku, hku, by rw [← hpu, hkequ]⟩
      have hvL : v ∈ g.tsorted := (hwf.htmem v).mpr ⟨kv, hkv, by rw [← hcv, hkeqv]⟩
      rw [idx_append_of_mem huL, idx_append_of_mem hvL]
      exact h2

/-- Inversion of a successful `connect`: every lookup, the open-port
checks, the producer's type-flow call, the topological update and the
propagation all succeeded, and the final state is the committed one. -/
theorem connect_ok_inv {g g' : GraphSt} {pr co : String × String} :
    connect g pr co = (g', none) →
    ∃ (ipnode icnode ipport icport : Nat) (outSets : List (List EvT))
      (es : List EvT) (tsorted1 : List Int) (heap2 : List Edge),
      g.nodes.findIdx? (fun q => q.1 == pr.1) = some ipnode ∧
      g.nodes.findIdx? (fun q => q.1 == co.1) = some icnode ∧
      (g.nodes.getD ipnode default).2.outputs.indexOf? pr.2 = some ipport ∧
      (g.nodes.getD icnode default).2.inputs.indexOf? co.2 = some icport ∧
      (g.inTbl.getD icnode []).getD icport none = none ∧
      (g.outTbl.getD ipnode []).getD ipport none = none ∧
      (g.nodes.getD ipnode default).2.mapEventSets
        (inputEventSetsOf g.heap (g.inTbl.getD ipnode [])) = .ok outSets ∧
      outSets.get? ipport = some es ∧
      updateTopologicalOrder g.tsorted
        (g.inTbl.set icnode ((g.inTbl.getD icnode []).set icport (some g.heap.length)))
        (g.outTbl.set ipnode ((g.outTbl.getD ipnode []).set ipport (some g.heap.length)))
        (g.heap ++ [⟨(ipnode : Int), (icnode : Int), es⟩])
        ⟨(ipnode : Int), (icnode : Int), es⟩ = .ok tsorted1 ∧
      updateEdgeEventSets g.nodes tsorted1
        (g.inTbl.set icnode ((g.inTbl.getD icnode []).set icport (some g.heap.length)))
        (g.outTbl.set ipnode ((g.outTbl.getD ipnode []).set ipport (some g.heap.length)))
        (g.heap ++ [⟨(ipnode : Int), (icnode : Int), es⟩]) (some icnode) =
        (heap2, none) ∧
      g' = { nodes := g.nodes, tsorted := tsorted1,
             heap := heap2,
             inTbl := g.inTbl.set icnode
               ((g.inTbl.getD icnode []).set icport (some g.heap.length)),
             outTbl := g.outTbl.set ipnode
               ((g.outTbl.getD ipnode []).set ipport (some g.heap.length)) } := by
  unfold connect
  split
  · intro h
    injection h with h1 h2
    cases h2
  · intro h
    injection h with h1 h2
    cases h2
  · rename_i ipnode icnode heqp heqc
    dsimp only
    split
    · intro h
      injection h with h1 h2
      cases h2
    · intro h
      injection h with h1 h2
      cases h2
    · rename_i ipport icport heqpp heqcp
      split
      · intro h
        injection h with h1 h2
        cases h2
      · rename_i hInFree
        split
        · intro h
          injection h with h1 h2
          cases h2
        · rename_i hOutFree
          split
          · intro h
            injection h with h1 h2
            cases h2
          · rename_i outSets heqo
            split
            · intro h
              injection h with h1 h2
              cases h2
            · rename_i eventSet heqe
              split
              · intro h
                injection h with h1 h2
                cases h2
              · rename_i tsorted1 hequt
                split
                · intro h
                  injection h with h1 h2
                  cases h2
                · rename_i heap2 heques
                  intro h
                  injection h with h1 h2
                  exact ⟨ipnode, icnode, ipport, icport, outSets, eventSet,
                    tsorted1, heap2, heqp, heqc, heqpp, heqcp,
                    by simpa using hInFree, by simpa using hOutFree,
                    heqo, heqe, hequt, heques, h1.symm⟩

/-- Endpoint preservation lifted to `_update_edge_event_sets`. -/
theorem updateES_endpoints (nodes : List (String × Node)) (tsorted : List Int)
    (inTbl outTbl : List (List (Option Nat))) (heap : List Edge)
    (start : Option Int) :
    (updateEdgeEventSets nodes tsorted inTbl outTbl heap start).1.length = heap.length ∧
    ∀ r : Nat,
      (heapGet (updateEdgeEventSets nodes tsorted inTbl outTbl heap start).1 r).producerId
        = (heapGet heap r).producerId ∧
      (heapGet (updateEdgeEventSets nodes tsorted inTbl outTbl heap start).1 r).consumerId
        = (heapGet heap r).consumerId := by
  unfold updateEdgeEventSets
  exact updateESGo_endpoints nodes inTbl outTbl _ heap

/-- The committed edges after a successful `connect` are the old ones
plus the new edge. -/
theorem committedE_aux (g g' : GraphSt) (e : Edge)
    (hlen : g'.heap.length = g.heap.length + 1)
    (hend : ∀ r : Nat,
      (heapGet g'.heap r).producerId = (heapGet (g.heap ++ [e]) r).producerId ∧
      (heapGet g'.heap r).consumerId = (heapGet (g.heap ++ [e]) r).consumerId) :
    ∀ u v, committedE g' u v ↔
      (committedE g u v ∨ (u = e.producerId ∧ v = e.consumerId)) := by
  intro u v
  constructor
  · rintro ⟨r, hr, hp2, hc2⟩
    rw [(hend r).1] at hp2
    rw [(hend r).2] at hc2
    by_cases hrlt : r < g.heap.length
    · rw [heapGet_append_lt _ _ _ hrlt] at hp2 hc2
      exact Or.inl ⟨r, hrlt, hp2, hc2⟩
    · have hre : r = g.heap.length := by
        rw [hlen] at hr
        omega
      subst hre
      rw [heapGet_append_self] at hp2 hc2
      exact Or.inr ⟨hp2.symm, hc2.symm⟩
  · rintro (⟨r, hr, hp2, hc2⟩ | ⟨rfl, rfl⟩)
    · refine ⟨r, by omega, ?_, ?_⟩
      · rw [(hend r).1, heapGet_append_lt _ _ _ hr]
        exact hp2
      · rw [(hend r).2, heapGet_append_lt _ _ _ hr]
        exact hc2
    · refine ⟨g.heap.length, by omega, ?_, ?_⟩
      · rw [(hend _).1, heapGet_append_self]
      · rw [(hend _).2, heapGet_append_self]

/-- The Pearce-Kelly context at the `connect` call site, from
well-formedness, the invariant, and distinct producer/consumer already in
consumer-before-producer order. -/
theorem connect_PKCtx_core {g : GraphSt} (hwf : WF g) (htv : topoValid g)
    {ipnode icnode icport : Nat} {es : List EvT}
    (hipn : ipnode < g.nodes.length) (hicn : icnode < g.nodes.length)
    (hpc : (ipnode : Int) ≠ (icnode : Int))
    (hlt : idxOfI g.tsorted (icnode : Int) < idxOfI g.tsorted (ipnode : Int))
    {outTbl1 : List (List (Option Nat))}
    (hout1 : ∀ k : Nat, k ≠ ipnode → outTbl1.getD k [] = g.outTbl.getD k []) :
    PKCtx g.tsorted
      (g.inTbl.set icnode ((g.inTbl.getD icnode []).set icport (some g.heap.length)))
      outTbl1
      (g.heap ++ [⟨(ipnode : Int), (icnode : Int), es⟩])
      (committedE g) (icnode : Int) (ipnode : Int) := by
  have hc : (icnode : Int) ∈ g.tsorted := (hwf.htmem _).mpr ⟨icnode, hicn, rfl⟩
  have hp : (ipnode : Int) ∈ g.tsorted := (hwf.htmem _).mpr ⟨ipnode, hipn, rfl⟩
  refine ⟨hwf.htnd, hc, hp, hpc, ?_, htv, ?_, ?_, hlt⟩
  · intro u v huv
    obtain ⟨r, hr, hpu, hcv⟩ := huv
    obtain ⟨ku, hku, hkequ⟩ := hwf.hprange r hr
    obtain ⟨kv, hkv, hkeqv⟩ := hwf.hcrange r hr
    constructor
    · exact (hwf.htmem u).mpr ⟨ku, hku, by rw [← hpu, hkequ]⟩
    · exact (hwf.htmem v).mpr ⟨kv, hkv, by rw [← hcv, hkeqv]⟩
  · intro v hv hvne u
    obtain ⟨kv, hkv, rfl⟩ := (hwf.htmem v).mp hv
    have hkvne : icnode ≠ kv := by
      intro heq
      exact hvne (by rw [heq])
    have hrow : tblGet (g.inTbl.set icnode ((g.inTbl.getD icnode []).set icport
        (some g.heap.length))) (kv : Int) = g.inTbl.getD kv [] := by
      unfold tblGet
      rw [Int.toNat_ofNat]
      exact list_getD_set_ne _ _ _ _ _ hkvne
    rw [hrow]
    constructor
    · rintro ⟨r, hrmem, hprod⟩
      have hr : r < g.heap.length := hwf.hinref kv r hrmem
      rw [heapGet_append_lt _ _ _ hr] at hprod
      exact ⟨r, hr, hprod, hwf.hincons kv r hrmem⟩
    · rintro ⟨r, hr, hprod, hcons⟩
      have h2 := hwf.hheapin r hr
      rw [hcons] at h2
      unfold tblGet at h2
      rw [Int.toNat_ofNat] at h2
      exact ⟨r, h2, by rw [heapGet_append_lt _ _ _ hr]; exact hprod⟩
  · intro u hu hune v
    obtain ⟨ku, hku, rfl⟩ := (hwf.htmem u).mp hu
    have hkune : ku ≠ ipnode := by
      intro heq
      exact hune (by rw [heq])
    have hrow : tblGet outTbl1 (ku : Int) = g.outTbl.getD ku [] := by
      unfold tblGet
      rw [Int.toNat_ofNat]
      exact hout1 ku hkune
    rw [hrow]
    constructor
    · rintro ⟨r, hrmem, hcons⟩
      have hr : r < g.heap.length := hwf.houtref ku r hrmem
      rw [heapGet_append_lt _ _ _ hr] at hcons
      exact ⟨r, hr, hwf.houtcons ku r hrmem, hcons⟩
    · rintro ⟨r, hr, hprod, hcons⟩
      have h2 := hwf.hheapout r hr
      rw [hprod] at h2
      unfold tblGet at h2
      rw [Int.toNat_ofNat] at h2
      exact ⟨r, h2, by rw [heapGet_append_lt _ _ _ hr]; exact hcons⟩

/-- The context needed by the Pearce-Kelly lemmas holds at the point
where `connect` calls `_update_topological_order` (reordering case). -/
theorem connect_PKCtx {g : GraphSt} (hwf : WF g) (htv : topoValid g)
    {ipnode icnode icport : Nat} {es : List EvT}
    (hipn : ipnode < g.nodes.length) (hicn : icnode < g.nodes.length)
    (hicport : icport < (g.inTbl.getD icnode []).length)
    (hord : ¬ idxOfI g.tsorted (ipnode : Int) < idxOfI g.tsorted (icnode : Int))
    (hchk : producerHit (g.heap ++ [⟨(ipnode : Int), (icnode : Int), es⟩])
      (tblGet (g.inTbl.set icnode ((g.inTbl.getD icnode []).set icport
        (some g.heap.length))) (ipnode : Int))
      (pkForwardIds g.tsorted
        (g.inTbl.set icnode ((g.inTbl.getD icnode []).set icport (some g.heap.length)))
        (g.heap ++ [⟨(ipnode : Int), (icnode : Int), es⟩]) (icnode : Int)
        (idxOfI g.tsorted (icnode : Int)) (idxOfI g.tsorted (ipnode : Int))) = false)
    {outTbl1 : List (List (Option Nat))}
    (hout1len : outTbl1.length = g.nodes.length)
    (hout1 : ∀ k : Nat, k ≠ ipnode → outTbl1.getD k [] = g.outTbl.getD k []) :
    PKCtx g.tsorted
      (g.inTbl.set icnode ((g.inTbl.getD icnode []).set icport (some g.heap.length)))
      outTbl1
      (g.heap ++ [⟨(ipnode : Int), (icnode : Int), es⟩])
      (committedE g) (icnode : Int) (ipnode : Int) := by
  have hc : (icnode : Int) ∈ g.tsorted := (hwf.htmem _).mpr ⟨icnode, hicn, rfl⟩
  have hp : (ipnode : Int) ∈ g.tsorted := (hwf.htmem _).mpr ⟨ipnode, hipn, rfl⟩
  have hpc : (ipnode : Int) ≠ (icnode : Int) := by
    intro heq
    have heqn : ipnode = icnode := by exact_mod_cast heq
    subst heqn
    have hrow : tblGet (g.inTbl.set ipnode ((g.inTbl.getD ipnode []).set icport
        (some g.heap.length))) (ipnode : Int) =
        (g.inTbl.getD ipnode []).set icport (some g.heap.length) := by
      unfold tblGet
      rw [Int.toNat_ofNat]
      exact list_getD_set_eq _ _ _ _ (by rw [hwf.hinlen]; exact hipn)
    have hmem : some g.heap.length ∈ ((g.inTbl.getD ipnode []).set icport
        (some g.heap.length)) := mem_set_self_of_lt _ _ _ hicport
    have htrue := producerHit_iff (g.heap ++ [⟨(ipnode : Int), (ipnode : Int), es⟩])
      (tblGet (g.inTbl.set ipnode ((g.inTbl.getD ipnode []).set icport
        (some g.heap.length))) (ipnode : Int))
      (pkForwardIds g.tsorted
        (g.inTbl.set ipnode ((g.inTbl.getD ipnode []).set icport (some g.heap.length)))
        (g.heap ++ [⟨(ipnode : Int), (ipnode : Int), es⟩]) (ipnode : Int)
        (idxOfI g.tsorted (ipnode : Int)) (idxOfI g.tsorted (ipnode : Int)))
    rw [hchk] at htrue
    have : (false = true) := htrue.mpr ⟨g.heap.length, by rw [hrow]; exact hmem, by
      rw [heapGet_append_self]
      unfold pkForwardIds
      exact List.mem_cons_self _ _⟩
    cases this
  have hlt : idxOfI g.tsorted (icnode : Int) < idxOfI g.tsorted (ipnode : Int) := by
    have hne : idxOfI g.tsorted (ipnode : Int) ≠ idxOfI g.tsorted (icnode : Int) := by
      intro heq
      exact hpc (idx_inj hp hc heq)
    omega
  exact connect_PKCtx_core hwf htv hipn hicn hpc hlt hout1

theorem indexOfQ_lt_length {α : Type _} [BEq α] {l : List α} {a : α} {i : Nat}
    (h : l.indexOf? a = some i) : i < l.length := by
  unfold List.indexOf? at h
  exact findIdx?_lt_length h

/-- Well-formedness of the committed `connect` state, given the
post-update order facts. -/
theorem wf_connect_aux {g : GraphSt} (hwf : WF g)
    {ipnode icnode ipport icport : Nat} {es : List EvT}
    {tsorted1 : List Int} {heap2 : List Edge}
    (hipn : ipnode < g.nodes.length) (hicn : icnode < g.nodes.length)
    (hicport : icport < (g.inTbl.getD icnode []).length)
    (hipport : ipport < (g.outTbl.getD ipnode []).length)
    (hInFree : (g.inTbl.getD icnode []).getD icport none = none)
    (hOutFree : (g.outTbl.getD ipnode []).getD ipport none = none)
    (hlen2 : heap2.length = g.heap.length + 1)
    (hend2 : ∀ r : Nat,
      (heapGet heap2 r).producerId =
        (heapGet (g.heap ++ [⟨(ipnode : Int), (icnode : Int), es⟩]) r).producerId ∧
      (heapGet heap2 r).consumerId =
        (heapGet (g.heap ++ [⟨(ipnode : Int), (icnode : Int), es⟩]) r).consumerId)
    (ht1len : tsorted1.length = g.tsorted.length)
    (ht1nd : tsorted1.Nodup)
    (ht1mem : ∀ x : Int, x ∈ tsorted1 ↔ x ∈ g.tsorted) :
    WF { nodes := g.nodes, tsorted := tsorted1, heap := heap2,
         inTbl := g.inTbl.set icnode
           ((g.inTbl.getD icnode []).set icport (some g.heap.length)),
         outTbl := g.outTbl.set ipnode
           ((g.outTbl.getD ipnode []).set ipport (some g.heap.length)) } := by
  have hrowc : (g.inTbl.set icnode
      ((g.inTbl.getD icnode []).set icport (some g.heap.length))).getD icnode [] =
      (g.inTbl.getD icnode []).set icport (some g.heap.length) :=
    list_getD_set_eq _ _ _ _ (by rw [hwf.hinlen]; exact hicn)
  have hrowo : ∀ k : Nat, k ≠ icnode → (g.inTbl.set icnode
      ((g.inTbl.getD icnode []).set icport (some g.heap.length))).getD k [] =
      g.inTbl.getD k [] := fun k hk => list_getD_set_ne _ _ _ _ _ (fun h => hk h.symm)
  have hrowcp : (g.outTbl.set ipnode
      ((g.outTbl.getD ipnode []).set ipport (some g.heap.length))).getD ipnode [] =
      (g.outTbl.getD ipnode []).set ipport (some g.heap.length) :=
    list_getD_set_eq _ _ _ _ (by rw [hwf.houtlen]; exact hipn)
  have hrowop : ∀ k : Nat, k ≠ ipnode → (g.outTbl.set ipnode
      ((g.outTbl.getD ipnode []).set ipport (some g.heap.length))).getD k [] =
      g.outTbl.getD k [] := fun k hk => list_getD_set_ne _ _ _ _ _ (fun h => hk h.symm)
  have hinmem : ∀ k r : Nat, some r ∈ (g.inTbl.set icnode
      ((g.inTbl.getD icnode []).set icport (some g.heap.length))).getD k [] →
      (some r ∈ g.inTbl.getD k [] ∨ (k = icnode ∧ r = g.heap.length)) := by
    intro k r hr
    by_cases hk : k = icnode
    · subst hk
      rw [hrowc] at hr
      rcases List.mem_or_eq_of_mem_set hr with h2 | h2
      · exact Or.inl h2
      · right
        exact ⟨rfl, Option.some_injective _ h2⟩
    · rw [hrowo k hk] at hr
      exact Or.inl hr
  have houtmem : ∀ k r : Nat, some r ∈ (g.outTbl.set ipnode
      ((g.outTbl.getD ipnode []).set ipport (some g.heap.length))).getD k [] →
      (some r ∈ g.outTbl.getD k [] ∨ (k = ipnode ∧ r = g.heap.length)) := by
    intro k r hr
    by_cases hk : k = ipnode
    · subst hk
      rw [hrowcp] at hr
      rcases List.mem_or_eq_of_mem_set hr with h2 | h2
      · exact Or.inl h2
      · right
        exact ⟨rfl, Option.some_injective _ h2⟩
    · rw [hrowop k hk] at hr
      exact Or.inl hr
  refine ⟨?_, ht1nd, ?_, ?_, ?_, ?_, ?_, ?_, ?_, ?_, ?_, ?_, ?_, ?_, ?_⟩
  · show tsorted1.length = g.nodes.length
    rw [ht1len, hwf.htlen]
  · intro x
    exact (ht1mem x).trans (hwf.htmem x)
  · show (g.inTbl.set icnode _).length = g.nodes.length
    rw [List.length_set, hwf.hinlen]
  · show (g.outTbl.set ipnode _).length = g.nodes.length
    rw [List.length_set, hwf.houtlen]
  · intro k hk
    dsimp only
    by_cases hke : k = icnode
    · subst hke
      rw [hrowc, List.length_set]
      exact hwf.hinrow k hk
    · rw [hrowo k hke]
      exact hwf.hinrow k hk
  · intro k hk
    dsimp only
    by_cases hke : k = ipnode
    · subst hke
      rw [hrowcp, List.length_set]
      exact hwf.houtrow k hk
    · rw [hrowop k hke]
      exact hwf.houtrow k hk
  · intro k r hr
    dsimp only at hr ⊢
    rcases hinmem k r hr with h2 | ⟨-, rfl⟩
    · have := hwf.hinref k r h2
      omega
    · omega
  · intro k r hr
    dsimp only at hr ⊢
    rcases houtmem k r hr with h2 | ⟨-, rfl⟩
    · have := hwf.houtref k r h2
      omega
    · omega
  · intro k r hr
    dsimp only at hr ⊢
    rcases hinmem k r hr with h2 | ⟨rfl, rfl⟩
    · have hrold : r < g.heap.length := hwf.hinref k r h2
      rw [(hend2 r).2, heapGet_append_lt _ _ _ hrold]
      exact hwf.hincons k r h2
    · rw [(hend2 _).2, heapGet_append_self]
  · intro k r hr
    dsimp only at hr ⊢
    rcases houtmem k r hr with h2 | ⟨rfl, rfl⟩
    · have hrold : r < g.heap.length := hwf.houtref k r h2
      rw [(hend2 r).1, heapGet_append_lt _ _ _ hrold]
      exact hwf.houtcons k r h2
    · rw [(hend2 _).1, heapGet_append_self]
  · intro r hr
    dsimp only at hr ⊢
    rw [hlen2] at hr
    rw [(hend2 r).1]
    by_cases hrold : r < g.heap.length
    · rw [heapGet_append_lt _ _ _ hrold]
      exact hwf.hprange r hrold
    · have : r = g.heap.length := by omega
      subst this
      rw [heapGet_append_self]
      exact ⟨ipnode, hipn, rfl⟩
  · intro r hr
    dsimp only at hr ⊢
    rw [hlen2] at hr
    rw [(hend2 r).2]
    by_cases hrold : r < g.heap.length
    · rw [heapGet_append_lt _ _ _ hrold]
      exact hwf.hcrange r hrold
    · have : r = g.heap.length := by omega
      subst this
      rw [heapGet_append_self]
      exact ⟨icnode, hicn, rfl⟩
  · intro r hr
    dsimp only at hr ⊢
    rw [hlen2] at hr
    rw [(hend2 r).2]
    by_cases hrold : r < g.heap.length
    · rw [heapGet_append_lt _ _ _ hrold]
      have h2 := hwf.hheapin r hrold
      obtain ⟨kv, hkv, hkeqv⟩ := hwf.hcrange r hrold
      rw [hkeqv] at h2 ⊢
      unfold tblGet at h2 ⊢
      rw [Int.toNat_ofNat] at h2 ⊢
      by_cases hke : kv = icnode
      · subst hke
        rw [hrowc]
        refine mem_set_of_getD_ne _ _ _ _ none h2 ?_
        rw [hInFree]
        simp
      · rw [hrowo kv hke]
        exact h2
    · have : r = g.heap.length := by omega
      subst this
      rw [heapGet_append_self]
      unfold tblGet
      rw [Int.toNat_ofNat]
      rw [hrowc]
      exact mem_set_self_of_lt _ _ _ hicport
  · intro r hr
    dsimp only at hr ⊢
    rw [hlen2] at hr
    rw [(hend2 r).1]
    by_cases hrold : r < g.heap.length
    · rw [heapGet_append_lt _ _ _ hrold]
      have h2 := hwf.hheapout r hrold
      obtain ⟨ku, hku, hkequ⟩ := hwf.hprange r hrold
      rw [hkequ] at h2 ⊢
      unfold tblGet at h2 ⊢
      rw [Int.toNat_ofNat] at h2 ⊢
      by_cases hke : ku = ipnode
      · subst hke
        rw [hrowcp]
        refine mem_set_of_getD_ne _ _ _ _ none h2 ?_
        rw [hOutFree]
        simp
      · rw [hrowop ku hke]
        exact h2
    · have : r = g.heap.length := by omega
      subst this
      rw [heapGet_append_self]
      unfold tblGet
      rw [Int.toNat_ofNat]
      rw [hrowcp]
      exact mem_set_self_of_lt _ _ _ hipport

/-- A successful `connect` preserves well-formedness and the topological
invariant. -/
theorem wf_connect {g : GraphSt} (hwf : WF g) (htv : topoValid g)
    (pr co : String × String) (hok : (connect g pr co).2 = none) :
    WF (connect g pr co).1 ∧ topoValid (connect g pr co).1 := by
  have hpair : connect g pr co = ((connect g pr co).1, none) := by
    rw [← hok]
  obtain ⟨ipnode, icnode, ipport, icport, outSets, es, tsorted1, heap2,
    heqp, heqc, heqpp, heqcp, hInFree, hOutFree, heqo, heqe, hequt, heques, hg'⟩ :=
    connect_ok_inv hpair
  have hipn : ipnode < g.nodes.length := findIdx?_lt_length heqp
  have hicn : icnode < g.nodes.length := findIdx?_lt_length heqc
  have hicport : icport < (g.inTbl.getD icnode []).length := by
    rw [hwf.hinrow icnode hicn]
    exact indexOfQ_lt_length heqcp
  have hipport : ipport < (g.outTbl.getD ipnode []).length := by
    rw [hwf.houtrow ipnode hipn]
    exact indexOfQ_lt_length heqpp
  have hesend := updateES_endpoints g.nodes tsorted1
    (g.inTbl.set icnode ((g.inTbl.getD icnode []).set icport (some g.heap.length)))
    (g.outTbl.set ipnode ((g.outTbl.getD ipnode []).set ipport (some g.heap.length)))
    (g.heap ++ [⟨(ipnode : Int), (icnode : Int), es⟩]) (some icnode)
  rw [heques] at hesend
  have hlen2 : heap2.length = g.heap.length + 1 := by
    rw [hesend.1]
    simp
  have hend2 := hesend.2
  have ht1 : tsorted1.length = g.tsorted.length ∧ tsorted1.Nodup ∧
      (∀ x : Int, x ∈ tsorted1 ↔ x ∈ g.tsorted) ∧
      (∀ u v : Int, (committedE g u v ∨ (u = (ipnode : Int) ∧ v = (icnode : Int))) →
        idxOfI tsorted1 u < idxOfI tsorted1 v) := by
    by_cases hord : idxOfI g.tsorted (ipnode : Int) < idxOfI g.tsorted (icnode : Int)
    · have halready := updateTopo_already g.tsorted
        (g.inTbl.set icnode ((g.inTbl.getD icnode []).set icport (some g.heap.length)))
        (g.outTbl.set ipnode ((g.outTbl.getD ipnode []).set ipport (some g.heap.length)))
        (g.heap ++ [⟨(ipnode : Int), (icnode : Int), es⟩])
        ⟨(ipnode : Int), (icnode : Int), es⟩ hord
      rw [halready] at hequt
      have hts : g.tsorted = tsorted1 := Except.ok.inj hequt
      subst hts
      refine ⟨rfl, hwf.htnd, fun x => Iff.rfl, ?_⟩
      rintro u v (hcomm | ⟨rfl, rfl⟩)
      · exact htv u v hcomm
      · exact hord
    · by_cases hchk : producerHit (g.heap ++ [⟨(ipnode : Int), (icnode : Int), es⟩])
        (tblGet (g.inTbl.set icnode ((g.inTbl.getD icnode []).set icport
          (some g.heap.length))) (ipnode : Int))
        (pkForwardIds g.tsorted
          (g.inTbl.set icnode ((g.inTbl.getD icnode []).set icport (some g.heap.length)))
          (g.heap ++ [⟨(ipnode : Int), (icnode : Int), es⟩]) (icnode : Int)
          (idxOfI g.tsorted (icnode : Int)) (idxOfI g.tsorted (ipnode : Int))) = true
      · have hcyc := updateTopo_cycle_raw g.tsorted
          (g.inTbl.set icnode ((g.inTbl.getD icnode []).set icport (some g.heap.length)))
          (g.outTbl.set ipnode ((g.outTbl.getD ipnode []).set ipport (some g.heap.length)))
          (g.heap ++ [⟨(ipnode : Int), (icnode : Int), es⟩])
          ⟨(ipnode : Int), (icnode : Int), es⟩ hord hchk
        rw [hcyc] at hequt
        cases hequt
      · have hchkf : producerHit (g.heap ++ [⟨(ipnode : Int), (icnode : Int), es⟩])
            (tblGet (g.inTbl.set icnode ((g.inTbl.getD icnode []).set icport
              (some g.heap.length))) (ipnode : Int))
            (pkForwardIds g.tsorted
              (g.inTbl.set icnode ((g.inTbl.getD icnode []).set icport
                (some g.heap.length)))
              (g.heap ++ [⟨(ipnode : Int), (icnode : Int), es⟩]) (icnode : Int)
              (idxOfI g.tsorted (icnode : Int)) (idxOfI g.tsorted (ipnode : Int)))
            = false := by
          simpa using hchk
        have ctx := connect_PKCtx hwf htv hipn hicn hicport hord hchkf
          (show (g.outTbl.set ipnode ((g.outTbl.getD ipnode []).set ipport
              (some g.heap.length))).length = g.nodes.length by
            rw [List.length_set]; exact hwf.houtlen)
          (fun k hk => list_getD_set_ne _ _ _ _ _ (fun h => hk h.symm))
        have hnc : ¬ Relation.TransGen (committedE g) (icnode : Int) (ipnode : Int) := by
          intro htg
          have := (pk_cycleCheck_iff ctx).mpr htg
          rw [hchkf] at this
          cases this
        have hreo := updateTopo_reorder g.tsorted
          (g.inTbl.set icnode ((g.inTbl.getD icnode []).set icport (some g.heap.length)))
          (g.outTbl.set ipnode ((g.outTbl.getD ipnode []).set ipport (some g.heap.length)))
          (g.heap ++ [⟨(ipnode : Int), (icnode : Int), es⟩])
          ⟨(ipnode : Int), (icnode : Int), es⟩ hord hchkf
        rw [hreo] at hequt
        have hts := (Except.ok.inj hequt).symm
        exact ⟨pk_newL_len ctx hnc hts, pk_newL_nodup ctx hnc hts,
          pk_newL_mem ctx hnc hts, pk_newL_topo ctx hnc hts⟩
  rw [hg']
  have hcomm := committedE_aux g
    { nodes := g.nodes, tsorted := tsorted1, heap := heap2,
      inTbl := g.inTbl.set icnode
        ((g.inTbl.getD icnode []).set icport (some g.heap.length)),
      outTbl := g.outTbl.set ipnode
        ((g.outTbl.getD ipnode []).set ipport (some g.heap.length)) }
    ⟨(ipnode : Int), (icnode : Int), es⟩ hlen2 hend2
  refine ⟨wf_connect_aux hwf hipn hicn hicport hipport hInFree hOutFree hlen2 hend2
    ht1.1 ht1.2.1 ht1.2.2.1, ?_⟩
  intro u v hc
  rw [hcomm u v] at hc
  exact ht1.2.2.2 u v hc

/-- Every reachable graph state is well-formed and topologically valid. -/
theorem reachable_WF {g : GraphSt} (h : Reachable g) : WF g ∧ topoValid g := by
  induction h with
  | init => exact ⟨wf_graphInit, topoValid_graphInit⟩
  | add name node hr hok ih => exact wf_addNode ih.1 ih.2 name node hok
  | conn pr co hr hok ih => exact wf_connect ih.1 ih.2 pr co hok

/-- C1: after every sequence of successful `add_node()` and `connect()`
calls, the maintained topological order is a valid topological order of
the committed edge set — for every committed edge, the producer's
position is strictly less than the consumer's position. -/
theorem topo_order_invariant (g : GraphSt) (h : Reachable g) : topoValid g :=
  (reachable_WF h).2

/-- Witness for `topo_order_invariant`: the two-node chain built by two
`add_node` calls and one `connect` call satisfies the invariant. -/
theorem topo_order_invariant_witness : topoValid gChain :=
  topo_order_invariant gChain
    (Reachable.conn ("n0", "output") ("n1", "input")
      (Reachable.add "n1" passThroughNode
        (Reachable.add "n0" passThroughNode Reachable.init (by decide)) (by decide))
      (by decide))

/-- C2: when the producer is transitively reachable from the consumer
over the committed edges, `connect` raises the cycle failure and returns
the graph completely unchanged (order, both edge tables, heap). -/
theorem connect_cycle_rollback (g : GraphSt) (pr co : String × String)
    (ipnode icnode ipport icport : Nat) (outSets : List (List EvT)) (es : List EvT)
    (hreach : Reachable g)
    (heqp : g.nodes.findIdx? (fun q => q.1 == pr.1) = some ipnode)
    (heqc : g.nodes.findIdx? (fun q => q.1 == co.1) = some icnode)
    (heqpp : (g.nodes.getD ipnode default).2.outputs.indexOf? pr.2 = some ipport)
    (heqcp : (g.nodes.getD icnode default).2.inputs.indexOf? co.2 = some icport)
    (hInFree : ((g.inTbl.getD icnode []).getD icport none).isSome = false)
    (hOutFree : ((g.outTbl.getD ipnode []).getD ipport none).isSome = false)
    (heqo : (g.nodes.getD ipnode default).2.mapEventSets
      (inputEventSetsOf g.heap (g.inTbl.getD ipnode [])) = .ok outSets)
    (heqe : outSets.get? ipport = some es)
    (hcyc : Relation.TransGen (committedE g) (icnode : Int) (ipnode : Int)) :
    connect g pr co = (g, some "cycle introduced in graph") := by
  obtain ⟨hwf, htv⟩ := reachable_WF hreach
  have hipn : ipnode < g.nodes.length := findIdx?_lt_length heqp
  have hicn : icnode < g.nodes.length := findIdx?_lt_length heqc
  have hlt : idxOfI g.tsorted (icnode : Int) < idxOfI g.tsorted (ipnode : Int) :=
    transGen_idx_lt htv hcyc
  have hpc : (ipnode : Int) ≠ (icnode : Int) := by
    intro heq
    rw [heq] at hlt
    exact absurd hlt (lt_irrefl _)
  have ctx := @connect_PKCtx_core g hwf htv ipnode icnode icport es hipn hicn hpc hlt
    (g.outTbl.set ipnode ((g.outTbl.getD ipnode []).set ipport (some g.heap.length)))
    (fun k hk => list_getD_set_ne _ _ _ _ _ (fun h => hk h.symm))
  have hchkT := (pk_cycleCheck_iff ctx).mpr hcyc
  have hord : ¬ idxOfI g.tsorted (ipnode : Int) < idxOfI g.tsorted (icnode : Int) := by
    omega
  have hcycE := updateTopo_cycle_raw g.tsorted
    (g.inTbl.set icnode ((g.inTbl.getD icnode []).set icport (some g.heap.length)))
    (g.outTbl.set ipnode ((g.outTbl.getD ipnode []).set ipport (some g.heap.length)))
    (g.heap ++ [⟨(ipnode : Int), (icnode : Int), es⟩])
    ⟨(ipnode : Int), (icnode : Int), es⟩ hord hchkT
  have hin2 := slot_round_trip g.inTbl icnode icport g.heap.length hInFree
  have hout2 := slot_round_trip g.outTbl ipnode ipport g.heap.length hOutFree
  have hheap : (g.heap ++ [(⟨(ipnode : Int), (icnode : Int), es⟩ : Edge)]).take
      g.heap.length = g.heap := List.take_left g.heap _
  unfold connect
  rw [heqp, heqc]
  dsimp only
  rw [heqpp, heqcp]
  dsimp only
  rw [if_neg (show ¬ ((g.inTbl.getD icnode []).getD icport none).isSome = true by
    rw [hInFree]; simp)]
  rw [if_neg (show ¬ ((g.outTbl.getD ipnode []).getD ipport none).isSome = true by
    rw [hOutFree]; simp)]
  rw [heqo]
  dsimp only
  rw [heqe]
  dsimp only
  rw [hcycE]
  dsimp only
  rw [hin2, hout2, hheap]

/-- Witness for `connect_cycle_rollback`: connecting n1 → n0 on the
committed chain n0 → n1 raises the cycle failure with the graph
unchanged. -/
theorem connect_cycle_rollback_witness :
    connect gChain ("n1", "output") ("n0", "input") =
      (gChain, some "cycle introduced in graph") :=
  connect_cycle_rollback gChain ("n1", "output") ("n0", "input") 1 0 0 0 [[]] []
    (Reachable.conn ("n0", "output") ("n1", "input")
      (Reachable.add "n1" passThroughNode
        (Reachable.add "n0" passThroughNode Reachable.init (by decide)) (by decide))
      (by decide))
    (by decide) (by decide) (by decide) (by decide) (by decide) (by decide)
    (by decide) (by decide)
    (Relation.TransGen.single ⟨0, by decide, by decide, by decide⟩)

/-- C6: a successful topological update either leaves the order unchanged
(producer already before consumer) or rewrites exactly the sorted
affected-region slots `dest_indices` — which all lie between the
consumer's and producer's old positions — with the backward set (the
nodes of the region reaching the producer, original relative order
preserved) followed by the forward set (the nodes of the region reachable
from the consumer, original relative order preserved); every other
position keeps its node id. -/
theorem affected_region_rewrite (L : List Int)
    (inTbl outTbl : List (List (Option Nat))) (heap : List Edge)
    (E : Int → Int → Prop) (e : Edge) :
    (idxOfI L e.producerId < idxOfI L e.consumerId →
      updateTopologicalOrder L inTbl outTbl heap e = .ok L) ∧
    (∀ _ : PKCtx L inTbl outTbl heap E e.consumerId e.producerId,
      ¬ Relation.TransGen E e.consumerId e.producerId →
      ∃ nL, updateTopologicalOrder L inTbl outTbl heap e = .ok nL ∧
        nL.length = L.length ∧
        (∀ i, i ∉ pkDest L inTbl outTbl heap e.consumerId e.producerId
            (idxOfI L e.consumerId) (idxOfI L e.producerId) → nL[i]? = L[i]?) ∧
        (∀ i ∈ pkDest L inTbl outTbl heap e.consumerId e.producerId
            (idxOfI L e.consumerId) (idxOfI L e.producerId),
          idxOfI L e.consumerId ≤ i ∧ i ≤ idxOfI L e.producerId) ∧
        (∀ k, k < (pkDest L inTbl outTbl heap e.consumerId e.producerId
            (idxOfI L e.consumerId) (idxOfI L e.producerId)).length →
          nL[(pkDest L inTbl outTbl heap e.consumerId e.producerId
            (idxOfI L e.consumerId) (idxOfI L e.producerId)).getD k 0]? =
            some ((pkBackwardIds L outTbl heap e.producerId
                (idxOfI L e.consumerId) (idxOfI L e.producerId)
              ++ pkForwardIds L inTbl heap e.consumerId
                (idxOfI L e.consumerId) (idxOfI L e.producerId)).getD k 0)) ∧
        (∀ x, x ∈ pkBackwardIds L outTbl heap e.producerId
            (idxOfI L e.consumerId) (idxOfI L e.producerId) ↔
          (x ∈ L ∧ idxOfI L e.consumerId ≤ idxOfI L x ∧
            idxOfI L x ≤ idxOfI L e.producerId ∧
            Relation.ReflTransGen E x e.producerId)) ∧
        ((pkBackwardIds L outTbl heap e.producerId
          (idxOfI L e.consumerId) (idxOfI L e.producerId)).map (idxOfI L)).Sorted
            (· < ·) ∧
        (∀ x, x ∈ pkForwardIds L inTbl heap e.consumerId
            (idxOfI L e.consumerId) (idxOfI L e.producerId) ↔
          (x ∈ L ∧ idxOfI L e.consumerId ≤ idxOfI L x ∧
            idxOfI L x ≤ idxOfI L e.producerId ∧
            Relation.ReflTransGen E e.consumerId x)) ∧
        ((pkForwardIds L inTbl heap e.consumerId
          (idxOfI L e.consumerId) (idxOfI L e.producerId)).map (idxOfI L)).Sorted
            (· < ·)) := by
  constructor
  · intro hord
    exact updateTopo_already L inTbl outTbl heap e hord
  · intro ctx hnc
    have hord : ¬ idxOfI L e.producerId < idxOfI L e.consumerId := by
      have := ctx.hlt
      omega
    have hchk : producerHit heap (tblGet inTbl e.producerId)
        (pkForwardIds L inTbl heap e.consumerId (idxOfI L e.consumerId)
          (idxOfI L e.producerId)) = false := by
      cases hx : producerHit heap (tblGet inTbl e.producerId)
        (pkForwardIds L inTbl heap e.consumerId (idxOfI L e.consumerId)
          (idxOfI L e.producerId)) with
      | false => rfl
      | true => exact absurd ((pk_cycleCheck_iff ctx).mp hx) hnc
    refine ⟨_, updateTopo_reorder L inTbl outTbl heap e hord hchk,
      pk_newL_len ctx hnc rfl, pk_newL_off ctx hnc rfl, pk_dest_bounds ctx,
      pk_newL_dest ctx hnc rfl, pk_bwdIds_mem ctx hnc,
      pk_bwdIds_mapidx_sorted ctx, pk_fwdIds_mem ctx hnc,
      pk_fwdIds_mapidx_sorted ctx⟩

/-- Witness for `affected_region_rewrite`: adding edge 1 → 0 to the order
`[0, 1]` (no prior edges) rewrites exactly the two affected slots. -/
theorem affected_region_rewrite_witness :
    ∃ nL, updateTopologicalOrder [0, 1] [[some 0], [none]] [[none], [some 0]]
        [⟨1, 0, []⟩] ⟨1, 0, []⟩ = .ok nL ∧
      nL.length = ([0, 1] : List Int).length ∧
      (∀ i, i ∉ pkDest [0, 1] [[some 0], [none]] [[none], [some 0]] [⟨1, 0, []⟩]
          0 1 (idxOfI [0, 1] 0) (idxOfI [0, 1] 1) → nL[i]? = ([0, 1] : List Int)[i]?) ∧
      (∀ i ∈ pkDest [0, 1] [[some 0], [none]] [[none], [some 0]] [⟨1, 0, []⟩]
          0 1 (idxOfI [0, 1] 0) (idxOfI [0, 1] 1),
        idxOfI [0, 1] 0 ≤ i ∧ i ≤ idxOfI [0, 1] 1) ∧
      (∀ k, k < (pkDest [0, 1] [[some 0], [none]] [[none], [some 0]] [⟨1, 0, []⟩]
          0 1 (idxOfI [0, 1] 0) (idxOfI [0, 1] 1)).length →
        nL[(pkDest [0, 1] [[some 0], [none]] [[none], [some 0]] [⟨1, 0, []⟩]
          0 1 (idxOfI [0, 1] 0) (idxOfI [0, 1] 1)).getD k 0]? =
          some ((pkBackwardIds [0, 1] [[none], [some 0]] [⟨1, 0, []⟩] 1
              (idxOfI [0, 1] 0) (idxOfI [0, 1] 1)
            ++ pkForwardIds [0, 1] [[some 0], [none]] [⟨1, 0, []⟩] 0
              (idxOfI [0, 1] 0) (idxOfI [0, 1] 1)).getD k 0)) ∧
      (∀ x, x ∈ pkBackwardIds [0, 1] [[none], [some 0]] [⟨1, 0, []⟩] 1
          (idxOfI [0, 1] 0) (idxOfI [0, 1] 1) ↔
        (x ∈ ([0, 1] : List Int) ∧ idxOfI [0, 1] 0 ≤ idxOfI [0, 1] x ∧
          idxOfI [0, 1] x ≤ idxOfI [0, 1] 1 ∧
          Relation.ReflTransGen (fun _ _ => False) x 1)) ∧
      ((pkBackwardIds [0, 1] [[none], [some 0]] [⟨1, 0, []⟩] 1
        (idxOfI [0, 1] 0) (idxOfI [0, 1] 1)).map (idxOfI [0, 1])).Sorted (· < ·) ∧
      (∀ x, x ∈ pkForwardIds [0, 1] [[some 0], [none]] [⟨1, 0, []⟩] 0
          (idxOfI [0, 1] 0) (idxOfI [0, 1] 1) ↔
        (x ∈ ([0, 1] : List Int) ∧ idxOfI [0, 1] 0 ≤ idxOfI [0, 1] x ∧
          idxOfI [0, 1] x ≤ idxOfI [0, 1] 1 ∧
          Relation.ReflTransGen (fun _ _ => False) 0 x)) ∧
      ((pkForwardIds [0, 1] [[some 0], [none]] [⟨1, 0, []⟩] 0
        (idxOfI [0, 1] 0) (idxOfI [0, 1] 1)).map (idxOfI [0, 1])).Sorted (· < ·) :=
  (affected_region_rewrite [0, 1] [[some 0], [none]] [[none], [some 0]]
      [⟨1, 0, []⟩] (fun _ _ => False) ⟨1, 0, []⟩).2
    ⟨by decide, by decide, by decide, by decide,
      fun u v h => h.elim, fun u v h => h.elim,
      by
        intro v hv hne u
        constructor
        · rintro ⟨r, hr, -⟩
          simp only [List.mem_cons, List.not_mem_nil, or_false] at hv
          rcases hv with rfl | rfl
          · exact hne rfl
          · simp [tblGet] at hr
        · exact fun h => h.elim,
      by
        intro u hu hne v
        constructor
        · rintro ⟨r, hr, -⟩
          simp only [List.mem_cons, List.not_mem_nil, or_false] at hu
          rcases hu with rfl | rfl
          · simp [tblGet] at hr
          · exact hne rfl
        · exact fun h => h.elim,
      by decide⟩
    (by
      intro h
      cases h with
      | single h2 => exact h2
      | tail h1 h2 => exact h2)
